import Mathlib

/-!
Verification of the core semantic pipeline of the phase-rs interpreter.

The Rust source is embedded shallowly:

* `f64` values (phase angles and the running phase multiplier) are modelled by
  `ℚ`.  Every `f64` operation the core performs on them (negation, halving,
  multiplication, exact comparison with the literals `0.5`, `1.0`, `1.5`) is
  exact in binary64 floating point, so the rational model computes exactly the
  same values as the Rust code.
* complex matrices (`faer::Mat<Complex<f64>>`) are modelled as total functions
  `ℕ → ℕ → ℂ`; each operation carries the relevant dimension explicitly, and a
  matrix of size `r × c` is required to vanish outside that range (`IsDim`).
  Floating-point approximate equality (tolerance `10⁻⁶`) is modelled by exact
  equality over `ℂ`.
* `Vec<T>` fields of the IR enums are modelled by mutually inductive list
  types so that all syntactic functions are structurally recursive and compute
  by kernel reduction.
-/

namespace PhaseRs

/-- Complex matrices, modelled as total functions from pairs of natural number
indices to complex entries.  Dimensions are tracked by the operations. -/
def CMat : Type := ℕ → ℕ → ℂ

/-- Two matrices are equal when they agree entrywise. -/
theorem CMat.ext {A B : CMat} (h : ∀ i j, A i j = B i j) : A = B :=
  funext fun i => funext fun j => h i j

/-- The all-zero matrix (of every dimension). -/
def zeroM : CMat := fun _ _ => 0

/-- The `n × n` identity matrix, vanishing outside the range. -/
def idM (n : ℕ) : CMat := fun i j => if i = j ∧ i < n then 1 else 0

/-- Entrywise sum of matrices. -/
def madd (A B : CMat) : CMat := fun i j => A i j + B i j

/-- Scalar multiple of a matrix. -/
def smulM (c : ℂ) (A : CMat) : CMat := fun i j => c * A i j

/-- Matrix product with explicit inner dimension `k`. -/
noncomputable def mmul (k : ℕ) (A B : CMat) : CMat :=
  fun i j => ∑ l ∈ Finset.range k, A i l * B l j

/-- Conjugate transpose. -/
def adjM (A : CMat) : CMat := fun i j => (starRingEnd ℂ) (A j i)

/-- Kronecker product; `r2 × c2` are the dimensions of the right factor `B`,
matching the row-major block layout of `faer`'s `kron`. -/
def kron (r2 c2 : ℕ) (A B : CMat) : CMat :=
  fun i j => A (i / r2) (j / c2) * B (i % r2) (j % c2)

/-- A matrix has dimension `r × c` when it vanishes outside that range. -/
def IsDim (r c : ℕ) (A : CMat) : Prop :=
  ∀ i j, r ≤ i ∨ c ≤ j → A i j = 0

theorem isDim_zeroM (r c : ℕ) : IsDim r c zeroM := fun _ _ _ => rfl

theorem isDim_idM (n : ℕ) : IsDim n n (idM n) := by
  intro i j h
  simp only [idM, ite_eq_right_iff, and_imp]
  intro hij hi
  omega

theorem isDim_madd {r c : ℕ} {A B : CMat} (hA : IsDim r c A) (hB : IsDim r c B) :
    IsDim r c (madd A B) := by
  intro i j h
  simp [madd, hA i j h, hB i j h]

theorem isDim_smulM {r c : ℕ} (z : ℂ) {A : CMat} (hA : IsDim r c A) :
    IsDim r c (smulM z A) := by
  intro i j h
  simp [smulM, hA i j h]

theorem isDim_mmul {r k c : ℕ} {A B : CMat} (hA : IsDim r k A) (hB : IsDim k c B) :
    IsDim r c (mmul k A B) := by
  intro i j h
  simp only [mmul]
  refine Finset.sum_eq_zero fun l _ => ?_
  rcases h with h | h
  · rw [hA i l (Or.inl h), zero_mul]
  · rw [hB l j (Or.inr h), mul_zero]

theorem isDim_adjM {r c : ℕ} {A : CMat} (hA : IsDim r c A) : IsDim c r (adjM A) := by
  intro i j h
  simp only [adjM]
  rw [hA j i h.symm, map_zero]

theorem isDim_kron {r1 c1 r2 c2 : ℕ} {A B : CMat}
    (hA : IsDim r1 c1 A) (hB : IsDim r2 c2 B) :
    IsDim (r1 * r2) (c1 * c2) (kron r2 c2 A B) := by
  intro i j h
  simp only [kron]
  rcases h with h | h
  · rcases Nat.eq_zero_or_pos r2 with h2 | h2
    · subst h2
      rw [hB (i % 0) (j % c2) (Or.inl (Nat.zero_le _)), mul_zero]
    · rw [hA (i / r2) (j / c2) (Or.inl ((Nat.le_div_iff_mul_le h2).2 (by nlinarith))),
        zero_mul]
  · rcases Nat.eq_zero_or_pos c2 with h2 | h2
    · subst h2
      rw [hB (i % r2) (j % 0) (Or.inr (Nat.zero_le _)), mul_zero]
    · rw [hA (i / r2) (j / c2) (Or.inr ((Nat.le_div_iff_mul_le h2).2 (by nlinarith))),
        zero_mul]

theorem madd_comm (A B : CMat) : madd A B = madd B A :=
  CMat.ext fun i j => add_comm (A i j) (B i j)

theorem madd_assoc (A B C : CMat) : madd (madd A B) C = madd A (madd B C) :=
  CMat.ext fun i j => add_assoc (A i j) (B i j) (C i j)

theorem madd_zeroM (A : CMat) : madd A zeroM = A :=
  CMat.ext fun i j => add_zero (A i j)

theorem zeroM_madd (A : CMat) : madd zeroM A = A :=
  CMat.ext fun i j => zero_add (A i j)

theorem mmul_zeroM (k : ℕ) (A : CMat) : mmul k A zeroM = zeroM := by
  refine CMat.ext fun i j => ?_
  simp [mmul, zeroM]

theorem zeroM_mmul (k : ℕ) (A : CMat) : mmul k zeroM A = zeroM := by
  refine CMat.ext fun i j => ?_
  simp [mmul, zeroM]

theorem mmul_idM {r c : ℕ} {A : CMat} (hA : IsDim r c A) : mmul c A (idM c) = A := by
  refine CMat.ext fun i j => ?_
  simp only [mmul, idM, mul_ite, mul_one, mul_zero]
  rcases Nat.lt_or_ge j c with hj | hj
  · rw [Finset.sum_eq_single j]
    · simp [hj]
    · intro l _ hne
      rw [if_neg]
      exact fun h => hne h.1
    · intro hmem
      exact absurd (Finset.mem_range.2 hj) hmem
  · rw [hA i j (Or.inr hj)]
    refine Finset.sum_eq_zero fun l hl => ?_
    rw [if_neg]
    exact fun h => absurd hj (not_le.2 (h.1 ▸ h.2))

theorem idM_mmul {r c : ℕ} {A : CMat} (hA : IsDim r c A) : mmul r (idM r) A = A := by
  refine CMat.ext fun i j => ?_
  simp only [mmul, idM, ite_mul, one_mul, zero_mul]
  rcases Nat.lt_or_ge i r with hi | hi
  · rw [Finset.sum_eq_single i]
    · simp [hi]
    · intro l _ hne
      rw [if_neg]
      exact fun h => hne h.1.symm
    · intro hmem
      exact absurd (Finset.mem_range.2 hi) hmem
  · rw [hA i j (Or.inl hi)]
    refine Finset.sum_eq_zero fun l hl => ?_
    rw [if_neg]
    exact fun h => absurd hi (not_le.2 h.2)

theorem mmul_assoc (k1 k2 : ℕ) (A B C : CMat) :
    mmul k2 (mmul k1 A B) C = mmul k1 A (mmul k2 B C) := by
  refine CMat.ext fun i j => ?_
  simp only [mmul, Finset.sum_mul, Finset.mul_sum]
  rw [Finset.sum_comm]
  exact Finset.sum_congr rfl fun l _ => Finset.sum_congr rfl fun m _ => by ring

theorem madd_mmul (k : ℕ) (A B C : CMat) :
    mmul k (madd A B) C = madd (mmul k A C) (mmul k B C) := by
  refine CMat.ext fun i j => ?_
  simp only [mmul, madd, add_mul]
  exact Finset.sum_add_distrib

theorem mmul_madd (k : ℕ) (A B C : CMat) :
    mmul k A (madd B C) = madd (mmul k A B) (mmul k A C) := by
  refine CMat.ext fun i j => ?_
  simp only [mmul, madd, mul_add]
  exact Finset.sum_add_distrib

theorem adjM_adjM (A : CMat) : adjM (adjM A) = A :=
  CMat.ext fun i j => Complex.conj_conj (A i j)

theorem adjM_idM (n : ℕ) : adjM (idM n) = idM n := by
  refine CMat.ext fun i j => ?_
  simp only [adjM, idM]
  split
  · next h => simp [h.1, h.1 ▸ h.2]
  · next h =>
    have : ¬(i = j ∧ i < n) := by
      intro hc
      exact h ⟨hc.1.symm, hc.1 ▸ hc.2⟩
    simp [this]

theorem adjM_zeroM : adjM zeroM = zeroM := by
  refine CMat.ext fun i j => ?_
  simp [adjM, zeroM]

theorem adjM_madd (A B : CMat) : adjM (madd A B) = madd (adjM A) (adjM B) :=
  CMat.ext fun i j => map_add _ (A j i) (B j i)

theorem adjM_mmul (k : ℕ) (A B : CMat) :
    adjM (mmul k A B) = mmul k (adjM B) (adjM A) := by
  refine CMat.ext fun i j => ?_
  simp only [adjM, mmul, map_sum, map_mul]
  exact Finset.sum_congr rfl fun l _ => mul_comm _ _

theorem adjM_kron (r2 c2 : ℕ) (A B : CMat) :
    adjM (kron r2 c2 A B) = kron c2 r2 (adjM A) (adjM B) := by
  refine CMat.ext fun i j => ?_
  simp [adjM, kron]

theorem adjM_smulM (c : ℂ) (A : CMat) :
    adjM (smulM c A) = smulM ((starRingEnd ℂ) c) (adjM A) := by
  refine CMat.ext fun i j => ?_
  simp [adjM, smulM]

theorem kron_madd_left (r2 c2 : ℕ) (A B C : CMat) :
    kron r2 c2 (madd A B) C = madd (kron r2 c2 A C) (kron r2 c2 B C) :=
  CMat.ext fun i j => add_mul _ _ _

theorem kron_madd_right (r2 c2 : ℕ) (A B C : CMat) :
    kron r2 c2 A (madd B C) = madd (kron r2 c2 A B) (kron r2 c2 A C) :=
  CMat.ext fun i j => mul_add _ _ _

/-- Splitting a sum over `range (m + c)` into a prefix and a shifted suffix. -/
theorem sum_range_add_split (f : ℕ → ℂ) (m c : ℕ) :
    ∑ k ∈ Finset.range (m + c), f k
      = (∑ k ∈ Finset.range m, f k) + ∑ j ∈ Finset.range c, f (m + j) := by
  induction c with
  | zero => simp
  | succ n ih =>
    rw [Nat.add_succ, Finset.sum_range_succ, ih, Finset.sum_range_succ, add_assoc]

/-- Reindexing a sum over `range (a * b)` as a double sum. -/
theorem sum_range_mul_eq (f : ℕ → ℂ) (a b : ℕ) :
    ∑ k ∈ Finset.range (a * b), f k
      = ∑ i ∈ Finset.range a, ∑ j ∈ Finset.range b, f (i * b + j) := by
  induction a with
  | zero => simp
  | succ n ih =>
    rw [Nat.succ_mul, sum_range_add_split, ih, Finset.sum_range_succ]

/-- Mixed-product law for the Kronecker product.  The dimensions follow the
block layout: `A` has `c1` columns, `B` is `r2 × c2`, `B2` is `c2 × k2`. -/
theorem kron_mmul (c1 r2 c2 k2 : ℕ) (A B A2 B2 : CMat) :
    mmul (c1 * c2) (kron r2 c2 A B) (kron c2 k2 A2 B2)
      = kron r2 k2 (mmul c1 A A2) (mmul c2 B B2) := by
  refine CMat.ext fun i j => ?_
  rcases Nat.eq_zero_or_pos c2 with h2 | h2
  · subst h2
    simp [mmul, kron]
  · simp only [mmul, kron, sum_range_mul_eq _ c1 c2, Finset.sum_mul_sum]
    refine Finset.sum_congr rfl fun ka hka => Finset.sum_congr rfl fun kb hkb => ?_
    have hkb2 : kb < c2 := Finset.mem_range.1 hkb
    have hdiv : (ka * c2 + kb) / c2 = ka := by
      rw [Nat.mul_comm ka c2, Nat.mul_add_div h2, Nat.div_eq_of_lt hkb2, add_zero]
    have hmod : (ka * c2 + kb) % c2 = kb := by
      rw [Nat.mul_comm ka c2, Nat.mul_add_mod, Nat.mod_eq_of_lt hkb2]
    rw [hdiv, hmod]
    ring

/-- Kronecker product of identities. -/
theorem kron_idM (a b : ℕ) : kron b b (idM a) (idM b) = idM (a * b) := by
  refine CMat.ext fun i j => ?_
  rcases Nat.eq_zero_or_pos b with hb | hb
  · subst hb
    simp [kron, idM]
  · simp only [kron, idM]
    have hmb : i % b < b := Nat.mod_lt _ hb
    by_cases h : i = j ∧ i < a * b
    · have hd : i / b < a := Nat.div_lt_of_lt_mul (by rw [Nat.mul_comm]; exact h.2)
      rw [if_pos ⟨by rw [h.1], hd⟩, if_pos ⟨by rw [h.1], hmb⟩, if_pos h, one_mul]
    · rw [if_neg h]
      by_cases h1 : i / b = j / b ∧ i / b < a
      · rw [if_pos h1, if_neg, mul_zero]
        intro h2
        apply h
        have hi := Nat.div_add_mod i b
        have hj := Nat.div_add_mod j b
        rw [h1.1, h2.1] at hi
        exact ⟨by rw [← hi, hj], (Nat.div_lt_iff_lt_mul hb).1 h1.2⟩
      · rw [if_neg h1, zero_mul]

/-- Tensoring with the `1 × 1` identity on the left is the identity operation
on matrices of declared dimension `r × c`. -/
theorem kron_one_left {r c : ℕ} {A : CMat} (hA : IsDim r c A) :
    kron r c (idM 1) A = A := by
  refine CMat.ext fun i j => ?_
  simp only [kron, idM]
  rcases Nat.lt_or_ge i r with hi | hi
  · rcases Nat.lt_or_ge j c with hj | hj
    · rw [Nat.div_eq_of_lt hi, Nat.div_eq_of_lt hj, Nat.mod_eq_of_lt hi,
        Nat.mod_eq_of_lt hj]
      simp
    · rcases Nat.eq_zero_or_pos c with hc | hc
      · subst hc
        rw [hA (i % r) (j % 0) (Or.inr (Nat.zero_le _)), mul_zero,
          hA i j (Or.inr (Nat.zero_le _))]
      · have hjc : 1 ≤ j / c := (Nat.one_le_div_iff hc).2 hj
        rw [hA i j (Or.inr hj), Nat.div_eq_of_lt hi, if_neg, zero_mul]
        exact fun h => absurd hjc (by omega)
  · rcases Nat.eq_zero_or_pos r with hr | hr
    · subst hr
      rw [hA (i % 0) (j % c) (Or.inl (Nat.zero_le _)), mul_zero,
        hA i j (Or.inl (Nat.zero_le _))]
    · have hir : 1 ≤ i / r := (Nat.one_le_div_iff hr).2 hi
      rw [hA i j (Or.inl hi), if_neg, zero_mul]
      exact fun h => absurd hir (by omega)

/-- Semantics of a phase angle `a` (in units of π, as stored by the code):
the complex number `e^{i·a·π}`, matching `Complex::cis(angle * PI)`. -/
noncomputable def cis (a : ℚ) : ℂ := Complex.exp (Complex.I * ((a : ℝ) * Real.pi))

theorem cis_zero : cis 0 = 1 := by
  simp [cis]

theorem cis_add (a b : ℚ) : cis (a + b) = cis a * cis b := by
  rw [cis, cis, cis, ← Complex.exp_add]
  push_cast
  ring_nf

theorem star_cis (a : ℚ) : (starRingEnd ℂ) (cis a) = cis (-a) := by
  rw [cis, cis, ← Complex.exp_conj]
  congr 1
  rw [map_mul, Complex.conj_I, map_mul, Complex.conj_ofReal, Complex.conj_ofReal]
  push_cast
  ring

theorem cis_mul_star (a : ℚ) : cis a * (starRingEnd ℂ) (cis a) = 1 := by
  rw [star_cis, ← cis_add, add_neg_cancel, cis_zero]

theorem star_cis_mul (a : ℚ) : (starRingEnd ℂ) (cis a) * cis a = 1 := by
  rw [star_cis, ← cis_add, neg_add_cancel, cis_zero]

/-- A 1×1 matrix holding a single phase. -/
noncomputable def phaseMat (a : ℚ) : CMat :=
  fun i j => if i = 0 ∧ j = 0 then cis a else 0

theorem isDim_phaseMat (a : ℚ) : IsDim 1 1 (phaseMat a) := by
  intro i j h
  rw [phaseMat, if_neg]
  omega

/-- `A` is an `n × n` unitary: correct dimensions and both adjoint products
give the identity. -/
def UnitaryDim (n : ℕ) (A : CMat) : Prop :=
  IsDim n n A ∧ mmul n A (adjM A) = idM n ∧ mmul n (adjM A) A = idM n

/-- The invariants of the inj/proj decomposition of a normal-form pattern of
type `q ni < q no`: `inj` is a `no × ni` isometry, `proj` a self-adjoint
`no × no` matrix, and together they resolve the identity. -/
def InjProj (no ni : ℕ) (inj proj : CMat) : Prop :=
  IsDim no ni inj ∧ IsDim no no proj ∧
    mmul no (adjM inj) inj = idM ni ∧
    adjM proj = proj ∧
    madd proj (mmul ni inj (adjM inj)) = idM no

theorem madd_left_cancel_zero {X Y : CMat} (h : madd X Y = Y) : X = zeroM := by
  refine CMat.ext fun i j => ?_
  have h2 : X i j + Y i j = Y i j := congrFun (congrFun h i) j
  exact add_left_eq_self.mp h2

theorem InjProj.proj_mmul_inj {no ni : ℕ} {inj proj : CMat}
    (h : InjProj no ni inj proj) : mmul no proj inj = zeroM := by
  obtain ⟨hdi, hdp, hiso, hsa, hsum⟩ := h
  apply madd_left_cancel_zero (Y := inj)
  have step : mmul no (madd proj (mmul ni inj (adjM inj))) inj = inj := by
    rw [hsum, idM_mmul hdi]
  rw [madd_mmul] at step
  calc madd (mmul no proj inj) inj
      = madd (mmul no proj inj) (mmul no (mmul ni inj (adjM inj)) inj) := by
        rw [mmul_assoc, hiso, mmul_idM hdi]
    _ = inj := step

theorem InjProj.adjinj_mmul_proj {no ni : ℕ} {inj proj : CMat}
    (h : InjProj no ni inj proj) : mmul no (adjM inj) proj = zeroM := by
  have h2 := congrArg adjM (h.proj_mmul_inj)
  rw [adjM_mmul, h.2.2.2.1, adjM_zeroM] at h2
  exact h2

theorem InjProj.proj_mmul_proj {no ni : ℕ} {inj proj : CMat}
    (h : InjProj no ni inj proj) : mmul no proj proj = proj := by
  obtain ⟨hdi, hdp, hiso, hsa, hsum⟩ := h
  have step : mmul no proj (madd proj (mmul ni inj (adjM inj))) = proj := by
    rw [hsum, mmul_idM hdp]
  rw [mmul_madd] at step
  have z : mmul no proj (mmul ni inj (adjM inj)) = zeroM := by
    rw [← mmul_assoc, InjProj.proj_mmul_inj ⟨hdi, hdp, hiso, hsa, hsum⟩, zeroM_mmul]
  rw [z, madd_zeroM] at step
  exact step

theorem unitary_idM (n : ℕ) : UnitaryDim n (idM n) := by
  refine ⟨isDim_idM n, ?_, ?_⟩ <;>
    rw [adjM_idM, mmul_idM (isDim_idM n)]

theorem unitary_phaseMat (a : ℚ) : UnitaryDim 1 (phaseMat a) := by
  refine ⟨isDim_phaseMat a, ?_, ?_⟩
  · refine CMat.ext fun i j => ?_
    simp only [mmul, adjM, phaseMat, idM, Finset.range_one, Finset.sum_singleton]
    by_cases hi : i = 0
    · by_cases hj : j = 0
      · subst hi; subst hj
        simpa using cis_mul_star a
      · subst hi
        simp [hj, eq_comm]
    · simp [hi]
  · refine CMat.ext fun i j => ?_
    simp only [mmul, adjM, phaseMat, idM, Finset.range_one, Finset.sum_singleton]
    by_cases hi : i = 0
    · by_cases hj : j = 0
      · subst hi; subst hj
        simpa using star_cis_mul a
      · subst hi
        simp [hj, eq_comm]
    · simp [hi]

theorem UnitaryDim.mmulU {n : ℕ} {A B : CMat} (hA : UnitaryDim n A)
    (hB : UnitaryDim n B) : UnitaryDim n (mmul n A B) := by
  obtain ⟨hdA, hA1, hA2⟩ := hA
  obtain ⟨hdB, hB1, hB2⟩ := hB
  refine ⟨isDim_mmul hdA hdB, ?_, ?_⟩
  · rw [adjM_mmul, mmul_assoc, ← mmul_assoc n n B, hB1, idM_mmul (isDim_adjM hdA), hA1]
  · rw [adjM_mmul, mmul_assoc, ← mmul_assoc n n (adjM A), hA2, idM_mmul hdB, hB2]

theorem UnitaryDim.adjU {n : ℕ} {A : CMat} (hA : UnitaryDim n A) :
    UnitaryDim n (adjM A) :=
  ⟨isDim_adjM hA.1, by rw [adjM_adjM]; exact hA.2.2, by rw [adjM_adjM]; exact hA.2.1⟩

theorem UnitaryDim.kronU {n m : ℕ} {A B : CMat} (hA : UnitaryDim n A)
    (hB : UnitaryDim m B) : UnitaryDim (n * m) (kron m m A B) := by
  obtain ⟨hdA, hA1, hA2⟩ := hA
  obtain ⟨hdB, hB1, hB2⟩ := hB
  refine ⟨isDim_kron hdA hdB, ?_, ?_⟩
  · rw [adjM_kron, kron_mmul, hA1, hB1, kron_idM]
  · rw [adjM_kron, kron_mmul, hA2, hB2, kron_idM]

/-- The `if let` synthesis rule `proj + inj · U · injᴴ` produces a unitary
whenever `(inj, proj)` satisfy the pattern invariants and `U` is unitary. -/
theorem ifLet_unitary {no ni : ℕ} {inj proj U : CMat}
    (hp : InjProj no ni inj proj) (hu : UnitaryDim ni U) :
    UnitaryDim no (madd proj (mmul ni (mmul ni inj U) (adjM inj))) := by
  have hpi := hp.proj_mmul_inj
  have hip := hp.adjinj_mmul_proj
  have hpp := hp.proj_mmul_proj
  obtain ⟨hdi, hdp, hiso, hsa, hsum⟩ := hp
  obtain ⟨hdU, hU1, hU2⟩ := hu
  have hdT : IsDim no no (mmul ni (mmul ni inj U) (adjM inj)) :=
    isDim_mmul (isDim_mmul hdi hdU) (isDim_adjM hdi)
  have hadjT : adjM (mmul ni (mmul ni inj U) (adjM inj))
      = mmul ni (mmul ni inj (adjM U)) (adjM inj) := by
    rw [adjM_mmul, adjM_mmul, adjM_adjM, mmul_assoc]
  refine ⟨isDim_madd hdp hdT, ?_, ?_⟩
  · rw [adjM_madd, hsa, hadjT, mmul_madd, madd_mmul, madd_mmul, hpp]
    have z1 : mmul no proj (mmul ni (mmul ni inj (adjM U)) (adjM inj)) = zeroM := by
      rw [← mmul_assoc, ← mmul_assoc, hpi, zeroM_mmul, zeroM_mmul]
    have z2 : mmul no (mmul ni (mmul ni inj U) (adjM inj)) proj = zeroM := by
      rw [mmul_assoc, hip, mmul_zeroM]
    have z3 : mmul no (mmul ni (mmul ni inj U) (adjM inj))
        (mmul ni (mmul ni inj (adjM U)) (adjM inj))
          = mmul ni inj (adjM inj) := by
      rw [mmul_assoc ni no,
        ← mmul_assoc no ni (adjM inj) (mmul ni inj (adjM U)) (adjM inj),
        ← mmul_assoc no ni (adjM inj) inj (adjM U), hiso, idM_mmul (isDim_adjM hdU),
        mmul_assoc ni ni inj U, ← mmul_assoc ni ni U (adjM U) (adjM inj), hU1,
        idM_mmul (isDim_adjM hdi)]
    rw [z1, z2, z3, madd_zeroM, zeroM_madd, hsum]
  · rw [adjM_madd, hsa, hadjT, mmul_madd, madd_mmul, madd_mmul, hpp]
    have z1 : mmul no proj (mmul ni (mmul ni inj U) (adjM inj)) = zeroM := by
      rw [← mmul_assoc, ← mmul_assoc, hpi, zeroM_mmul, zeroM_mmul]
    have z2 : mmul no (mmul ni (mmul ni inj (adjM U)) (adjM inj)) proj = zeroM := by
      rw [mmul_assoc, hip, mmul_zeroM]
    have z3 : mmul no (mmul ni (mmul ni inj (adjM U)) (adjM inj))
        (mmul ni (mmul ni inj U) (adjM inj))
          = mmul ni inj (adjM inj) := by
      rw [mmul_assoc ni no,
        ← mmul_assoc no ni (adjM inj) (mmul ni inj U) (adjM inj),
        ← mmul_assoc no ni (adjM inj) inj U, hiso, idM_mmul hdU,
        mmul_assoc ni ni inj (adjM U), ← mmul_assoc ni ni (adjM U) U (adjM inj), hU2,
        idM_mmul (isDim_adjM hdi)]
    rw [z1, z2, z3, madd_zeroM, zeroM_madd, hsum]

/-- The empty pattern composition yields the identity isometry and zero
projector. -/
theorem injProj_id (n : ℕ) : InjProj n n (idM n) zeroM := by
  refine ⟨isDim_idM n, isDim_zeroM n n, ?_, adjM_zeroM, ?_⟩
  · rw [adjM_idM, mmul_idM (isDim_idM n)]
  · rw [adjM_idM, mmul_idM (isDim_idM n), zeroM_madd]

/-- A unitary leaf of a pattern yields itself as isometry and zero
projector. -/
theorem injProj_unitary {n : ℕ} {U : CMat} (hU : UnitaryDim n U) :
    InjProj n n U zeroM :=
  ⟨hU.1, isDim_zeroM n n, hU.2.2, adjM_zeroM, by rw [zeroM_madd]; exact hU.2.1⟩

/-- One step of the pattern-composition fold
`(i1, p1) ⋆ (i2, p2) = (i1·i2, p1 + i1·p2·i1ᴴ)` preserves the invariants. -/
theorem injProj_comp_step {a b c : ℕ} {i1 p1 i2 p2 : CMat}
    (h1 : InjProj a b i1 p1) (h2 : InjProj b c i2 p2) :
    InjProj a c (mmul b i1 i2) (madd p1 (mmul b (mmul b i1 p2) (adjM i1))) := by
  obtain ⟨hd1, hdp1, hiso1, hsa1, hsum1⟩ := h1
  obtain ⟨hd2, hdp2, hiso2, hsa2, hsum2⟩ := h2
  have hdmix : IsDim a a (mmul b (mmul b i1 p2) (adjM i1)) :=
    isDim_mmul (isDim_mmul hd1 hdp2) (isDim_adjM hd1)
  refine ⟨isDim_mmul hd1 hd2, isDim_madd hdp1 hdmix, ?_, ?_, ?_⟩
  · rw [adjM_mmul, mmul_assoc b a, ← mmul_assoc a b (adjM i1) i1 i2, hiso1,
      idM_mmul hd2, hiso2]
  · rw [adjM_madd, hsa1, adjM_mmul, adjM_mmul, adjM_adjM, hsa2, mmul_assoc]
  · rw [adjM_mmul, mmul_assoc b c, ← mmul_assoc c b, madd_assoc]
    rw [mmul_assoc b b i1 p2 (adjM i1),
      ← mmul_madd b i1 (mmul b p2 (adjM i1)) (mmul b (mmul c i2 (adjM i2)) (adjM i1)),
      ← madd_mmul b p2 (mmul c i2 (adjM i2)) (adjM i1), hsum2,
      idM_mmul (isDim_adjM hd1), hsum1]

/-- One step of the pattern-tensor fold
`(i1, p1) ⋆ (i2, p2) = (i1 ⊗ i2, p1 ⊗ I + (i1·i1ᴴ) ⊗ p2)` preserves the
invariants.  Here `(a, b)` and `(c, d)` are the dimensions of the two
operands. -/
theorem injProj_tensor_step {a b c d : ℕ} {i1 p1 i2 p2 : CMat}
    (h1 : InjProj a b i1 p1) (h2 : InjProj c d i2 p2) :
    InjProj (a * c) (b * d) (kron c d i1 i2)
      (madd (kron c c p1 (idM c)) (kron c c (mmul b i1 (adjM i1)) p2)) := by
  obtain ⟨hd1, hdp1, hiso1, hsa1, hsum1⟩ := h1
  obtain ⟨hd2, hdp2, hiso2, hsa2, hsum2⟩ := h2
  refine ⟨isDim_kron hd1 hd2,
    isDim_madd (isDim_kron hdp1 (isDim_idM c))
      (isDim_kron (isDim_mmul hd1 (isDim_adjM hd1)) hdp2), ?_, ?_, ?_⟩
  · rw [adjM_kron, kron_mmul, hiso1, hiso2, kron_idM]
  · rw [adjM_madd, adjM_kron, adjM_kron, hsa1, adjM_idM, hsa2, adjM_mmul, adjM_adjM]
  · rw [adjM_kron, kron_mmul, madd_assoc, ← kron_madd_right, hsum2,
      ← kron_madd_left, hsum1, kron_idM]

/-- The scalar `1/√2`, the `FRAC_1_SQRT_2` constant of the source. -/
noncomputable def invSqrt2 : ℂ := ((Real.sqrt 2)⁻¹ : ℝ)

theorem star_invSqrt2 : (starRingEnd ℂ) invSqrt2 = invSqrt2 :=
  Complex.conj_ofReal _

theorem invSqrt2_mul_self : invSqrt2 * invSqrt2 = 1 / 2 := by
  rw [invSqrt2, ← Complex.ofReal_mul, ← mul_inv, Real.mul_self_sqrt (by norm_num)]
  norm_num

/-- A `2 × 1` column vector with the given entries. -/
def vec2 (c0 c1 : ℂ) : CMat :=
  fun i j => if j = 0 then (if i = 0 then c0 else if i = 1 then c1 else 0) else 0

theorem isDim_vec2 (c0 c1 : ℂ) : IsDim 2 1 (vec2 c0 c1) := by
  intro i j h
  rcases h with h | h
  · simp only [vec2]
    split
    · rw [if_neg (by omega), if_neg (by omega)]
    · rfl
  · rw [vec2, if_neg (by omega)]

theorem vec2_iso {a b : ℂ} (h : (starRingEnd ℂ) a * a + (starRingEnd ℂ) b * b = 1) :
    mmul 2 (adjM (vec2 a b)) (vec2 a b) = idM 1 := by
  refine CMat.ext fun i j => ?_
  simp only [mmul, adjM, vec2, idM, Finset.sum_range_succ, Finset.range_zero,
    Finset.sum_empty]
  by_cases hi : i = 0
  · by_cases hj : j = 0
    · subst hi; subst hj
      simpa using h
    · subst hi
      simp [hj, eq_comm]
  · simp [hi]

theorem vec2_pair_sum {a b c0 c1 : ℂ}
    (h00 : c0 * (starRingEnd ℂ) c0 + a * (starRingEnd ℂ) a = 1)
    (h11 : c1 * (starRingEnd ℂ) c1 + b * (starRingEnd ℂ) b = 1)
    (h01 : c0 * (starRingEnd ℂ) c1 + a * (starRingEnd ℂ) b = 0)
    (h10 : c1 * (starRingEnd ℂ) c0 + b * (starRingEnd ℂ) a = 0) :
    madd (mmul 1 (vec2 c0 c1) (adjM (vec2 c0 c1)))
      (mmul 1 (vec2 a b) (adjM (vec2 a b))) = idM 2 := by
  refine CMat.ext fun i j => ?_
  have e : ∀ A B : CMat, madd (mmul 1 A (adjM A)) (mmul 1 B (adjM B)) i j
      = A i 0 * (starRingEnd ℂ) (A j 0) + B i 0 * (starRingEnd ℂ) (B j 0) := by
    intro A B
    simp [madd, mmul, adjM]
  rw [e]
  rcases Nat.lt_or_ge i 2 with hi | hi
  · rcases Nat.lt_or_ge j 2 with hj | hj
    · interval_cases i <;> interval_cases j
      · simpa [vec2, idM] using h00
      · simpa [vec2, idM] using h01
      · simpa [vec2, idM] using h10
      · simpa [vec2, idM] using h11
    · rw [isDim_vec2 c0 c1 j 0 (Or.inl hj), isDim_vec2 a b j 0 (Or.inl hj),
        isDim_idM 2 i j (Or.inr hj)]
      simp
  · rw [isDim_vec2 c0 c1 i 0 (Or.inl hi), isDim_vec2 a b i 0 (Or.inl hi),
      isDim_idM 2 i j (Or.inl hi)]
    simp

/-- The four elementary ket states (`KetState`). -/
inductive KetState where
  | zero
  | one
  | plus
  | minus
deriving DecidableEq

/-- Complement of a state: swaps the computational and Hadamard bases
(`KetState::compl`). -/
def KetState.compl : KetState → KetState
  | .zero => .one
  | .one => .zero
  | .plus => .minus
  | .minus => .plus

/-- The column vector represented by a state (`KetState::to_state`). -/
noncomputable def KetState.toState : KetState → CMat
  | .zero => vec2 1 0
  | .one => vec2 0 1
  | .plus => vec2 invSqrt2 invSqrt2
  | .minus => vec2 invSqrt2 (-invSqrt2)

/-- The `Ket` leaf of `to_inj_and_proj` satisfies the pattern invariants:
the state is a unit column and the complement supplies the orthogonal
projector. -/
theorem ket_injProj (s : KetState) :
    InjProj 2 1 s.toState (mmul 1 s.compl.toState (adjM s.compl.toState)) := by
  have hsa : ∀ v : CMat, adjM (mmul 1 v (adjM v)) = mmul 1 v (adjM v) := fun v => by
    rw [adjM_mmul, adjM_adjM]
  have hhalf : invSqrt2 * invSqrt2 = 1 / 2 := invSqrt2_mul_self
  cases s <;>
    exact ⟨isDim_vec2 _ _,
      isDim_mmul (isDim_vec2 _ _) (isDim_adjM (isDim_vec2 _ _)),
      vec2_iso (by simp [star_invSqrt2, hhalf]; try norm_num),
      hsa _,
      vec2_pair_sum (by simp [star_invSqrt2, hhalf]; try norm_num)
        (by simp [star_invSqrt2, hhalf]; try norm_num)
        (by simp [star_invSqrt2, hhalf]; try norm_num)
        (by simp [star_invSqrt2, hhalf]; try norm_num)⟩

/-- Phases of the unit circle (`Phase`), with angles as fractions of π.
Angles are modelled by `ℚ`: the `f64` operations the source performs on
angles (negation, halving, products with dyadic multipliers, exact literal
comparison) are all exact in binary64. -/
inductive Phase where
  | angle (a : ℚ)
  | minusOne
  | imag
  | minusImag
deriving DecidableEq

/-- Angle denoted by a phase, divided by π (`Phase::eval`). -/
def Phase.eval : Phase → ℚ
  | .angle a => a
  | .minusOne => 1
  | .imag => 1 / 2
  | .minusImag => 3 / 2

/-- Canonicalising constructor (`Phase::from_angle`): exact comparisons with
the literals `0.5`, `1.0`, `1.5`. -/
def Phase.from_angle (f : ℚ) : Phase :=
  if f = 1 / 2 then Phase.imag
  else if f = 1 then Phase.minusOne
  else if f = 3 / 2 then Phase.minusImag
  else Phase.angle f

mutual
/-- Normal-form terms (`TermN`). -/
inductive TermN where
  | comp (terms : TermNList) (ty : ℕ)
  | tensor (terms : TermNList)
  | atom (a : AtomN)
/-- A `Vec<TermN>` of the source, as an inline list so that recursion stays
structural. -/
inductive TermNList where
  | nil
  | cons (t : TermN) (ts : TermNList)
/-- Atomic normal-form terms (`AtomN`). -/
inductive AtomN where
  | phase (angle : ℚ)
  | ifLet (pattern : PatternN) (inner : TermN) (ty : ℕ)
/-- Normal-form patterns (`PatternN`). -/
inductive PatternN where
  | comp (patterns : PatternNList) (tyOut tyIn : ℕ)
  | tensor (patterns : PatternNList)
  | ket (state : KetState)
  | unitary (inner : AtomN)
/-- A `Vec<PatternN>` of the source. -/
inductive PatternNList where
  | nil
  | cons (p : PatternN) (ps : PatternNList)
end

mutual
/-- Qubit arity of a normal-form term (the `TermType` that `faer` tracks
implicitly through matrix dimensions). -/
def TermN.arity : TermN → ℕ
  | .comp _ ty => ty
  | .tensor ts => ts.aritySum
  | .atom a => a.arity

def TermNList.aritySum : TermNList → ℕ
  | .nil => 0
  | .cons t ts => t.arity + ts.aritySum

/-- Qubit arity of an atom (`AtomN::get_type`). -/
def AtomN.arity : AtomN → ℕ
  | .phase _ => 0
  | .ifLet _ _ ty => ty
end

mutual
/-- First component of the `PatternType` of a normal-form pattern. -/
def PatternN.tyO : PatternN → ℕ
  | .comp _ a _ => a
  | .tensor ps => ps.tyOSum
  | .ket _ => 1
  | .unitary a => a.arity

def PatternNList.tyOSum : PatternNList → ℕ
  | .nil => 0
  | .cons p ps => p.tyO + ps.tyOSum

/-- Second component of the `PatternType` of a normal-form pattern. -/
def PatternN.tyI : PatternN → ℕ
  | .comp _ _ b => b
  | .tensor ps => ps.tyISum
  | .ket _ => 0
  | .unitary a => a.arity

def PatternNList.tyISum : PatternNList → ℕ
  | .nil => 0
  | .cons p ps => p.tyI + ps.tyISum
end

def TermNList.append : TermNList → TermNList → TermNList
  | .nil, ys => ys
  | .cons t ts, ys => TermNList.cons t (ts.append ys)

def TermNList.reverse : TermNList → TermNList
  | .nil => TermNList.nil
  | .cons t ts => ts.reverse.append (TermNList.cons t TermNList.nil)

def TermNList.length : TermNList → ℕ
  | .nil => 0
  | .cons _ ts => ts.length + 1

def PatternNList.append : PatternNList → PatternNList → PatternNList
  | .nil, ys => ys
  | .cons p ps, ys => PatternNList.cons p (ps.append ys)

def PatternNList.reverse : PatternNList → PatternNList
  | .nil => PatternNList.nil
  | .cons p ps => ps.reverse.append (PatternNList.cons p PatternNList.nil)

def PatternNList.length : PatternNList → ℕ
  | .nil => 0
  | .cons _ ps => ps.length + 1

def PatternNList.nonEmpty : PatternNList → Bool
  | .nil => false
  | .cons _ _ => true

mutual
/-- Well-formedness of a normal-form term: stored types are consistent and
every pattern tensor is non-empty (`to_inj_and_proj` unwraps the head). -/
def TermN.wf : TermN → Bool
  | .comp ts ty => ts.wfComp ty
  | .tensor ts => ts.wfAll
  | .atom a => a.wf

def TermNList.wfComp : TermNList → ℕ → Bool
  | .nil, _ => true
  | .cons t ts, ty => t.wf && (t.arity == ty) && ts.wfComp ty

def TermNList.wfAll : TermNList → Bool
  | .nil => true
  | .cons t ts => t.wf && ts.wfAll

def AtomN.wf : AtomN → Bool
  | .phase _ => true
  | .ifLet p t ty => p.wf && t.wf && (p.tyO == ty) && (p.tyI == t.arity)

def PatternN.wf : PatternN → Bool
  | .comp ps a b => ps.wfChain a b
  | .tensor ps => ps.nonEmpty && ps.wfAllP
  | .ket _ => true
  | .unitary a => a.wf

def PatternNList.wfChain : PatternNList → ℕ → ℕ → Bool
  | .nil, a, b => a == b
  | .cons p ps, a, b => p.wf && (p.tyO == a) && ps.wfChain p.tyI b

def PatternNList.wfAllP : PatternNList → Bool
  | .nil => true
  | .cons p ps => p.wf && ps.wfAllP
end

deriving instance DecidableEq for TermN
deriving instance DecidableEq for PatternN
deriving instance DecidableEq for AtomN
deriving instance DecidableEq for TermNList
deriving instance DecidableEq for PatternNList

mutual
/-- `TermN::to_unitary`: the dense unitary of a normal-form term.  The
square dimension of a `Comp` is `2^ty` (implicit in `faer`). -/
noncomputable def TermN.to_unitary : TermN → CMat
  | .comp .nil ty => idM (2 ^ ty)
  | .comp (.cons t ts) ty => ts.compFold (2 ^ ty) t.to_unitary
  | .tensor .nil => idM 1
  | .tensor (.cons t ts) => ts.tensorFold t.to_unitary
  | .atom a => a.to_unitary

/-- The fold `terms_iter.fold(u, |x, y| y * x)` of the `Comp` case. -/
noncomputable def TermNList.compFold : TermNList → ℕ → CMat → CMat
  | .nil, _, acc => acc
  | .cons t ts, n, acc => ts.compFold n (mmul n t.to_unitary acc)

/-- The fold `terms_iter.fold(u, |x, y| x.kron(y))` of the `Tensor` case. -/
noncomputable def TermNList.tensorFold : TermNList → CMat → CMat
  | .nil, acc => acc
  | .cons t ts, acc =>
      ts.tensorFold (kron (2 ^ t.arity) (2 ^ t.arity) acc t.to_unitary)

/-- `AtomN::to_unitary`. -/
noncomputable def AtomN.to_unitary : AtomN → CMat
  | .phase a => phaseMat a
  | .ifLet p inner _ =>
      madd p.injProj.2
        (mmul (2 ^ p.tyI) (mmul (2 ^ p.tyI) p.injProj.1 inner.to_unitary)
          (adjM p.injProj.1))

/-- `PatternN::to_inj_and_proj`. -/
noncomputable def PatternN.injProj : PatternN → CMat × CMat
  | .comp .nil a _ => (idM (2 ^ a), zeroM)
  | .comp (.cons p ps) _ _ => ps.injProjFold p.injProj
  | .tensor .nil => (zeroM, zeroM)
  | .tensor (.cons p ps) => ps.injProjTensorFold p.tyO p.tyI p.injProj
  | .ket s => (s.toState, mmul 1 s.compl.toState (adjM s.compl.toState))
  | .unitary a => (a.to_unitary, zeroM)

/-- The fold `(i1,p1) ⋆ (i2,p2) = (i1·i2, p1 + i1·p2·i1ᴴ)` of the pattern
`Comp` case. -/
noncomputable def PatternNList.injProjFold : PatternNList → CMat × CMat → CMat × CMat
  | .nil, acc => acc
  | .cons p ps, acc =>
      ps.injProjFold
        (mmul (2 ^ p.tyO) acc.1 p.injProj.1,
         madd acc.2
           (mmul (2 ^ p.tyO) (mmul (2 ^ p.tyO) acc.1 p.injProj.2) (adjM acc.1)))

/-- The fold `(i1,p1) ⋆ (i2,p2) = (i1⊗i2, p1⊗I + (i1·i1ᴴ)⊗p2)` of the
pattern `Tensor` case; `(a, b)` are the accumulated type exponents. -/
noncomputable def PatternNList.injProjTensorFold :
    PatternNList → ℕ → ℕ → CMat × CMat → CMat × CMat
  | .nil, _, _, acc => acc
  | .cons p ps, a, b, acc =>
      ps.injProjTensorFold (a + p.tyO) (b + p.tyI)
        (kron (2 ^ p.tyO) (2 ^ p.tyI) acc.1 p.injProj.1,
         madd (kron (2 ^ p.tyO) (2 ^ p.tyO) acc.2 (idM (2 ^ p.tyO)))
           (kron (2 ^ p.tyO) (2 ^ p.tyO) (mmul (2 ^ b) acc.1 (adjM acc.1))
             p.injProj.2))
end

mutual
/-- Every well-formed normal-form term denotes a `2^n × 2^n` unitary. -/
theorem termN_unitary : ∀ t : TermN, t.wf = true → UnitaryDim (2 ^ t.arity) t.to_unitary
  | .comp .nil ty, _ => by
    simp only [TermN.to_unitary, TermN.arity]
    exact unitary_idM _
  | .comp (.cons t ts) ty, h => by
    simp only [TermN.wf, TermNList.wfComp, Bool.and_eq_true, beq_iff_eq] at h
    obtain ⟨⟨ht, hty⟩, hts⟩ := h
    simp only [TermN.to_unitary, TermN.arity]
    have h1 := termN_unitary t ht
    rw [hty] at h1
    exact termNList_compFold_unitary ts ty t.to_unitary hts h1
  | .tensor .nil, _ => by
    simp only [TermN.to_unitary, TermN.arity, TermNList.aritySum, pow_zero]
    exact unitary_idM 1
  | .tensor (.cons t ts), h => by
    simp only [TermN.wf, TermNList.wfAll, Bool.and_eq_true] at h
    obtain ⟨ht, hts⟩ := h
    simp only [TermN.to_unitary, TermN.arity, TermNList.aritySum]
    have h3 := termNList_tensorFold_unitary ts (2 ^ t.arity) t.to_unitary hts
      (termN_unitary t ht)
    rw [pow_add]
    exact h3
  | .atom a, h => atomN_unitary a h

theorem termNList_compFold_unitary :
    ∀ (ts : TermNList) (n : ℕ) (acc : CMat), ts.wfComp n = true →
      UnitaryDim (2 ^ n) acc → UnitaryDim (2 ^ n) (ts.compFold (2 ^ n) acc)
  | .nil, n, acc, _, hacc => by
    simpa only [TermNList.compFold] using hacc
  | .cons t ts, n, acc, h, hacc => by
    simp only [TermNList.wfComp, Bool.and_eq_true, beq_iff_eq] at h
    obtain ⟨⟨ht, hty⟩, hts⟩ := h
    simp only [TermNList.compFold]
    refine termNList_compFold_unitary ts n _ hts ?_
    have h1 := termN_unitary t ht
    rw [hty] at h1
    exact UnitaryDim.mmulU h1 hacc

theorem termNList_tensorFold_unitary :
    ∀ (ts : TermNList) (m : ℕ) (acc : CMat), ts.wfAll = true →
      UnitaryDim m acc → UnitaryDim (m * 2 ^ ts.aritySum) (ts.tensorFold acc)
  | .nil, m, acc, _, hacc => by
    simpa only [TermNList.tensorFold, TermNList.aritySum, pow_zero, mul_one] using hacc
  | .cons t ts, m, acc, h, hacc => by
    simp only [TermNList.wfAll, Bool.and_eq_true] at h
    obtain ⟨ht, hts⟩ := h
    simp only [TermNList.tensorFold, TermNList.aritySum]
    have h2 := UnitaryDim.kronU hacc (termN_unitary t ht)
    have h3 := termNList_tensorFold_unitary ts (m * 2 ^ t.arity) _ hts h2
    rw [pow_add, ← mul_assoc]
    exact h3

theorem atomN_unitary : ∀ a : AtomN, a.wf = true → UnitaryDim (2 ^ a.arity) a.to_unitary
  | .phase a, _ => by
    simp only [AtomN.to_unitary, AtomN.arity, pow_zero]
    exact unitary_phaseMat a
  | .ifLet p inner ty, h => by
    simp only [AtomN.wf, Bool.and_eq_true, beq_iff_eq] at h
    obtain ⟨⟨⟨hpw, hiw⟩, htyO⟩, htyI⟩ := h
    simp only [AtomN.to_unitary, AtomN.arity]
    have hp := patternN_injProj p hpw
    have hu := termN_unitary inner hiw
    rw [← htyI] at hu
    have hres := ifLet_unitary hp hu
    rw [htyO] at hres
    exact hres

/-- Every well-formed normal-form pattern yields a valid inj/proj pair. -/
theorem patternN_injProj :
    ∀ p : PatternN, p.wf = true → InjProj (2 ^ p.tyO) (2 ^ p.tyI) p.injProj.1 p.injProj.2
  | .comp .nil a b, h => by
    simp only [PatternN.wf, PatternNList.wfChain, beq_iff_eq] at h
    subst h
    simp only [PatternN.injProj, PatternN.tyO, PatternN.tyI]
    exact injProj_id _
  | .comp (.cons p ps) a b, h => by
    simp only [PatternN.wf, PatternNList.wfChain, Bool.and_eq_true, beq_iff_eq] at h
    obtain ⟨⟨hpw, htyO⟩, hchain⟩ := h
    simp only [PatternN.injProj, PatternN.tyO, PatternN.tyI]
    have hp := patternN_injProj p hpw
    rw [htyO] at hp
    exact patternNList_injProjFold_invariant ps a p.tyI b p.injProj hchain hp
  | .tensor .nil, h => by
    simp [PatternN.wf, PatternNList.nonEmpty] at h
  | .tensor (.cons p ps), h => by
    simp only [PatternN.wf, PatternNList.nonEmpty, PatternNList.wfAllP,
      Bool.true_and, Bool.and_eq_true] at h
    obtain ⟨hpw, hall⟩ := h
    simp only [PatternN.injProj, PatternN.tyO, PatternN.tyI, PatternNList.tyOSum,
      PatternNList.tyISum]
    exact patternNList_injProjTensorFold_invariant ps p.tyO p.tyI p.injProj hall
      (patternN_injProj p hpw)
  | .ket s, _ => by
    simp only [PatternN.injProj, PatternN.tyO, PatternN.tyI, pow_one, pow_zero]
    exact ket_injProj s
  | .unitary a, h => by
    simp only [PatternN.wf] at h
    simp only [PatternN.injProj, PatternN.tyO, PatternN.tyI]
    exact injProj_unitary (atomN_unitary a h)

theorem patternNList_injProjFold_invariant :
    ∀ (ps : PatternNList) (c a b : ℕ) (acc : CMat × CMat), ps.wfChain a b = true →
      InjProj (2 ^ c) (2 ^ a) acc.1 acc.2 →
      InjProj (2 ^ c) (2 ^ b) (ps.injProjFold acc).1 (ps.injProjFold acc).2
  | .nil, c, a, b, acc, h, hacc => by
    simp only [PatternNList.wfChain, beq_iff_eq] at h
    subst h
    simpa only [PatternNList.injProjFold] using hacc
  | .cons p ps, c, a, b, acc, h, hacc => by
    simp only [PatternNList.wfChain, Bool.and_eq_true, beq_iff_eq] at h
    obtain ⟨⟨hpw, htyO⟩, hchain⟩ := h
    simp only [PatternNList.injProjFold]
    refine patternNList_injProjFold_invariant ps c p.tyI b _ hchain ?_
    have hp := patternN_injProj p hpw
    rw [← htyO] at hacc
    exact injProj_comp_step hacc hp

theorem patternNList_injProjTensorFold_invariant :
    ∀ (ps : PatternNList) (a b : ℕ) (acc : CMat × CMat), ps.wfAllP = true →
      InjProj (2 ^ a) (2 ^ b) acc.1 acc.2 →
      InjProj (2 ^ (a + ps.tyOSum)) (2 ^ (b + ps.tyISum))
        (ps.injProjTensorFold a b acc).1 (ps.injProjTensorFold a b acc).2
  | .nil, a, b, acc, _, hacc => by
    simpa only [PatternNList.injProjTensorFold, PatternNList.tyOSum,
      PatternNList.tyISum, add_zero] using hacc
  | .cons p ps, a, b, acc, h, hacc => by
    simp only [PatternNList.wfAllP, Bool.and_eq_true] at h
    obtain ⟨hpw, hall⟩ := h
    simp only [PatternNList.injProjTensorFold, PatternNList.tyOSum, PatternNList.tyISum]
    have hstep := injProj_tensor_step hacc (patternN_injProj p hpw)
    rw [← pow_add, ← pow_add] at hstep
    have hrec := patternNList_injProjTensorFold_invariant ps (a + p.tyO) (b + p.tyI)
      (kron (2 ^ p.tyO) (2 ^ p.tyI) acc.1 p.injProj.1,
        madd (kron (2 ^ p.tyO) (2 ^ p.tyO) acc.2 (idM (2 ^ p.tyO)))
          (kron (2 ^ p.tyO) (2 ^ p.tyO) (mmul (2 ^ b) acc.1 (adjM acc.1))
            p.injProj.2))
      hall hstep
    rw [← Nat.add_assoc, ← Nat.add_assoc]
    exact hrec
end

mutual
/-- Typed terms (`TermT`).  `Gate` carries its checked definition inline. -/
inductive TermT where
  | comp (terms : TermTList)
  | tensor (terms : TermTList)
  | id (ty : ℕ)
  | phase (p : Phase)
  | ifLet (pattern : PatternT) (inner : TermT)
  | gate (name : String) (defn : TermT)
  | inverse (inner : TermT)
  | sqrt (inner : TermT)
/-- A `Vec<TermT>` of the source. -/
inductive TermTList where
  | nil
  | cons (t : TermT) (ts : TermTList)
/-- Typed patterns (`PatternT`). -/
inductive PatternT where
  | comp (patterns : PatternTList)
  | tensor (patterns : PatternTList)
  | ket (states : List KetState)
  | unitary (inner : TermT)
/-- A `Vec<PatternT>` of the source. -/
inductive PatternTList where
  | nil
  | cons (p : PatternT) (ps : PatternTList)
end

deriving instance DecidableEq for TermT
deriving instance DecidableEq for PatternT
deriving instance DecidableEq for TermTList
deriving instance DecidableEq for PatternTList

mutual
/-- `TermT::get_type` (the `unwrap` on an empty composition is modelled by
the junk value `0`; well-formed terms never reach it). -/
def TermT.get_type : TermT → ℕ
  | .comp ts => ts.firstType
  | .tensor ts => ts.typeSum
  | .id ty => ty
  | .phase _ => 0
  | .ifLet pat _ => pat.tyOutT
  | .gate _ d => d.get_type
  | .inverse t => t.get_type
  | .sqrt t => t.get_type

def TermTList.firstType : TermTList → ℕ
  | .nil => 0
  | .cons t _ => t.get_type

def TermTList.typeSum : TermTList → ℕ
  | .nil => 0
  | .cons t ts => t.get_type + ts.typeSum

/-- First component of `PatternT::get_type`. -/
def PatternT.tyOutT : PatternT → ℕ
  | .comp ps => ps.firstTyOut
  | .tensor ps => ps.tyOutSumT
  | .ket states => states.length
  | .unitary t => t.get_type

/-- Second component of `PatternT::get_type`. -/
def PatternT.tyInT : PatternT → ℕ
  | .comp ps => ps.lastTyIn
  | .tensor ps => ps.tyInSumT
  | .ket _ => 0
  | .unitary t => t.get_type

def PatternTList.firstTyOut : PatternTList → ℕ
  | .nil => 0
  | .cons p _ => p.tyOutT

def PatternTList.lastTyIn : PatternTList → ℕ
  | .nil => 0
  | .cons p .nil => p.tyInT
  | .cons _ (.cons q ps) => (PatternTList.cons q ps).lastTyIn

def PatternTList.tyOutSumT : PatternTList → ℕ
  | .nil => 0
  | .cons p ps => p.tyOutT + ps.tyOutSumT

def PatternTList.tyInSumT : PatternTList → ℕ
  | .nil => 0
  | .cons p ps => p.tyInT + ps.tyInSumT
end

def TermTList.nonEmpty : TermTList → Bool
  | .nil => false
  | .cons _ _ => true

def PatternTList.nonEmpty : PatternTList → Bool
  | .nil => false
  | .cons _ _ => true

mutual
/-- Well-formedness of a typed term: the invariants established by the type
checker (non-empty compositions/tensors, matching arities). -/
def TermT.wf : TermT → Bool
  | .comp ts => ts.nonEmpty && ts.wfComp ts.firstType
  | .tensor ts => ts.nonEmpty && ts.wfAll
  | .id _ => true
  | .phase _ => true
  | .ifLet pat inner => pat.wfP && inner.wf && (pat.tyInT == inner.get_type)
  | .gate _ d => d.wf
  | .inverse t => t.wf
  | .sqrt t => t.wf

def TermTList.wfComp : TermTList → ℕ → Bool
  | .nil, _ => true
  | .cons t ts, n => t.wf && (t.get_type == n) && ts.wfComp n

def TermTList.wfAll : TermTList → Bool
  | .nil => true
  | .cons t ts => t.wf && ts.wfAll

/-- Well-formedness of a typed pattern. -/
def PatternT.wfP : PatternT → Bool
  | .comp ps => ps.nonEmpty && ps.wfChainT
  | .tensor ps => ps.nonEmpty && ps.wfAllT
  | .ket states => !states.isEmpty
  | .unitary t => t.wf

def PatternTList.wfChainT : PatternTList → Bool
  | .nil => true
  | .cons p .nil => p.wfP
  | .cons p (.cons q ps) =>
      p.wfP && (p.tyInT == q.tyOutT) && (PatternTList.cons q ps).wfChainT

def PatternTList.wfAllT : PatternTList → Bool
  | .nil => true
  | .cons p ps => p.wfP && ps.wfAllT
end

/-- Build the pattern list of single-ket patterns produced by evaluating a
`Ket` literal. -/
def ketsToPatternNList : List KetState → PatternNList
  | [] => PatternNList.nil
  | s :: ss => PatternNList.cons (PatternN.ket s) (ketsToPatternNList ss)

mutual
/-- `TermT::eval_with_phase_mul` at `Buildable` target `TermN`.  The
`Buildable` impl for `TermN` collects the iterator as given, so a reversed
iterator becomes a reversed list. -/
def TermT.evalN : TermT → ℚ → TermN
  | .comp (.cons t .nil), pm => t.evalN pm
  | .comp ts, pm =>
      if 0 < pm then TermN.comp (ts.evalListN pm) ts.firstType
      else TermN.comp (ts.evalListN pm).reverse ts.firstType
  | .tensor (.cons t .nil), pm => t.evalN pm
  | .tensor ts, pm => TermN.tensor (ts.evalListN pm)
  | .id ty, _ => TermN.comp TermNList.nil ty
  | .phase p, pm => TermN.atom (AtomN.phase (pm * p.eval))
  | .ifLet pat inner, pm =>
      TermN.atom (AtomN.ifLet pat.evalP (inner.evalN pm) pat.tyOutT)
  | .gate _ d, pm => d.evalN pm
  | .inverse t, pm => t.evalN (-pm)
  | .sqrt t, pm => t.evalN (pm / 2)

def TermTList.evalListN : TermTList → ℚ → TermNList
  | .nil, _ => TermNList.nil
  | .cons t ts, pm => TermNList.cons (t.evalN pm) (ts.evalListN pm)

/-- `TermT::eval_with_phase_mul` at `Buildable` target `PatternN`.  The
`Buildable` impl for `PatternN` reverses the iterator it is given, so the
in-order iterator of `phase_mul > 0` ends up reversed and the reversed
iterator of `phase_mul ≤ 0` ends up back in order. -/
def TermT.evalPB : TermT → ℚ → PatternN
  | .comp (.cons t .nil), pm => t.evalPB pm
  | .comp ts, pm =>
      if 0 < pm then
        PatternN.comp (ts.evalListPB pm).reverse ts.firstType ts.firstType
      else PatternN.comp (ts.evalListPB pm) ts.firstType ts.firstType
  | .tensor (.cons t .nil), pm => t.evalPB pm
  | .tensor ts, pm => PatternN.tensor (ts.evalListPB pm)
  | .id ty, _ => PatternN.comp PatternNList.nil ty ty
  | .phase p, pm => PatternN.unitary (AtomN.phase (pm * p.eval))
  | .ifLet pat inner, pm =>
      PatternN.unitary (AtomN.ifLet pat.evalP (inner.evalN pm) pat.tyOutT)
  | .gate _ d, pm => d.evalPB pm
  | .inverse t, pm => t.evalPB (-pm)
  | .sqrt t, pm => t.evalPB (pm / 2)

def TermTList.evalListPB : TermTList → ℚ → PatternNList
  | .nil, _ => PatternNList.nil
  | .cons t ts, pm => PatternNList.cons (t.evalPB pm) (ts.evalListPB pm)

/-- `PatternT::eval`. -/
def PatternT.evalP : PatternT → PatternN
  | .comp (.cons p .nil) => p.evalP
  | .comp ps => PatternN.comp ps.evalListP ps.firstTyOut ps.lastTyIn
  | .tensor (.cons p .nil) => p.evalP
  | .tensor ps => PatternN.tensor ps.evalListP
  | .ket states => PatternN.tensor (ketsToPatternNList states)
  | .unitary t => t.evalPB 1

def PatternTList.evalListP : PatternTList → PatternNList
  | .nil => PatternNList.nil
  | .cons p ps => PatternNList.cons p.evalP ps.evalListP
end

/-- `TermT::eval`: evaluation with initial phase multiplier `1.0`. -/
def TermT.eval (t : TermT) : TermN := t.evalN 1

/-- Evaluating a `Ket` literal produces one single-ket pattern per state. -/
theorem ketsToPatternNList_tyOSum (states : List KetState) :
    (ketsToPatternNList states).tyOSum = states.length := by
  induction states with
  | nil => rfl
  | cons s ss ih =>
    simp [ketsToPatternNList, PatternNList.tyOSum, PatternN.tyO, ih]
    omega

theorem ketsToPatternNList_tyISum (states : List KetState) :
    (ketsToPatternNList states).tyISum = 0 := by
  induction states with
  | nil => rfl
  | cons s ss ih => simp [ketsToPatternNList, PatternNList.tyISum, PatternN.tyI, ih]

mutual
theorem evalN_arity : ∀ (t : TermT) (pm : ℚ), (t.evalN pm).arity = t.get_type
  | .comp .nil, pm => by
    simp only [TermT.evalN]
    split <;> rfl
  | .comp (.cons t .nil), pm => by
    simp only [TermT.evalN, TermT.get_type, TermTList.firstType]
    exact evalN_arity t pm
  | .comp (.cons t (.cons u us)), pm => by
    simp only [TermT.evalN]
    split <;> rfl
  | .tensor .nil, pm => by
    simp only [TermT.evalN, TermN.arity, TermT.get_type]
    exact evalListN_aritySum TermTList.nil pm
  | .tensor (.cons t .nil), pm => by
    simp only [TermT.evalN, TermT.get_type, TermTList.typeSum, TermTList.firstType]
    rw [evalN_arity t pm]
    omega
  | .tensor (.cons t (.cons u us)), pm => by
    simp only [TermT.evalN, TermN.arity, TermT.get_type]
    exact evalListN_aritySum (TermTList.cons t (TermTList.cons u us)) pm
  | .id ty, pm => rfl
  | .phase p, pm => rfl
  | .ifLet pat inner, pm => rfl
  | .gate _ d, pm => evalN_arity d pm
  | .inverse t, pm => evalN_arity t (-pm)
  | .sqrt t, pm => evalN_arity t (pm / 2)

theorem evalListN_aritySum :
    ∀ (ts : TermTList) (pm : ℚ), (ts.evalListN pm).aritySum = ts.typeSum
  | .nil, pm => rfl
  | .cons t ts, pm => by
    simp only [TermTList.evalListN, TermNList.aritySum, TermTList.typeSum]
    rw [evalN_arity t pm, evalListN_aritySum ts pm]

theorem evalPB_ty : ∀ (t : TermT) (pm : ℚ),
    (t.evalPB pm).tyO = t.get_type ∧ (t.evalPB pm).tyI = t.get_type
  | .comp .nil, pm => by
    simp only [TermT.evalPB]
    constructor <;> (split <;> rfl)
  | .comp (.cons t .nil), pm => by
    simp only [TermT.evalPB, TermT.get_type, TermTList.firstType]
    exact evalPB_ty t pm
  | .comp (.cons t (.cons u us)), pm => by
    simp only [TermT.evalPB]
    constructor <;> (split <;> rfl)
  | .tensor .nil, pm => by
    simp only [TermT.evalPB, PatternN.tyO, PatternN.tyI, TermT.get_type]
    exact ⟨evalListPB_tySums TermTList.nil pm |>.1, evalListPB_tySums TermTList.nil pm |>.2⟩
  | .tensor (.cons t .nil), pm => by
    simp only [TermT.evalPB, TermT.get_type, TermTList.typeSum, TermTList.firstType]
    have h := evalPB_ty t pm
    omega
  | .tensor (.cons t (.cons u us)), pm => by
    simp only [TermT.evalPB, PatternN.tyO, PatternN.tyI, TermT.get_type]
    exact ⟨(evalListPB_tySums (TermTList.cons t (TermTList.cons u us)) pm).1,
      (evalListPB_tySums (TermTList.cons t (TermTList.cons u us)) pm).2⟩
  | .id ty, pm => ⟨rfl, rfl⟩
  | .phase p, pm => ⟨rfl, rfl⟩
  | .ifLet pat inner, pm => ⟨rfl, rfl⟩
  | .gate _ d, pm => evalPB_ty d pm
  | .inverse t, pm => evalPB_ty t (-pm)
  | .sqrt t, pm => evalPB_ty t (pm / 2)

theorem evalListPB_tySums : ∀ (ts : TermTList) (pm : ℚ),
    (ts.evalListPB pm).tyOSum = ts.typeSum ∧ (ts.evalListPB pm).tyISum = ts.typeSum
  | .nil, pm => ⟨rfl, rfl⟩
  | .cons t ts, pm => by
    simp only [TermTList.evalListPB, PatternNList.tyOSum, PatternNList.tyISum,
      TermTList.typeSum]
    have h1 := evalPB_ty t pm
    have h2 := evalListPB_tySums ts pm
    omega

theorem evalP_ty : ∀ p : PatternT,
    (p.evalP).tyO = p.tyOutT ∧ (p.evalP).tyI = p.tyInT
  | .comp .nil => ⟨rfl, rfl⟩
  | .comp (.cons p .nil) => by
    simp only [PatternT.evalP, PatternT.tyOutT, PatternT.tyInT,
      PatternTList.firstTyOut, PatternTList.lastTyIn]
    exact evalP_ty p
  | .comp (.cons p (.cons q ps)) => ⟨rfl, rfl⟩
  | .tensor .nil => ⟨rfl, rfl⟩
  | .tensor (.cons p .nil) => by
    simp only [PatternT.evalP, PatternT.tyOutT, PatternT.tyInT,
      PatternTList.tyOutSumT, PatternTList.tyInSumT]
    have h := evalP_ty p
    omega
  | .tensor (.cons p (.cons q ps)) => by
    simp only [PatternT.evalP, PatternN.tyO, PatternN.tyI, PatternT.tyOutT,
      PatternT.tyInT]
    exact ⟨evalListP_tySums (PatternTList.cons p (PatternTList.cons q ps)) |>.1,
      evalListP_tySums (PatternTList.cons p (PatternTList.cons q ps)) |>.2⟩
  | .ket states => by
    simp only [PatternT.evalP, PatternN.tyO, PatternN.tyI, PatternT.tyOutT,
      PatternT.tyInT]
    exact ⟨ketsToPatternNList_tyOSum states, ketsToPatternNList_tyISum states⟩
  | .unitary t => evalPB_ty t 1

theorem evalListP_tySums : ∀ ps : PatternTList,
    (ps.evalListP).tyOSum = ps.tyOutSumT ∧ (ps.evalListP).tyISum = ps.tyInSumT
  | .nil => ⟨rfl, rfl⟩
  | .cons p ps => by
    simp only [PatternTList.evalListP, PatternNList.tyOSum, PatternNList.tyISum,
      PatternTList.tyOutSumT, PatternTList.tyInSumT]
    have h1 := evalP_ty p
    have h2 := evalListP_tySums ps
    omega
end

theorem TermNList.wfComp_append : ∀ (l1 l2 : TermNList) (n : ℕ),
    (l1.append l2).wfComp n = (l1.wfComp n && l2.wfComp n)
  | .nil, l2, n => by simp [TermNList.append, TermNList.wfComp]
  | .cons t ts, l2, n => by
    simp [TermNList.append, TermNList.wfComp, TermNList.wfComp_append ts l2 n,
      Bool.and_assoc]

theorem TermNList.wfComp_reverse : ∀ (l : TermNList) (n : ℕ),
    l.reverse.wfComp n = l.wfComp n
  | .nil, n => rfl
  | .cons t ts, n => by
    simp [TermNList.reverse, TermNList.wfComp_append,
      TermNList.wfComp_reverse ts n, TermNList.wfComp, Bool.and_comm]

/-- Every element of the list is a well-formed square pattern of the given
arity (used for compositions built by the `Buildable` impl for
`PatternN`). -/
def PatternNList.allSquare : PatternNList → ℕ → Bool
  | .nil, _ => true
  | .cons p ps, n => p.wf && (p.tyO == n) && (p.tyI == n) && ps.allSquare n

theorem PatternNList.allSquare_wfChain : ∀ (l : PatternNList) (n : ℕ),
    l.allSquare n = true → l.wfChain n n = true
  | .nil, n, _ => by simp [PatternNList.wfChain]
  | .cons p ps, n, h => by
    simp only [PatternNList.allSquare, Bool.and_eq_true, beq_iff_eq] at h
    obtain ⟨⟨⟨hw, ho⟩, hi⟩, hall⟩ := h
    simp only [PatternNList.wfChain, Bool.and_eq_true, beq_iff_eq]
    exact ⟨⟨hw, ho⟩, hi ▸ PatternNList.allSquare_wfChain ps n hall⟩

theorem PatternNList.allSquare_append : ∀ (l1 l2 : PatternNList) (n : ℕ),
    (l1.append l2).allSquare n = (l1.allSquare n && l2.allSquare n)
  | .nil, l2, n => by simp [PatternNList.append, PatternNList.allSquare]
  | .cons p ps, l2, n => by
    simp [PatternNList.append, PatternNList.allSquare,
      PatternNList.allSquare_append ps l2 n, Bool.and_assoc]

theorem PatternNList.allSquare_reverse : ∀ (l : PatternNList) (n : ℕ),
    l.reverse.allSquare n = l.allSquare n
  | .nil, n => rfl
  | .cons p ps, n => by
    simp [PatternNList.reverse, PatternNList.allSquare_append,
      PatternNList.allSquare_reverse ps n, PatternNList.allSquare, Bool.and_comm]

theorem ketsToPatternNList_wfAllP (states : List KetState) :
    (ketsToPatternNList states).wfAllP = true := by
  induction states with
  | nil => rfl
  | cons s ss ih => simp [ketsToPatternNList, PatternNList.wfAllP, PatternN.wf, ih]

mutual
theorem evalN_wf : ∀ (t : TermT) (pm : ℚ), t.wf = true → (t.evalN pm).wf = true
  | .comp .nil, pm, h => by
    simp [TermT.wf, TermTList.nonEmpty] at h
  | .comp (.cons t .nil), pm, h => by
    simp only [TermT.wf, TermTList.nonEmpty, TermTList.wfComp, TermTList.firstType,
      Bool.true_and, Bool.and_true, Bool.and_eq_true, beq_iff_eq] at h
    exact evalN_wf t pm h.1
  | .comp (.cons t (.cons u us)), pm, h => by
    simp only [TermT.wf, TermTList.nonEmpty, Bool.true_and] at h
    simp only [TermT.evalN]
    split
    · simp only [TermN.wf]
      exact evalListN_wfComp (TermTList.cons t (TermTList.cons u us)) pm _ h
    · simp only [TermN.wf, TermNList.wfComp_reverse]
      exact evalListN_wfComp (TermTList.cons t (TermTList.cons u us)) pm _ h
  | .tensor .nil, pm, h => by
    simp [TermT.wf, TermTList.nonEmpty] at h
  | .tensor (.cons t .nil), pm, h => by
    simp only [TermT.wf, TermTList.nonEmpty, TermTList.wfAll, Bool.true_and,
      Bool.and_true, Bool.and_eq_true] at h
    exact evalN_wf t pm h
  | .tensor (.cons t (.cons u us)), pm, h => by
    simp only [TermT.wf, TermTList.nonEmpty, Bool.true_and] at h
    simp only [TermT.evalN, TermN.wf]
    exact evalListN_wfAll (TermTList.cons t (TermTList.cons u us)) pm h
  | .id ty, pm, _ => rfl
  | .phase p, pm, _ => rfl
  | .ifLet pat inner, pm, h => by
    simp only [TermT.wf, Bool.and_eq_true, beq_iff_eq] at h
    obtain ⟨⟨hp, hi⟩, hty⟩ := h
    simp only [TermT.evalN, TermN.wf, AtomN.wf, Bool.and_eq_true, beq_iff_eq]
    refine ⟨⟨⟨evalP_wf pat hp, evalN_wf inner pm hi⟩, (evalP_ty pat).1⟩, ?_⟩
    rw [(evalP_ty pat).2, evalN_arity inner pm, hty]
  | .gate _ d, pm, h => evalN_wf d pm h
  | .inverse t, pm, h => evalN_wf t (-pm) h
  | .sqrt t, pm, h => evalN_wf t (pm / 2) h

theorem evalListN_wfComp : ∀ (ts : TermTList) (pm : ℚ) (n : ℕ),
    ts.wfComp n = true → (ts.evalListN pm).wfComp n = true
  | .nil, pm, n, _ => rfl
  | .cons t ts, pm, n, h => by
    simp only [TermTList.wfComp, Bool.and_eq_true, beq_iff_eq] at h
    obtain ⟨⟨hw, hty⟩, hts⟩ := h
    simp only [TermTList.evalListN, TermNList.wfComp, Bool.and_eq_true, beq_iff_eq]
    exact ⟨⟨evalN_wf t pm hw, by rw [evalN_arity t pm, hty]⟩,
      evalListN_wfComp ts pm n hts⟩

theorem evalListN_wfAll : ∀ (ts : TermTList) (pm : ℚ),
    ts.wfAll = true → (ts.evalListN pm).wfAll = true
  | .nil, pm, _ => rfl
  | .cons t ts, pm, h => by
    simp only [TermTList.wfAll, Bool.and_eq_true] at h
    simp only [TermTList.evalListN, TermNList.wfAll, Bool.and_eq_true]
    exact ⟨evalN_wf t pm h.1, evalListN_wfAll ts pm h.2⟩

theorem evalPB_wf : ∀ (t : TermT) (pm : ℚ), t.wf = true → (t.evalPB pm).wf = true
  | .comp .nil, pm, h => by
    simp [TermT.wf, TermTList.nonEmpty] at h
  | .comp (.cons t .nil), pm, h => by
    simp only [TermT.wf, TermTList.nonEmpty, TermTList.wfComp, TermTList.firstType,
      Bool.true_and, Bool.and_true, Bool.and_eq_true, beq_iff_eq] at h
    exact evalPB_wf t pm h.1
  | .comp (.cons t (.cons u us)), pm, h => by
    simp only [TermT.wf, TermTList.nonEmpty, Bool.true_and] at h
    simp only [TermT.evalPB]
    split
    · simp only [PatternN.wf]
      refine PatternNList.allSquare_wfChain _ _ ?_
      rw [PatternNList.allSquare_reverse]
      exact evalListPB_allSquare (TermTList.cons t (TermTList.cons u us)) pm _ h
    · simp only [PatternN.wf]
      exact PatternNList.allSquare_wfChain _ _
        (evalListPB_allSquare (TermTList.cons t (TermTList.cons u us)) pm _ h)
  | .tensor .nil, pm, h => by
    simp [TermT.wf, TermTList.nonEmpty] at h
  | .tensor (.cons t .nil), pm, h => by
    simp only [TermT.wf, TermTList.nonEmpty, TermTList.wfAll, Bool.true_and,
      Bool.and_true, Bool.and_eq_true] at h
    exact evalPB_wf t pm h
  | .tensor (.cons t (.cons u us)), pm, h => by
    simp only [TermT.wf, TermTList.nonEmpty, Bool.true_and] at h
    simp only [TermT.evalPB, PatternN.wf, TermTList.evalListPB,
      PatternNList.nonEmpty, Bool.true_and]
    exact evalListPB_wfAllP (TermTList.cons t (TermTList.cons u us)) pm h
  | .id ty, pm, _ => by
    simp [TermT.evalPB, PatternN.wf, PatternNList.wfChain]
  | .phase p, pm, _ => rfl
  | .ifLet pat inner, pm, h => by
    simp only [TermT.wf, Bool.and_eq_true, beq_iff_eq] at h
    obtain ⟨⟨hp, hi⟩, hty⟩ := h
    simp only [TermT.evalPB, PatternN.wf, AtomN.wf, Bool.and_eq_true, beq_iff_eq]
    refine ⟨⟨⟨evalP_wf pat hp, evalN_wf inner pm hi⟩, (evalP_ty pat).1⟩, ?_⟩
    rw [(evalP_ty pat).2, evalN_arity inner pm, hty]
  | .gate _ d, pm, h => evalPB_wf d pm h
  | .inverse t, pm, h => evalPB_wf t (-pm) h
  | .sqrt t, pm, h => evalPB_wf t (pm / 2) h

theorem evalListPB_allSquare : ∀ (ts : TermTList) (pm : ℚ) (n : ℕ),
    ts.wfComp n = true → (ts.evalListPB pm).allSquare n = true
  | .nil, pm, n, _ => rfl
  | .cons t ts, pm, n, h => by
    simp only [TermTList.wfComp, Bool.and_eq_true, beq_iff_eq] at h
    obtain ⟨⟨hw, hty⟩, hts⟩ := h
    simp only [TermTList.evalListPB, PatternNList.allSquare, Bool.and_eq_true,
      beq_iff_eq]
    exact ⟨⟨⟨evalPB_wf t pm hw, by rw [(evalPB_ty t pm).1, hty]⟩,
      by rw [(evalPB_ty t pm).2, hty]⟩, evalListPB_allSquare ts pm n hts⟩

theorem evalListPB_wfAllP : ∀ (ts : TermTList) (pm : ℚ),
    ts.wfAll = true → (ts.evalListPB pm).wfAllP = true
  | .nil, pm, _ => rfl
  | .cons t ts, pm, h => by
    simp only [TermTList.wfAll, Bool.and_eq_true] at h
    simp only [TermTList.evalListPB, PatternNList.wfAllP, Bool.and_eq_true]
    exact ⟨evalPB_wf t pm h.1, evalListPB_wfAllP ts pm h.2⟩

theorem evalP_wf : ∀ p : PatternT, p.wfP = true → (p.evalP).wf = true
  | .comp .nil, h => by
    simp [PatternT.wfP, PatternTList.nonEmpty] at h
  | .comp (.cons p .nil), h => by
    simp only [PatternT.wfP, PatternTList.nonEmpty, PatternTList.wfChainT,
      Bool.true_and] at h
    exact evalP_wf p h
  | .comp (.cons p (.cons q ps)), h => by
    simp only [PatternT.wfP, PatternTList.nonEmpty, Bool.true_and] at h
    simp only [PatternT.evalP, PatternN.wf]
    exact evalListP_wfChain (PatternTList.cons p (PatternTList.cons q ps)) h
  | .tensor .nil, h => by
    simp [PatternT.wfP, PatternTList.nonEmpty] at h
  | .tensor (.cons p .nil), h => by
    simp only [PatternT.wfP, PatternTList.nonEmpty, PatternTList.wfAllT,
      Bool.true_and, Bool.and_true, Bool.and_eq_true] at h
    exact evalP_wf p h
  | .tensor (.cons p (.cons q ps)), h => by
    simp only [PatternT.wfP, PatternTList.nonEmpty, Bool.true_and] at h
    simp only [PatternT.evalP, PatternN.wf, PatternTList.evalListP,
      PatternNList.nonEmpty, Bool.true_and]
    exact evalListP_wfAllP (PatternTList.cons p (PatternTList.cons q ps)) h
  | .ket states, h => by
    simp only [PatternT.evalP, PatternN.wf, Bool.and_eq_true]
    refine ⟨?_, ketsToPatternNList_wfAllP states⟩
    cases states with
    | nil => simp [PatternT.wfP, List.isEmpty] at h
    | cons s ss => rfl
  | .unitary t, h => evalPB_wf t 1 h

theorem evalListP_wfChain : ∀ ps : PatternTList, ps.wfChainT = true →
    (ps.evalListP).wfChain ps.firstTyOut ps.lastTyIn = true
  | .nil, _ => by simp [PatternTList.evalListP, PatternNList.wfChain,
      PatternTList.firstTyOut, PatternTList.lastTyIn]
  | .cons p .nil, h => by
    simp only [PatternTList.wfChainT] at h
    simp only [PatternTList.evalListP, PatternNList.wfChain,
      PatternTList.firstTyOut, PatternTList.lastTyIn, Bool.and_eq_true, beq_iff_eq]
    exact ⟨⟨evalP_wf p h, (evalP_ty p).1⟩, by rw [(evalP_ty p).2]⟩
  | .cons p (.cons q ps), h => by
    simp only [PatternTList.wfChainT, Bool.and_eq_true, beq_iff_eq] at h
    obtain ⟨⟨hp, hlink⟩, hchain⟩ := h
    have hrec := evalListP_wfChain (PatternTList.cons q ps) hchain
    show (PatternNList.cons p.evalP ((PatternTList.cons q ps).evalListP)).wfChain
        p.tyOutT ((PatternTList.cons q ps).lastTyIn) = true
    rw [PatternNList.wfChain, Bool.and_eq_true, Bool.and_eq_true, beq_iff_eq]
    refine ⟨⟨evalP_wf p hp, (evalP_ty p).1⟩, ?_⟩
    rw [(evalP_ty p).2, hlink]
    exact hrec

theorem evalListP_wfAllP : ∀ ps : PatternTList, ps.wfAllT = true →
    (ps.evalListP).wfAllP = true
  | .nil, _ => rfl
  | .cons p ps, h => by
    simp only [PatternTList.wfAllT, Bool.and_eq_true] at h
    simp only [PatternTList.evalListP, PatternNList.wfAllP, Bool.and_eq_true]
    exact ⟨evalP_wf p h.1, evalListP_wfAllP ps h.2⟩
end

/-- The running example `Z = if let |1⟩ then -1`. -/
def zGate : TermT :=
  TermT.ifLet (PatternT.ket [KetState.one]) (TermT.phase Phase.minusOne)

/-- An example pattern exercising composition, kets and unitaries:
`|1⟩ . (i)` of pattern type `(1, 0)`. -/
def samplePattern : PatternT :=
  PatternT.comp (PatternTList.cons (PatternT.ket [KetState.one])
    (PatternTList.cons (PatternT.unitary (TermT.phase Phase.imag))
      PatternTList.nil))

/-- C2: for every well-typed term `t` of arity `n`, the matrix
`M = eval(t).to_unitary()` is a `2^n × 2^n` matrix (vanishing outside that
range) with `M · Mᴴ = I_{2^n}` exactly; exact equality of the real-valued
model implies the `10⁻⁶` floating tolerance of the spec. -/
theorem c2_matrix_unitarity (t : TermT) (h : t.wf = true) :
    IsDim (2 ^ t.get_type) (2 ^ t.get_type) (t.eval.to_unitary) ∧
      mmul (2 ^ t.get_type) (t.eval.to_unitary) (adjM (t.eval.to_unitary))
        = idM (2 ^ t.get_type) := by
  have hw := evalN_wf t 1 h
  have hu := termN_unitary (t.evalN 1) hw
  rw [evalN_arity t 1] at hu
  exact ⟨hu.1, hu.2.1⟩

/-- Witness for C2 at the concrete term `Z = if let |1⟩ then -1`. -/
theorem c2_matrix_unitarity_witness :
    zGate.wf = true ∧
      (IsDim (2 ^ zGate.get_type) (2 ^ zGate.get_type) (zGate.eval.to_unitary) ∧
        mmul (2 ^ zGate.get_type) (zGate.eval.to_unitary)
          (adjM (zGate.eval.to_unitary)) = idM (2 ^ zGate.get_type)) :=
  ⟨by decide, c2_matrix_unitarity zGate (by decide)⟩

/-- C3: for every well-typed pattern `p : (m, n)` with
`(I, P) = to_inj_proj(eval(p))`, the projector `P` is a square
`2^m × 2^m` matrix and `P + I · Iᴴ = I_{2^m}` exactly (`m` is the outer
component `get_type().0`); this covers all four pattern formers. -/
theorem c3_pattern_isometry_identity (p : PatternT) (h : p.wfP = true) :
    IsDim (2 ^ p.tyOutT) (2 ^ p.tyOutT) (p.evalP.injProj.2) ∧
      madd (p.evalP.injProj.2)
        (mmul (2 ^ p.tyInT) (p.evalP.injProj.1) (adjM (p.evalP.injProj.1)))
        = idM (2 ^ p.tyOutT) := by
  have hw := evalP_wf p h
  have hp := patternN_injProj (p.evalP) hw
  rw [(evalP_ty p).1, (evalP_ty p).2] at hp
  exact ⟨hp.2.1, hp.2.2.2.2⟩

/-- Witness for C3 at the concrete pattern `|1⟩ . (i)`. -/
theorem c3_pattern_isometry_identity_witness :
    samplePattern.wfP = true ∧
      (IsDim (2 ^ samplePattern.tyOutT) (2 ^ samplePattern.tyOutT)
          (samplePattern.evalP.injProj.2) ∧
        madd (samplePattern.evalP.injProj.2)
          (mmul (2 ^ samplePattern.tyInT) (samplePattern.evalP.injProj.1)
            (adjM (samplePattern.evalP.injProj.1)))
          = idM (2 ^ samplePattern.tyOutT)) :=
  ⟨by decide, c3_pattern_isometry_identity samplePattern (by decide)⟩

theorem adjM_phaseMat (a : ℚ) : adjM (phaseMat a) = phaseMat (-a) := by
  refine CMat.ext fun i j => ?_
  simp only [adjM, phaseMat]
  by_cases hi : i = 0
  · by_cases hj : j = 0
    · subst hi; subst hj
      simp [star_cis]
    · subst hi
      simp [hj]
  · rw [if_neg (fun h => hi h.2), if_neg (fun h => hi h.1), map_zero]

theorem TermNList.compFold_append : ∀ (l1 l2 : TermNList) (K : ℕ) (acc : CMat),
    (l1.append l2).compFold K acc = l2.compFold K (l1.compFold K acc)
  | .nil, l2, K, acc => rfl
  | .cons t ts, l2, K, acc => by
    simp only [TermNList.append, TermNList.compFold]
    exact TermNList.compFold_append ts l2 K _

theorem TermNList.compFold_factor : ∀ (l : TermNList) (n : ℕ) (acc : CMat),
    l.wfComp n = true → IsDim (2 ^ n) (2 ^ n) acc →
    l.compFold (2 ^ n) acc = mmul (2 ^ n) (l.compFold (2 ^ n) (idM (2 ^ n))) acc
  | .nil, n, acc, _, hacc => by
    simp only [TermNList.compFold]
    rw [idM_mmul hacc]
  | .cons t ts, n, acc, h, hacc => by
    simp only [TermNList.wfComp, Bool.and_eq_true, beq_iff_eq] at h
    obtain ⟨⟨ht, hty⟩, hts⟩ := h
    have hM := (termN_unitary t ht).1
    rw [hty] at hM
    simp only [TermNList.compFold]
    rw [mmul_idM hM,
      TermNList.compFold_factor ts n (mmul (2 ^ n) t.to_unitary acc) hts
        (isDim_mmul hM hacc),
      TermNList.compFold_factor ts n t.to_unitary hts hM, mmul_assoc]

theorem termN_comp_to_unitary : ∀ (l : TermNList) (n : ℕ), l.wfComp n = true →
    (TermN.comp l n).to_unitary = l.compFold (2 ^ n) (idM (2 ^ n))
  | .nil, n, _ => by
    simp only [TermN.to_unitary, TermNList.compFold]
  | .cons t ts, n, h => by
    simp only [TermNList.wfComp, Bool.and_eq_true, beq_iff_eq] at h
    obtain ⟨⟨ht, hty⟩, hts⟩ := h
    have hM := (termN_unitary t ht).1
    rw [hty] at hM
    simp only [TermN.to_unitary, TermNList.compFold]
    rw [mmul_idM hM]

mutual
/-- Evaluation at a negated phase multiplier produces the adjoint unitary. -/
theorem evalN_adj : ∀ (t : TermT) (pm : ℚ), t.wf = true → 0 < pm →
    ((t.evalN (-pm)).to_unitary) = adjM ((t.evalN pm).to_unitary)
  | .comp .nil, pm, h, _ => by
    simp [TermT.wf, TermTList.nonEmpty] at h
  | .comp (.cons t .nil), pm, h, hpm => by
    simp only [TermT.wf, TermTList.nonEmpty, TermTList.wfComp, TermTList.firstType,
      Bool.true_and, Bool.and_true, Bool.and_eq_true, beq_iff_eq] at h
    simp only [TermT.evalN]
    exact evalN_adj t pm h.1 hpm
  | .comp (.cons t (.cons u us)), pm, h, hpm => by
    simp only [TermT.wf, TermTList.nonEmpty, Bool.true_and] at h
    have hwplus := evalListN_wfComp (TermTList.cons t (TermTList.cons u us)) pm _ h
    have hwminus := evalListN_wfComp (TermTList.cons t (TermTList.cons u us)) (-pm) _ h
    simp only [TermT.evalN, if_pos hpm, if_neg (by linarith : ¬(0:ℚ) < -pm)]
    rw [termN_comp_to_unitary _ _ hwplus,
      termN_comp_to_unitary _ _ (by rw [TermNList.wfComp_reverse]; exact hwminus),
      evalListN_adj_fold (TermTList.cons t (TermTList.cons u us)) _ pm h hpm]
  | .tensor .nil, pm, h, _ => by
    simp [TermT.wf, TermTList.nonEmpty] at h
  | .tensor (.cons t .nil), pm, h, hpm => by
    simp only [TermT.wf, TermTList.nonEmpty, TermTList.wfAll, Bool.true_and,
      Bool.and_true, Bool.and_eq_true] at h
    simp only [TermT.evalN]
    exact evalN_adj t pm h hpm
  | .tensor (.cons t (.cons u us)), pm, h, hpm => by
    simp only [TermT.wf, TermTList.nonEmpty, TermTList.wfAll, Bool.true_and,
      Bool.and_eq_true] at h
    obtain ⟨ht, hus⟩ := h
    simp only [TermT.evalN, TermTList.evalListN, TermN.to_unitary]
    rw [evalN_adj t pm ht hpm]
    exact evalListN_adj_tensorFold (TermTList.cons u us) pm
      ((t.evalN pm).to_unitary)
      (by simp only [TermTList.wfAll, Bool.and_eq_true]; exact hus) hpm
  | .id ty, pm, _, _ => by
    simp only [TermT.evalN, TermN.to_unitary, adjM_idM]
  | .phase p, pm, _, _ => by
    simp only [TermT.evalN, TermN.to_unitary, AtomN.to_unitary, adjM_phaseMat]
    norm_num
  | .ifLet pat inner, pm, h, hpm => by
    simp only [TermT.wf, Bool.and_eq_true, beq_iff_eq] at h
    obtain ⟨⟨hp, hi⟩, hty⟩ := h
    simp only [TermT.evalN, TermN.to_unitary, AtomN.to_unitary]
    have hinv := patternN_injProj pat.evalP (evalP_wf pat hp)
    obtain ⟨hdi, hdp, hiso, hsa, hsum⟩ := hinv
    rw [adjM_madd, hsa, adjM_mmul, adjM_mmul, adjM_adjM, mmul_assoc,
      evalN_adj inner pm hi hpm]
  | .gate _ d, pm, h, hpm => evalN_adj d pm h hpm
  | .inverse t, pm, h, hpm => by
    simp only [TermT.evalN, neg_neg]
    rw [evalN_adj t pm h hpm, adjM_adjM]
  | .sqrt t, pm, h, hpm => by
    simp only [TermT.evalN, neg_div]
    exact evalN_adj t (pm / 2) h (by linarith)

theorem evalListN_adj_fold : ∀ (ts : TermTList) (n : ℕ) (pm : ℚ),
    ts.wfComp n = true → 0 < pm →
    ((ts.evalListN (-pm)).reverse).compFold (2 ^ n) (idM (2 ^ n))
      = adjM ((ts.evalListN pm).compFold (2 ^ n) (idM (2 ^ n)))
  | .nil, n, pm, _, _ => by
    simp only [TermTList.evalListN, TermNList.reverse, TermNList.compFold, adjM_idM]
  | .cons t ts, n, pm, h, hpm => by
    simp only [TermTList.wfComp, Bool.and_eq_true, beq_iff_eq] at h
    obtain ⟨⟨ht, hty⟩, hts⟩ := h
    have hMplus := (termN_unitary (t.evalN pm) (evalN_wf t pm ht)).1
    rw [evalN_arity t pm, hty] at hMplus
    simp only [TermTList.evalListN, TermNList.reverse]
    rw [TermNList.compFold_append, evalListN_adj_fold ts n pm hts hpm]
    simp only [TermNList.compFold]
    rw [evalN_adj t pm ht hpm, mmul_idM hMplus,
      TermNList.compFold_factor (ts.evalListN pm) n ((t.evalN pm).to_unitary)
        (evalListN_wfComp ts pm n hts) hMplus,
      ← adjM_mmul]

theorem evalListN_adj_tensorFold : ∀ (ts : TermTList) (pm : ℚ) (acc : CMat),
    ts.wfAll = true → 0 < pm →
    (ts.evalListN (-pm)).tensorFold (adjM acc)
      = adjM ((ts.evalListN pm).tensorFold acc)
  | .nil, pm, acc, _, _ => rfl
  | .cons t ts, pm, acc, h, hpm => by
    simp only [TermTList.wfAll, Bool.and_eq_true] at h
    obtain ⟨ht, hts⟩ := h
    simp only [TermTList.evalListN, TermNList.tensorFold]
    have harity : (t.evalN (-pm)).arity = (t.evalN pm).arity := by
      rw [evalN_arity, evalN_arity]
    rw [harity, evalN_adj t pm ht hpm, ← adjM_kron,
      evalListN_adj_tensorFold ts pm _ hts hpm]
end

/-- C4: for every well-typed term `t`,
`to_unitary(eval(Inverse(t))) = to_unitary(eval(t))ᴴ` exactly; evaluation of
`Inverse` negates the phase multiplier, which negates phase angles and
reverses compositions. -/
theorem c4_inverse_law (t : TermT) (h : t.wf = true) :
    ((TermT.inverse t).eval).to_unitary = adjM (t.eval.to_unitary) := by
  simp only [TermT.eval, TermT.evalN]
  exact evalN_adj t 1 h one_pos

/-- Witness for C4 at the concrete term `Z`. -/
theorem c4_inverse_law_witness :
    zGate.wf = true ∧
      ((TermT.inverse zGate).eval).to_unitary = adjM (zGate.eval.to_unitary) :=
  ⟨by decide, c4_inverse_law zGate (by decide)⟩

mutual
/-- A typed term is composition-free when no multi-element composition is
reachable by evaluation (singleton compositions are allowed; patterns are
exempt because `PatternT::eval` ignores the phase multiplier). -/
def TermT.compFree : TermT → Bool
  | .comp (.cons t .nil) => t.compFree
  | .comp _ => false
  | .tensor ts => ts.compFreeAll
  | .id _ => true
  | .phase _ => true
  | .ifLet _ inner => inner.compFree
  | .gate _ d => d.compFree
  | .inverse t => t.compFree
  | .sqrt t => t.compFree

def TermTList.compFreeAll : TermTList → Bool
  | .nil => true
  | .cons t ts => t.compFree && ts.compFreeAll
end

theorem one_smulM (A : CMat) : smulM 1 A = A :=
  CMat.ext fun i j => one_mul (A i j)

theorem phaseMat_mul (a b : ℚ) :
    mmul 1 (phaseMat a) (phaseMat b) = phaseMat (a + b) := by
  refine CMat.ext fun i j => ?_
  simp only [mmul, phaseMat, Finset.range_one, Finset.sum_singleton]
  by_cases hi : i = 0
  · by_cases hj : j = 0
    · subst hi; subst hj
      simp [cis_add]
    · subst hi
      simp [hj]
  · simp [hi]

/-- Multiplication of two `if let` sandwich matrices over the same pattern
multiplies the inner blocks. -/
theorem ifLet_sandwich_mul {no ni : ℕ} {inj proj X Y : CMat}
    (hp : InjProj no ni inj proj) (hY : IsDim ni ni Y) :
    mmul no (madd proj (mmul ni (mmul ni inj X) (adjM inj)))
      (madd proj (mmul ni (mmul ni inj Y) (adjM inj)))
      = madd proj (mmul ni (mmul ni inj (mmul ni X Y)) (adjM inj)) := by
  have hpi := hp.proj_mmul_inj
  have hip := hp.adjinj_mmul_proj
  have hpp := hp.proj_mmul_proj
  obtain ⟨hdi, hdp, hiso, hsa, hsum⟩ := hp
  rw [mmul_madd, madd_mmul, madd_mmul, hpp]
  have z1 : mmul no proj (mmul ni (mmul ni inj Y) (adjM inj)) = zeroM := by
    rw [← mmul_assoc, ← mmul_assoc, hpi, zeroM_mmul, zeroM_mmul]
  have z2 : mmul no (mmul ni (mmul ni inj X) (adjM inj)) proj = zeroM := by
    rw [mmul_assoc, hip, mmul_zeroM]
  have z3 : mmul no (mmul ni (mmul ni inj X) (adjM inj))
      (mmul ni (mmul ni inj Y) (adjM inj))
        = mmul ni (mmul ni inj (mmul ni X Y)) (adjM inj) := by
    rw [mmul_assoc ni no,
      ← mmul_assoc no ni (adjM inj) (mmul ni inj Y) (adjM inj),
      ← mmul_assoc no ni (adjM inj) inj Y, hiso, idM_mmul hY,
      mmul_assoc ni ni inj X, ← mmul_assoc ni ni X Y (adjM inj),
      ← mmul_assoc ni ni inj (mmul ni X Y) (adjM inj)]
  rw [z1, z2, z3, madd_zeroM, zeroM_madd]

mutual
/-- Halving the phase multiplier of a composition-free term gives a square
root: evaluating at `pm/2` and squaring recovers evaluation at `pm`,
exactly. -/
theorem evalN_sqrt_sq : ∀ (t : TermT) (pm : ℚ), t.wf = true → t.compFree = true →
    mmul (2 ^ t.get_type) ((t.evalN (pm / 2)).to_unitary)
        ((t.evalN (pm / 2)).to_unitary)
      = (t.evalN pm).to_unitary
  | .comp .nil, pm, h, _ => by
    simp [TermT.wf, TermTList.nonEmpty] at h
  | .comp (.cons t .nil), pm, h, hc => by
    simp only [TermT.wf, TermTList.nonEmpty, TermTList.wfComp, TermTList.firstType,
      Bool.true_and, Bool.and_true, Bool.and_eq_true, beq_iff_eq] at h
    simp only [TermT.compFree] at hc
    simp only [TermT.evalN]
    exact evalN_sqrt_sq t pm h.1 hc
  | .comp (.cons t (.cons u us)), pm, _, hc => by
    simp [TermT.compFree] at hc
  | .tensor .nil, pm, h, _ => by
    simp [TermT.wf, TermTList.nonEmpty] at h
  | .tensor (.cons t .nil), pm, h, hc => by
    simp only [TermT.wf, TermTList.nonEmpty, TermTList.wfAll, Bool.true_and,
      Bool.and_true, Bool.and_eq_true] at h
    simp only [TermT.compFree, TermTList.compFreeAll, Bool.and_true] at hc
    simp only [TermT.evalN]
    exact evalN_sqrt_sq t pm h hc
  | .tensor (.cons t (.cons u us)), pm, h, hc => by
    simp only [TermT.wf, TermTList.nonEmpty, Bool.true_and] at h
    simp only [TermT.compFree] at hc
    have h1 : (TermTList.cons t (TermTList.cons u us)).wfComp 0 = true → True :=
      fun _ => trivial
    simp only [TermTList.wfAll, Bool.and_eq_true] at h
    obtain ⟨ht, hus⟩ := h
    simp only [TermTList.compFreeAll, Bool.and_eq_true] at hc
    obtain ⟨htc, husc⟩ := hc
    simp only [TermT.evalN, TermTList.evalListN, TermN.to_unitary, TermT.get_type,
      TermTList.typeSum]
    have hMdim := (termN_unitary (t.evalN (pm / 2)) (evalN_wf t (pm / 2) ht)).1
    rw [evalN_arity t (pm / 2)] at hMdim
    have hMdim2 := (termN_unitary (t.evalN pm) (evalN_wf t pm ht)).1
    rw [evalN_arity t pm] at hMdim2
    have hrec := evalListN_sqrt_sq_tensorFold (TermTList.cons u us) pm
      (2 ^ t.get_type) ((t.evalN (pm / 2)).to_unitary) ((t.evalN pm).to_unitary)
      (by simp only [TermTList.wfAll, Bool.and_eq_true]; exact hus)
      (by simp only [TermTList.compFreeAll, Bool.and_eq_true]; exact husc)
      hMdim hMdim2 (evalN_sqrt_sq t pm ht htc)
    rw [pow_add]
    exact hrec
  | .id ty, pm, _, _ => by
    simp only [TermT.evalN, TermN.to_unitary, TermT.get_type]
    exact mmul_idM (isDim_idM _)
  | .phase p, pm, _, _ => by
    simp only [TermT.evalN, TermN.to_unitary, AtomN.to_unitary, TermT.get_type,
      pow_zero, phaseMat_mul]
    have harg : pm / 2 * p.eval + pm / 2 * p.eval = pm * p.eval := by ring
    rw [harg]
  | .ifLet pat inner, pm, h, hc => by
    simp only [TermT.wf, Bool.and_eq_true, beq_iff_eq] at h
    obtain ⟨⟨hp, hi⟩, hty⟩ := h
    simp only [TermT.compFree] at hc
    simp only [TermT.evalN, TermN.to_unitary, AtomN.to_unitary, TermT.get_type]
    have hinv := patternN_injProj pat.evalP (evalP_wf pat hp)
    rw [(evalP_ty pat).1, (evalP_ty pat).2] at hinv
    have hYdim := (termN_unitary (inner.evalN (pm / 2)) (evalN_wf inner (pm / 2) hi)).1
    rw [evalN_arity inner (pm / 2), ← hty] at hYdim
    have hemb : (2 : ℕ) ^ (pat.evalP).tyI = 2 ^ pat.tyInT := by
      rw [(evalP_ty pat).2]
    rw [hemb, ifLet_sandwich_mul hinv hYdim, hty, evalN_sqrt_sq inner pm hi hc]
  | .gate _ d, pm, h, hc => by
    simp only [TermT.compFree] at hc
    simp only [TermT.evalN, TermT.get_type]
    exact evalN_sqrt_sq d pm h hc
  | .inverse t, pm, h, hc => by
    simp only [TermT.compFree] at hc
    simp only [TermT.evalN, TermT.get_type]
    have hrec := evalN_sqrt_sq t (-pm) h hc
    rw [neg_div] at hrec
    exact hrec
  | .sqrt t, pm, h, hc => by
    simp only [TermT.compFree] at hc
    simp only [TermT.evalN, TermT.get_type]
    exact evalN_sqrt_sq t (pm / 2) h hc

theorem evalListN_sqrt_sq_tensorFold :
    ∀ (ts : TermTList) (pm : ℚ) (m : ℕ) (acc1 acc2 : CMat),
      ts.wfAll = true → ts.compFreeAll = true →
      IsDim m m acc1 → IsDim m m acc2 →
      mmul m acc1 acc1 = acc2 →
      mmul (m * 2 ^ ts.typeSum) ((ts.evalListN (pm / 2)).tensorFold acc1)
          ((ts.evalListN (pm / 2)).tensorFold acc1)
        = (ts.evalListN pm).tensorFold acc2
  | .nil, pm, m, acc1, acc2, _, _, _, _, hsq => by
    simpa only [TermTList.evalListN, TermNList.tensorFold, TermTList.typeSum,
      pow_zero, mul_one] using hsq
  | .cons t ts, pm, m, acc1, acc2, h, hc, hd1, hd2, hsq => by
    simp only [TermTList.wfAll, Bool.and_eq_true] at h
    obtain ⟨ht, hts⟩ := h
    simp only [TermTList.compFreeAll, Bool.and_eq_true] at hc
    obtain ⟨htc, htsc⟩ := hc
    simp only [TermTList.evalListN, TermNList.tensorFold, TermTList.typeSum]
    have hMdim := (termN_unitary (t.evalN (pm / 2)) (evalN_wf t (pm / 2) ht)).1
    rw [evalN_arity t (pm / 2)] at hMdim
    have hMdim2 := (termN_unitary (t.evalN pm) (evalN_wf t pm ht)).1
    rw [evalN_arity t pm] at hMdim2
    rw [evalN_arity t (pm / 2), evalN_arity t pm]
    have hsq2 : mmul (m * 2 ^ t.get_type)
        (kron (2 ^ t.get_type) (2 ^ t.get_type) acc1 ((t.evalN (pm / 2)).to_unitary))
        (kron (2 ^ t.get_type) (2 ^ t.get_type) acc1 ((t.evalN (pm / 2)).to_unitary))
          = kron (2 ^ t.get_type) (2 ^ t.get_type) acc2 ((t.evalN pm).to_unitary) := by
      rw [kron_mmul, hsq, evalN_sqrt_sq t pm ht htc]
    have hrec := evalListN_sqrt_sq_tensorFold ts pm (m * 2 ^ t.get_type)
      (kron (2 ^ t.get_type) (2 ^ t.get_type) acc1 ((t.evalN (pm / 2)).to_unitary))
      (kron (2 ^ t.get_type) (2 ^ t.get_type) acc2 ((t.evalN pm).to_unitary))
      hts htsc (isDim_kron hd1 hMdim) (isDim_kron hd2 hMdim2) hsq2
    rw [pow_add, ← mul_assoc]
    exact hrec
end

/-- C5: for every composition-free well-typed term `t`, the square of the
unitary of `Sqrt(t)` recovers the unitary of `t` up to a global unit-modulus
phase (in fact exactly, i.e. with phase `1`). -/
theorem c5_sqrt_law (t : TermT) (h : t.wf = true) (hc : t.compFree = true) :
    ∃ c : ℂ, Complex.abs c = 1 ∧
      mmul (2 ^ t.get_type) (((TermT.sqrt t).eval).to_unitary)
          (((TermT.sqrt t).eval).to_unitary)
        = smulM c (t.eval.to_unitary) := by
  refine ⟨1, by simp, ?_⟩
  rw [one_smulM]
  simp only [TermT.eval, TermT.evalN]
  exact evalN_sqrt_sq t 1 h hc

/-- Witness for C5 at the concrete term `Z` (whose square root is `S`). -/
theorem c5_sqrt_law_witness :
    zGate.wf = true ∧ zGate.compFree = true ∧
      ∃ c : ℂ, Complex.abs c = 1 ∧
        mmul (2 ^ zGate.get_type) (((TermT.sqrt zGate).eval).to_unitary)
            (((TermT.sqrt zGate).eval).to_unitary)
          = smulM c (zGate.eval.to_unitary) :=
  ⟨by decide, by decide, c5_sqrt_law zGate (by decide) (by decide)⟩

mutual
/-- `TermN::quote`: quotation of normal forms back into the typed IR. -/
def TermN.quote : TermN → TermT
  | .comp .nil ty => TermT.id ty
  | .comp (.cons t ts) ty => TermT.comp (TermNList.cons t ts).quoteList
  | .tensor ts => TermT.tensor ts.quoteList
  | .atom a => a.quote

def TermNList.quoteList : TermNList → TermTList
  | .nil => TermTList.nil
  | .cons t ts => TermTList.cons t.quote ts.quoteList

/-- `AtomN::quote`. -/
def AtomN.quote : AtomN → TermT
  | .phase a => TermT.phase (Phase.from_angle a)
  | .ifLet p t _ => TermT.ifLet p.quoteP t.quote

/-- `PatternN::quote`. -/
def PatternN.quoteP : PatternN → PatternT
  | .comp .nil a _ => PatternT.unitary (TermT.id a)
  | .comp (.cons p ps) _ _ => PatternT.comp (PatternNList.cons p ps).quoteListP
  | .tensor ps => PatternT.tensor ps.quoteListP
  | .ket s => PatternT.ket [s]
  | .unitary a => PatternT.unitary a.quote

def PatternNList.quoteListP : PatternNList → PatternTList
  | .nil => PatternTList.nil
  | .cons p ps => PatternTList.cons p.quoteP ps.quoteListP
end

/-- C8 counterexample: quoting the singleton composition `Comp([ph(0)])`
retains the `Comp` wrapper instead of quoting to the element itself. -/
theorem c8_quote_counterexample :
    ¬((TermN.comp (TermNList.cons (TermN.atom (AtomN.phase 0)) TermNList.nil)
        0).quote
      = (TermN.atom (AtomN.phase 0)).quote) := by
  decide

/-- C8 (amended): quotation maps an empty `Comp` to `Id(ty)`; a singleton
composition `Comp([t])` quotes to `Comp([quote t])`, keeping the one-element
`Comp` wrapper (the source only special-cases the empty list); phase atoms
are canonicalised by `Phase::from_angle`, which maps the angles `0.5`,
`1.0`, `1.5` to the exact variants `Imag`, `MinusOne`, `MinusImag`. -/
theorem c8_quote_shape :
    (∀ ty : ℕ, (TermN.comp TermNList.nil ty).quote = TermT.id ty) ∧
    (∀ (t : TermN) (ty : ℕ),
      (TermN.comp (TermNList.cons t TermNList.nil) ty).quote
        = TermT.comp (TermTList.cons t.quote TermTList.nil)) ∧
    (∀ a : ℚ, (TermN.atom (AtomN.phase a)).quote
        = TermT.phase (Phase.from_angle a)) ∧
    Phase.from_angle (1 / 2) = Phase.imag ∧
    Phase.from_angle 1 = Phase.minusOne ∧
    Phase.from_angle (3 / 2) = Phase.minusImag :=
  ⟨fun _ => rfl, fun _ _ => rfl, fun _ => rfl,
    by rw [Phase.from_angle, if_pos rfl],
    by rw [Phase.from_angle, if_neg (by norm_num), if_pos rfl],
    by rw [Phase.from_angle, if_neg (by norm_num), if_neg (by norm_num),
      if_pos rfl]⟩

mutual
/-- Strict scanner: no `Comp` or `Tensor` node anywhere (terms and
patterns alike) has exactly one child. -/
def TermN.noSingle : TermN → Bool
  | .comp ts _ => (ts.length != 1) && ts.noSingleAll
  | .tensor ts => (ts.length != 1) && ts.noSingleAll
  | .atom a => a.noSingleA

def TermNList.noSingleAll : TermNList → Bool
  | .nil => true
  | .cons t ts => t.noSingle && ts.noSingleAll

def AtomN.noSingleA : AtomN → Bool
  | .phase _ => true
  | .ifLet p t _ => p.noSingleP && t.noSingle

def PatternN.noSingleP : PatternN → Bool
  | .comp ps _ _ => (ps.length != 1) && ps.noSinglePAll
  | .tensor ps => (ps.length != 1) && ps.noSinglePAll
  | .ket _ => true
  | .unitary a => a.noSingleA

def PatternNList.noSinglePAll : PatternNList → Bool
  | .nil => true
  | .cons p ps => p.noSingleP && ps.noSinglePAll
end

mutual
/-- Relaxed scanner: as `noSingle`, except that a pattern `Tensor` whose
single child is a `Ket` is allowed (these arise from evaluating single-state
ket literals). -/
def TermN.lax : TermN → Bool
  | .comp ts _ => (ts.length != 1) && ts.laxAll
  | .tensor ts => (ts.length != 1) && ts.laxAll
  | .atom a => a.laxA

def TermNList.laxAll : TermNList → Bool
  | .nil => true
  | .cons t ts => t.lax && ts.laxAll

def AtomN.laxA : AtomN → Bool
  | .phase _ => true
  | .ifLet p t _ => p.laxP && t.lax

def PatternN.laxP : PatternN → Bool
  | .comp ps _ _ => (ps.length != 1) && ps.laxPAll
  | .tensor (.cons (.ket _) .nil) => true
  | .tensor ps => (ps.length != 1) && ps.laxPAll
  | .ket _ => true
  | .unitary a => a.laxA

def PatternNList.laxPAll : PatternNList → Bool
  | .nil => true
  | .cons p ps => p.laxP && ps.laxPAll
end

def TermTList.length : TermTList → ℕ
  | .nil => 0
  | .cons _ ts => ts.length + 1

theorem TermNList.length_append : ∀ l1 l2 : TermNList,
    (l1.append l2).length = l1.length + l2.length
  | .nil, l2 => by simp [TermNList.append, TermNList.length]
  | .cons t ts, l2 => by
    simp [TermNList.append, TermNList.length, TermNList.length_append ts l2]
    omega

theorem TermNList.length_reverse : ∀ l : TermNList, l.reverse.length = l.length
  | .nil => rfl
  | .cons t ts => by
    simp [TermNList.reverse, TermNList.length_append,
      TermNList.length_reverse ts, TermNList.length]

theorem TermNList.laxAll_append : ∀ l1 l2 : TermNList,
    (l1.append l2).laxAll = (l1.laxAll && l2.laxAll)
  | .nil, l2 => by simp [TermNList.append, TermNList.laxAll]
  | .cons t ts, l2 => by
    simp [TermNList.append, TermNList.laxAll, TermNList.laxAll_append ts l2,
      Bool.and_assoc]

theorem TermNList.laxAll_reverse : ∀ l : TermNList, l.reverse.laxAll = l.laxAll
  | .nil => rfl
  | .cons t ts => by
    simp [TermNList.reverse, TermNList.laxAll_append,
      TermNList.laxAll_reverse ts, TermNList.laxAll, Bool.and_comm]

theorem PatternNList.lengthP_append : ∀ l1 l2 : PatternNList,
    (l1.append l2).length = l1.length + l2.length
  | .nil, l2 => by simp [PatternNList.append, PatternNList.length]
  | .cons p ps, l2 => by
    simp [PatternNList.append, PatternNList.length,
      PatternNList.lengthP_append ps l2]
    omega

theorem PatternNList.lengthP_reverse : ∀ l : PatternNList,
    l.reverse.length = l.length
  | .nil => rfl
  | .cons p ps => by
    simp [PatternNList.reverse, PatternNList.lengthP_append,
      PatternNList.lengthP_reverse ps, PatternNList.length]

theorem PatternNList.laxPAll_append : ∀ l1 l2 : PatternNList,
    (l1.append l2).laxPAll = (l1.laxPAll && l2.laxPAll)
  | .nil, l2 => by simp [PatternNList.append, PatternNList.laxPAll]
  | .cons p ps, l2 => by
    simp [PatternNList.append, PatternNList.laxPAll,
      PatternNList.laxPAll_append ps l2, Bool.and_assoc]

theorem PatternNList.laxPAll_reverse : ∀ l : PatternNList,
    l.reverse.laxPAll = l.laxPAll
  | .nil => rfl
  | .cons p ps => by
    simp [PatternNList.reverse, PatternNList.laxPAll_append,
      PatternNList.laxPAll_reverse ps, PatternNList.laxPAll, Bool.and_comm]

theorem TermTList.wfComp_wfAll : ∀ (ts : TermTList) (n : ℕ),
    ts.wfComp n = true → ts.wfAll = true
  | .nil, _, _ => rfl
  | .cons t ts, n, h => by
    simp only [TermTList.wfComp, Bool.and_eq_true, beq_iff_eq] at h
    simp only [TermTList.wfAll, Bool.and_eq_true]
    exact ⟨h.1.1, TermTList.wfComp_wfAll ts n h.2⟩

theorem TermTList.evalListN_length : ∀ (ts : TermTList) (pm : ℚ),
    (ts.evalListN pm).length = ts.length
  | .nil, _ => rfl
  | .cons t ts, pm => by
    simp [TermTList.evalListN, TermNList.length, TermTList.length,
      TermTList.evalListN_length ts pm]

theorem TermTList.evalListPB_length : ∀ (ts : TermTList) (pm : ℚ),
    (ts.evalListPB pm).length = ts.length
  | .nil, _ => rfl
  | .cons t ts, pm => by
    simp [TermTList.evalListPB, PatternNList.length, TermTList.length,
      TermTList.evalListPB_length ts pm]

theorem ketsToPatternNList_laxPAll (states : List KetState) :
    (ketsToPatternNList states).laxPAll = true := by
  induction states with
  | nil => rfl
  | cons s ss ih => simp [ketsToPatternNList, PatternNList.laxPAll, PatternN.laxP, ih]

theorem ketsToPatternNList_length (states : List KetState) :
    (ketsToPatternNList states).length = states.length := by
  induction states with
  | nil => rfl
  | cons s ss ih => simp [ketsToPatternNList, PatternNList.length, ih]

def PatternTList.length : PatternTList → ℕ
  | .nil => 0
  | .cons _ ps => ps.length + 1

theorem PatternTList.evalListP_length : ∀ ps : PatternTList,
    (ps.evalListP).length = ps.length
  | .nil => rfl
  | .cons p ps => by
    simp [PatternTList.evalListP, PatternNList.length, PatternTList.length,
      PatternTList.evalListP_length ps]

theorem PatternN.laxP_tensor : ∀ L : PatternNList, (L.length != 1) = true →
    L.laxPAll = true → (PatternN.tensor L).laxP = true
  | .nil, _, _ => rfl
  | .cons x .nil, hlen, _ => by simp [PatternNList.length] at hlen
  | .cons x (.cons y ys), _, hall => by
    cases x <;> exact hall

theorem PatternTList.wfChainT_wfAllT : ∀ ps : PatternTList,
    ps.wfChainT = true → ps.wfAllT = true
  | .nil, _ => rfl
  | .cons p .nil, h => by
    simp only [PatternTList.wfChainT] at h
    simp only [PatternTList.wfAllT, Bool.and_eq_true]
    exact ⟨h, trivial⟩
  | .cons p (.cons q ps), h => by
    simp only [PatternTList.wfChainT, Bool.and_eq_true, beq_iff_eq] at h
    have hrec := PatternTList.wfChainT_wfAllT (PatternTList.cons q ps) h.2
    simp only [PatternTList.wfAllT, Bool.and_eq_true] at hrec ⊢
    exact ⟨h.1.1, hrec⟩

mutual
/-- Evaluation never produces singleton `Comp`/`Tensor` nodes, except the
pattern tensors produced by single-state ket literals. -/
theorem evalN_lax : ∀ (t : TermT) (pm : ℚ), t.wf = true → (t.evalN pm).lax = true
  | .comp .nil, pm, h => by
    simp [TermT.wf, TermTList.nonEmpty] at h
  | .comp (.cons t .nil), pm, h => by
    simp only [TermT.wf, TermTList.nonEmpty, TermTList.wfComp, TermTList.firstType,
      Bool.true_and, Bool.and_true, Bool.and_eq_true, beq_iff_eq] at h
    simp only [TermT.evalN]
    exact evalN_lax t pm h.1
  | .comp (.cons t (.cons u us)), pm, h => by
    simp only [TermT.wf, TermTList.nonEmpty, Bool.true_and] at h
    have hall := evalListN_laxAll (TermTList.cons t (TermTList.cons u us)) pm
      (TermTList.wfComp_wfAll _ _ h)
    have hlen : ((TermTList.cons t (TermTList.cons u us)).evalListN pm).length
        = us.length + 2 := by
      rw [TermTList.evalListN_length]
      simp [TermTList.length]
    simp only [TermT.evalN]
    split
    · simp only [TermN.lax, Bool.and_eq_true]
      refine ⟨?_, hall⟩
      rw [hlen]
      simp
    · simp only [TermN.lax, Bool.and_eq_true]
      refine ⟨?_, by rw [TermNList.laxAll_reverse]; exact hall⟩
      rw [TermNList.length_reverse, hlen]
      simp
  | .tensor .nil, pm, h => by
    simp [TermT.wf, TermTList.nonEmpty] at h
  | .tensor (.cons t .nil), pm, h => by
    simp only [TermT.wf, TermTList.nonEmpty, TermTList.wfAll, Bool.true_and,
      Bool.and_true, Bool.and_eq_true] at h
    simp only [TermT.evalN]
    exact evalN_lax t pm h
  | .tensor (.cons t (.cons u us)), pm, h => by
    simp only [TermT.wf, TermTList.nonEmpty, Bool.true_and] at h
    have hall := evalListN_laxAll (TermTList.cons t (TermTList.cons u us)) pm h
    have hlen : ((TermTList.cons t (TermTList.cons u us)).evalListN pm).length
        = us.length + 2 := by
      rw [TermTList.evalListN_length]
      simp [TermTList.length]
    simp only [TermT.evalN, TermN.lax, Bool.and_eq_true]
    refine ⟨?_, hall⟩
    rw [hlen]
    simp
  | .id ty, pm, _ => rfl
  | .phase p, pm, _ => rfl
  | .ifLet pat inner, pm, h => by
    simp only [TermT.wf, Bool.and_eq_true, beq_iff_eq] at h
    obtain ⟨⟨hp, hi⟩, _⟩ := h
    simp only [TermT.evalN, TermN.lax, AtomN.laxA, Bool.and_eq_true]
    exact ⟨evalP_lax pat hp, evalN_lax inner pm hi⟩
  | .gate _ d, pm, h => evalN_lax d pm h
  | .inverse t, pm, h => evalN_lax t (-pm) h
  | .sqrt t, pm, h => evalN_lax t (pm / 2) h

theorem evalListN_laxAll : ∀ (ts : TermTList) (pm : ℚ),
    ts.wfAll = true → (ts.evalListN pm).laxAll = true
  | .nil, pm, _ => rfl
  | .cons t ts, pm, h => by
    simp only [TermTList.wfAll, Bool.and_eq_true] at h
    simp only [TermTList.evalListN, TermNList.laxAll, Bool.and_eq_true]
    exact ⟨evalN_lax t pm h.1, evalListN_laxAll ts pm h.2⟩

theorem evalPB_lax : ∀ (t : TermT) (pm : ℚ), t.wf = true → (t.evalPB pm).laxP = true
  | .comp .nil, pm, h => by
    simp [TermT.wf, TermTList.nonEmpty] at h
  | .comp (.cons t .nil), pm, h => by
    simp only [TermT.wf, TermTList.nonEmpty, TermTList.wfComp, TermTList.firstType,
      Bool.true_and, Bool.and_true, Bool.and_eq_true, beq_iff_eq] at h
    simp only [TermT.evalPB]
    exact evalPB_lax t pm h.1
  | .comp (.cons t (.cons u us)), pm, h => by
    simp only [TermT.wf, TermTList.nonEmpty, Bool.true_and] at h
    have hall := evalListPB_laxPAll (TermTList.cons t (TermTList.cons u us)) pm
      (TermTList.wfComp_wfAll _ _ h)
    have hlen : ((TermTList.cons t (TermTList.cons u us)).evalListPB pm).length
        = us.length + 2 := by
      rw [TermTList.evalListPB_length]
      simp [TermTList.length]
    simp only [TermT.evalPB]
    split
    · simp only [PatternN.laxP, Bool.and_eq_true]
      refine ⟨?_, by rw [PatternNList.laxPAll_reverse]; exact hall⟩
      rw [PatternNList.lengthP_reverse, hlen]
      simp
    · simp only [PatternN.laxP, Bool.and_eq_true]
      refine ⟨?_, hall⟩
      rw [hlen]
      simp
  | .tensor .nil, pm, h => by
    simp [TermT.wf, TermTList.nonEmpty] at h
  | .tensor (.cons t .nil), pm, h => by
    simp only [TermT.wf, TermTList.nonEmpty, TermTList.wfAll, Bool.true_and,
      Bool.and_true, Bool.and_eq_true] at h
    simp only [TermT.evalPB]
    exact evalPB_lax t pm h
  | .tensor (.cons t (.cons u us)), pm, h => by
    simp only [TermT.wf, TermTList.nonEmpty, Bool.true_and] at h
    have hall := evalListPB_laxPAll (TermTList.cons t (TermTList.cons u us)) pm h
    have hlen : ((TermTList.cons t (TermTList.cons u us)).evalListPB pm).length
        = us.length + 2 := by
      rw [TermTList.evalListPB_length]
      simp [TermTList.length]
    simp only [TermT.evalPB]
    refine PatternN.laxP_tensor _ ?_ hall
    rw [hlen]
    simp
  | .id ty, pm, _ => rfl
  | .phase p, pm, _ => rfl
  | .ifLet pat inner, pm, h => by
    simp only [TermT.wf, Bool.and_eq_true, beq_iff_eq] at h
    obtain ⟨⟨hp, hi⟩, _⟩ := h
    simp only [TermT.evalPB, PatternN.laxP, AtomN.laxA, Bool.and_eq_true]
    exact ⟨evalP_lax pat hp, evalN_lax inner pm hi⟩
  | .gate _ d, pm, h => evalPB_lax d pm h
  | .inverse t, pm, h => evalPB_lax t (-pm) h
  | .sqrt t, pm, h => evalPB_lax t (pm / 2) h

theorem evalListPB_laxPAll : ∀ (ts : TermTList) (pm : ℚ),
    ts.wfAll = true → (ts.evalListPB pm).laxPAll = true
  | .nil, pm, _ => rfl
  | .cons t ts, pm, h => by
    simp only [TermTList.wfAll, Bool.and_eq_true] at h
    simp only [TermTList.evalListPB, PatternNList.laxPAll, Bool.and_eq_true]
    exact ⟨evalPB_lax t pm h.1, evalListPB_laxPAll ts pm h.2⟩

theorem evalP_lax : ∀ p : PatternT, p.wfP = true → (p.evalP).laxP = true
  | .comp .nil, h => by
    simp [PatternT.wfP, PatternTList.nonEmpty] at h
  | .comp (.cons p .nil), h => by
    simp only [PatternT.wfP, PatternTList.nonEmpty, PatternTList.wfChainT,
      Bool.true_and] at h
    simp only [PatternT.evalP]
    exact evalP_lax p h
  | .comp (.cons p (.cons q ps)), h => by
    simp only [PatternT.wfP, PatternTList.nonEmpty, Bool.true_and] at h
    have hall := evalListP_laxPAll (PatternTList.cons p (PatternTList.cons q ps))
      (PatternTList.wfChainT_wfAllT _ h)
    have hlen : ((PatternTList.cons p (PatternTList.cons q ps)).evalListP).length
        = ps.length + 2 := by
      rw [PatternTList.evalListP_length]
      simp [PatternTList.length]
    simp only [PatternT.evalP, PatternN.laxP, Bool.and_eq_true]
    refine ⟨?_, hall⟩
    rw [hlen]
    simp
  | .tensor .nil, h => by
    simp [PatternT.wfP, PatternTList.nonEmpty] at h
  | .tensor (.cons p .nil), h => by
    simp only [PatternT.wfP, PatternTList.nonEmpty, PatternTList.wfAllT,
      Bool.true_and, Bool.and_true, Bool.and_eq_true] at h
    simp only [PatternT.evalP]
    exact evalP_lax p h
  | .tensor (.cons p (.cons q ps)), h => by
    simp only [PatternT.wfP, PatternTList.nonEmpty, Bool.true_and] at h
    have hall := evalListP_laxPAll (PatternTList.cons p (PatternTList.cons q ps)) h
    have hlen : ((PatternTList.cons p (PatternTList.cons q ps)).evalListP).length
        = ps.length + 2 := by
      rw [PatternTList.evalListP_length]
      simp [PatternTList.length]
    simp only [PatternT.evalP]
    refine PatternN.laxP_tensor _ ?_ hall
    rw [hlen]
    simp
  | .ket states, h => by
    simp only [PatternT.evalP]
    cases states with
    | nil => simp [PatternT.wfP, List.isEmpty] at h
    | cons s ss =>
      cases ss with
      | nil => rfl
      | cons s2 ss2 =>
        refine PatternN.laxP_tensor _ ?_ (ketsToPatternNList_laxPAll _)
        rw [ketsToPatternNList_length]
        simp
  | .unitary t, h => evalPB_lax t 1 h

theorem evalListP_laxPAll : ∀ ps : PatternTList,
    ps.wfAllT = true → (ps.evalListP).laxPAll = true
  | .nil, _ => rfl
  | .cons p ps, h => by
    simp only [PatternTList.wfAllT, Bool.and_eq_true] at h
    simp only [PatternTList.evalListP, PatternNList.laxPAll, Bool.and_eq_true]
    exact ⟨evalP_lax p h.1, evalListP_laxPAll ps h.2⟩
end

/-- C7, original reading refuted: `eval` of the well-typed term
`if let |1⟩ then -1` contains a pattern `Tensor` node with exactly one child
(the single-state ket literal is wrapped in a singleton `Tensor` by
`PatternT::eval`), so the evaluation result is not free of one-child nodes. -/
theorem c7_singleton_elision_counterexample :
    zGate.wf = true ∧ (zGate.eval).noSingle = false := by decide

/-- C7 (amended): for every well-typed term and every well-typed pattern, the
normal form produced by `eval` contains no `Comp` node and no `Tensor` node
with exactly one child, up to the single exception forced by the code: a
pattern `Tensor` whose only child is a `Ket` atom, which `PatternT::eval`
produces from a single-state ket literal. -/
theorem c7_singleton_elision :
    (∀ (t : TermT) (pm : ℚ), t.wf = true → (t.evalN pm).lax = true) ∧
    (∀ p : PatternT, p.wfP = true → (p.evalP).laxP = true) :=
  ⟨fun t pm h => evalN_lax t pm h, fun p h => evalP_lax p h⟩

/-- The amended C7 statement at concrete inputs. -/
theorem c7_singleton_elision_witness :
    zGate.wf = true ∧ (zGate.evalN 1).lax = true ∧
    samplePattern.wfP = true ∧ (samplePattern.evalP).laxP = true :=
  ⟨by decide, c7_singleton_elision.1 zGate 1 (by decide),
   by decide, c7_singleton_elision.2 samplePattern (by decide)⟩

/-- The final step of `TermN::squash` in the `Comp` case: after refilling the
list, `if terms.len() == 1 { *self = terms.pop().unwrap() }`. -/
def TermN.compResult : TermNList → ℕ → TermN
  | .cons t .nil, _ => t
  | ts, ty => .comp ts ty

/-- The final step of `TermN::squash` in the `Tensor` case. -/
def TermN.tensorResult : TermNList → TermN
  | .cons t .nil => t
  | ts => .tensor ts

/-- The final step of `PatternN::squash` in the `Comp` case. -/
def PatternN.compResult : PatternNList → ℕ → ℕ → PatternN
  | .cons p .nil, _, _ => p
  | ps, a, b => .comp ps a b

/-- The final step of `PatternN::squash` in the `Tensor` case. -/
def PatternN.tensorResult : PatternNList → PatternN
  | .cons p .nil => p
  | ps => .tensor ps

mutual
/-- `TermN::squash`, written functionally: the accumulator loops
`for t in old_terms { t.squash_comp(terms) }` become list functions, and the
`self.squash(); acc.push(self)` branch of `squash_comp`/`squash_tensor` is
inlined per non-matching constructor. -/
def TermN.squash : TermN → TermN
  | .comp ts ty => TermN.compResult ts.squashCompList ty
  | .tensor ts => TermN.tensorResult ts.squashTensorList
  | .atom a => .atom a.squashA

/-- The accumulator of `TermN::squash` (Comp case): each element contributes
its `squash_comp` output, concatenated in order. -/
def TermNList.squashCompList : TermNList → TermNList
  | .nil => .nil
  | .cons t ts => t.squashCompInto.append ts.squashCompList

/-- `TermN::squash_comp`: a nested `Comp` is spliced (its own elements
flattened recursively); any other node is fully squashed and pushed as a
single element. -/
def TermN.squashCompInto : TermN → TermNList
  | .comp ts _ => ts.squashCompList
  | .tensor ts => .cons (TermN.tensorResult ts.squashTensorList) .nil
  | .atom a => .cons (.atom a.squashA) .nil

/-- The accumulator of `TermN::squash` (Tensor case). -/
def TermNList.squashTensorList : TermNList → TermNList
  | .nil => .nil
  | .cons t ts => t.squashTensorInto.append ts.squashTensorList

/-- `TermN::squash_tensor`. -/
def TermN.squashTensorInto : TermN → TermNList
  | .comp ts ty => .cons (TermN.compResult ts.squashCompList ty) .nil
  | .tensor ts => ts.squashTensorList
  | .atom a => .cons (.atom a.squashA) .nil

/-- `AtomN::squash`: only `IfLet` recurses; `Phase` is untouched. -/
def AtomN.squashA : AtomN → AtomN
  | .phase a => .phase a
  | .ifLet p t ty => .ifLet p.squashP t.squash ty

/-- `PatternN::squash`. -/
def PatternN.squashP : PatternN → PatternN
  | .comp ps a b => PatternN.compResult ps.squashPCompList a b
  | .tensor ps => PatternN.tensorResult ps.squashPTensorList
  | .ket s => .ket s
  | .unitary a => .unitary a.squashA

def PatternNList.squashPCompList : PatternNList → PatternNList
  | .nil => .nil
  | .cons p ps => p.squashPCompInto.append ps.squashPCompList

/-- `PatternN::squash_comp`. -/
def PatternN.squashPCompInto : PatternN → PatternNList
  | .comp ps _ _ => ps.squashPCompList
  | .tensor ps => .cons (PatternN.tensorResult ps.squashPTensorList) .nil
  | .ket s => .cons (.ket s) .nil
  | .unitary a => .cons (.unitary a.squashA) .nil

def PatternNList.squashPTensorList : PatternNList → PatternNList
  | .nil => .nil
  | .cons p ps => p.squashPTensorInto.append ps.squashPTensorList

/-- `PatternN::squash_tensor`. -/
def PatternN.squashPTensorInto : PatternN → PatternNList
  | .comp ps a b => .cons (PatternN.compResult ps.squashPCompList a b) .nil
  | .tensor ps => ps.squashPTensorList
  | .ket s => .cons (.ket s) .nil
  | .unitary a => .cons (.unitary a.squashA) .nil
end

def TermN.notComp : TermN → Bool
  | .comp _ _ => false
  | _ => true

def TermN.notTensor : TermN → Bool
  | .tensor _ => false
  | _ => true

def PatternN.notCompP : PatternN → Bool
  | .comp _ _ _ => false
  | _ => true

def PatternN.notTensorP : PatternN → Bool
  | .tensor _ => false
  | _ => true

mutual
/-- Squash-normal ("flat") terms: no singleton `Comp`/`Tensor`, no `Comp`
directly under a `Comp`, no `Tensor` directly under a `Tensor`, recursively
(also inside `IfLet` atoms). -/
def TermN.flat : TermN → Bool
  | .comp ts _ => (ts.length != 1) && ts.flatAllC
  | .tensor ts => (ts.length != 1) && ts.flatAllT
  | .atom a => a.flatA

def TermNList.flatAllC : TermNList → Bool
  | .nil => true
  | .cons t ts => t.notComp && t.flat && ts.flatAllC

def TermNList.flatAllT : TermNList → Bool
  | .nil => true
  | .cons t ts => t.notTensor && t.flat && ts.flatAllT

def AtomN.flatA : AtomN → Bool
  | .phase _ => true
  | .ifLet p t _ => p.flatP && t.flat

def PatternN.flatP : PatternN → Bool
  | .comp ps _ _ => (ps.length != 1) && ps.flatAllPC
  | .tensor ps => (ps.length != 1) && ps.flatAllPT
  | .ket _ => true
  | .unitary a => a.flatA

def PatternNList.flatAllPC : PatternNList → Bool
  | .nil => true
  | .cons p ps => p.notCompP && p.flatP && ps.flatAllPC

def PatternNList.flatAllPT : PatternNList → Bool
  | .nil => true
  | .cons p ps => p.notTensorP && p.flatP && ps.flatAllPT
end

theorem TermN.compResult_of_ne_one : ∀ (ts : TermNList) (ty : ℕ),
    (ts.length != 1) = true → TermN.compResult ts ty = TermN.comp ts ty
  | .nil, _, _ => rfl
  | .cons _ .nil, _, h => by simp [TermNList.length] at h
  | .cons _ (.cons _ _), _, _ => rfl

theorem TermN.tensorResult_of_ne_one : ∀ ts : TermNList,
    (ts.length != 1) = true → TermN.tensorResult ts = TermN.tensor ts
  | .nil, _ => rfl
  | .cons _ .nil, h => by simp [TermNList.length] at h
  | .cons _ (.cons _ _), _ => rfl

theorem PatternN.compResultP_of_ne_one : ∀ (ps : PatternNList) (a b : ℕ),
    (ps.length != 1) = true → PatternN.compResult ps a b = PatternN.comp ps a b
  | .nil, _, _, _ => rfl
  | .cons _ .nil, _, _, h => by simp [PatternNList.length] at h
  | .cons _ (.cons _ _), _, _, _ => rfl

theorem PatternN.tensorResultP_of_ne_one : ∀ ps : PatternNList,
    (ps.length != 1) = true → PatternN.tensorResult ps = PatternN.tensor ps
  | .nil, _ => rfl
  | .cons _ .nil, h => by simp [PatternNList.length] at h
  | .cons _ (.cons _ _), _ => rfl

mutual
/-- `squash` fixes every squash-normal term. -/
theorem TermN.squash_flat : ∀ t : TermN, t.flat = true → t.squash = t
  | .comp ts ty, h => by
    simp only [TermN.flat, Bool.and_eq_true] at h
    simp only [TermN.squash]
    rw [TermNList.squashCompList_flat ts h.2, TermN.compResult_of_ne_one ts ty h.1]
  | .tensor ts, h => by
    simp only [TermN.flat, Bool.and_eq_true] at h
    simp only [TermN.squash]
    rw [TermNList.squashTensorList_flat ts h.2, TermN.tensorResult_of_ne_one ts h.1]
  | .atom a, h => by
    simp only [TermN.flat] at h
    simp only [TermN.squash]
    rw [AtomN.squashA_flat a h]

theorem TermNList.squashCompList_flat : ∀ ts : TermNList,
    ts.flatAllC = true → ts.squashCompList = ts
  | .nil, _ => rfl
  | .cons t ts, h => by
    simp only [TermNList.flatAllC, Bool.and_eq_true] at h
    obtain ⟨⟨hnc, hf⟩, hrest⟩ := h
    simp only [TermNList.squashCompList]
    rw [TermN.squashCompInto_flat t hnc hf, TermNList.squashCompList_flat ts hrest]
    rfl

theorem TermN.squashCompInto_flat : ∀ t : TermN, t.notComp = true → t.flat = true →
    t.squashCompInto = TermNList.cons t TermNList.nil
  | .comp _ _, hnc, _ => by simp [TermN.notComp] at hnc
  | .tensor ts, _, hf => by
    simp only [TermN.flat, Bool.and_eq_true] at hf
    simp only [TermN.squashCompInto]
    rw [TermNList.squashTensorList_flat ts hf.2, TermN.tensorResult_of_ne_one ts hf.1]
  | .atom a, _, hf => by
    simp only [TermN.flat] at hf
    simp only [TermN.squashCompInto]
    rw [AtomN.squashA_flat a hf]

theorem TermNList.squashTensorList_flat : ∀ ts : TermNList,
    ts.flatAllT = true → ts.squashTensorList = ts
  | .nil, _ => rfl
  | .cons t ts, h => by
    simp only [TermNList.flatAllT, Bool.and_eq_true] at h
    obtain ⟨⟨hnt, hf⟩, hrest⟩ := h
    simp only [TermNList.squashTensorList]
    rw [TermN.squashTensorInto_flat t hnt hf, TermNList.squashTensorList_flat ts hrest]
    rfl

theorem TermN.squashTensorInto_flat : ∀ t : TermN, t.notTensor = true →
    t.flat = true → t.squashTensorInto = TermNList.cons t TermNList.nil
  | .tensor _, hnt, _ => by simp [TermN.notTensor] at hnt
  | .comp ts ty, _, hf => by
    simp only [TermN.flat, Bool.and_eq_true] at hf
    simp only [TermN.squashTensorInto]
    rw [TermNList.squashCompList_flat ts hf.2, TermN.compResult_of_ne_one ts ty hf.1]
  | .atom a, _, hf => by
    simp only [TermN.flat] at hf
    simp only [TermN.squashTensorInto]
    rw [AtomN.squashA_flat a hf]

theorem AtomN.squashA_flat : ∀ a : AtomN, a.flatA = true → a.squashA = a
  | .phase _, _ => rfl
  | .ifLet p t _, h => by
    simp only [AtomN.flatA, Bool.and_eq_true] at h
    simp only [AtomN.squashA]
    rw [PatternN.squashP_flat p h.1, TermN.squash_flat t h.2]

theorem PatternN.squashP_flat : ∀ p : PatternN, p.flatP = true → p.squashP = p
  | .comp ps a b, h => by
    simp only [PatternN.flatP, Bool.and_eq_true] at h
    simp only [PatternN.squashP]
    rw [PatternNList.squashPCompList_flat ps h.2,
      PatternN.compResultP_of_ne_one ps a b h.1]
  | .tensor ps, h => by
    simp only [PatternN.flatP, Bool.and_eq_true] at h
    simp only [PatternN.squashP]
    rw [PatternNList.squashPTensorList_flat ps h.2,
      PatternN.tensorResultP_of_ne_one ps h.1]
  | .ket _, _ => rfl
  | .unitary a, h => by
    simp only [PatternN.flatP] at h
    simp only [PatternN.squashP]
    rw [AtomN.squashA_flat a h]

theorem PatternNList.squashPCompList_flat : ∀ ps : PatternNList,
    ps.flatAllPC = true → ps.squashPCompList = ps
  | .nil, _ => rfl
  | .cons p ps, h => by
    simp only [PatternNList.flatAllPC, Bool.and_eq_true] at h
    obtain ⟨⟨hnc, hf⟩, hrest⟩ := h
    simp only [PatternNList.squashPCompList]
    rw [PatternN.squashPCompInto_flat p hnc hf,
      PatternNList.squashPCompList_flat ps hrest]
    rfl

theorem PatternN.squashPCompInto_flat : ∀ p : PatternN, p.notCompP = true →
    p.flatP = true → p.squashPCompInto = PatternNList.cons p PatternNList.nil
  | .comp _ _ _, hnc, _ => by simp [PatternN.notCompP] at hnc
  | .tensor ps, _, hf => by
    simp only [PatternN.flatP, Bool.and_eq_true] at hf
    simp only [PatternN.squashPCompInto]
    rw [PatternNList.squashPTensorList_flat ps hf.2,
      PatternN.tensorResultP_of_ne_one ps hf.1]
  | .ket _, _, _ => rfl
  | .unitary a, _, hf => by
    simp only [PatternN.flatP] at hf
    simp only [PatternN.squashPCompInto]
    rw [AtomN.squashA_flat a hf]

theorem PatternNList.squashPTensorList_flat : ∀ ps : PatternNList,
    ps.flatAllPT = true → ps.squashPTensorList = ps
  | .nil, _ => rfl
  | .cons p ps, h => by
    simp only [PatternNList.flatAllPT, Bool.and_eq_true] at h
    obtain ⟨⟨hnt, hf⟩, hrest⟩ := h
    simp only [PatternNList.squashPTensorList]
    rw [PatternN.squashPTensorInto_flat p hnt hf,
      PatternNList.squashPTensorList_flat ps hrest]
    rfl

theorem PatternN.squashPTensorInto_flat : ∀ p : PatternN, p.notTensorP = true →
    p.flatP = true → p.squashPTensorInto = PatternNList.cons p PatternNList.nil
  | .tensor _, hnt, _ => by simp [PatternN.notTensorP] at hnt
  | .comp ps a b, _, hf => by
    simp only [PatternN.flatP, Bool.and_eq_true] at hf
    simp only [PatternN.squashPTensorInto]
    rw [PatternNList.squashPCompList_flat ps hf.2,
      PatternN.compResultP_of_ne_one ps a b hf.1]
  | .ket _, _, _ => rfl
  | .unitary a, _, hf => by
    simp only [PatternN.flatP] at hf
    simp only [PatternN.squashPTensorInto]
    rw [AtomN.squashA_flat a hf]
end

/-- A zero-arity phase atom, used as a leaf in squash examples. -/
def c10p0 : TermN := .atom (.phase 0)

/-- A well-formed normal term on which one `squash` pass does not reach a
fixpoint: `Tensor [Comp [Comp [], Tensor [p0, p0]], p0]`. -/
def c10x : TermN :=
  .tensor (.cons
    (.comp (.cons (.comp .nil 0)
      (.cons (.tensor (.cons c10p0 (.cons c10p0 .nil))) .nil)) 0)
    (.cons c10p0 .nil))

/-- C10, original reading refuted: `squash` is not idempotent.  On the
well-formed normal term `Tensor [Comp [Comp [], Tensor [p0, p0]], p0]` the
first pass collapses the `Comp` to the inner `Tensor` and pushes it, un-
flattened, into the outer tensor list; the second pass then flattens it, so
`squash (squash x) ≠ squash x`. -/
theorem c10_squash_counterexample :
    c10x.wf = true ∧ ¬((c10x.squash).squash = c10x.squash) := by decide

/-- C10 (amended): `squash` is the identity — and hence idempotent — on
squash-normal ("flat") terms and patterns: those with no singleton
`Comp`/`Tensor`, no `Comp` directly under a `Comp` and no `Tensor` directly
under a `Tensor`, recursively.  On general inputs idempotence fails, because
a collapsed singleton can surface a nested node of the enclosing kind that
the same pass no longer flattens. -/
theorem c10_squash_idempotence :
    (∀ t : TermN, t.flat = true → t.squash = t ∧ (t.squash).squash = t.squash) ∧
    (∀ p : PatternN, p.flatP = true →
      p.squashP = p ∧ (p.squashP).squashP = p.squashP) := by
  constructor
  · intro t h
    have h1 := TermN.squash_flat t h
    exact ⟨h1, by rw [h1, h1]⟩
  · intro p h
    have h1 := PatternN.squashP_flat p h
    exact ⟨h1, by rw [h1, h1]⟩

/-- The amended C10 statement at concrete inputs. -/
theorem c10_squash_idempotence_witness :
    (TermN.tensor (.cons c10p0 (.cons c10p0 .nil))).flat = true ∧
    (TermN.tensor (.cons c10p0 (.cons c10p0 .nil))).squash
      = TermN.tensor (.cons c10p0 (.cons c10p0 .nil)) ∧
    (PatternN.ket KetState.one).flatP = true ∧
    (PatternN.ket KetState.one).squashP = PatternN.ket KetState.one :=
  ⟨by decide, (c10_squash_idempotence.1 _ (by decide)).1,
   by decide, (c10_squash_idempotence.2 _ (by decide)).1⟩

def TermTList.append : TermTList → TermTList → TermTList
  | .nil, ys => ys
  | .cons x xs, ys => .cons x (xs.append ys)

def PatternTList.appendP : PatternTList → PatternTList → PatternTList
  | .nil, ys => ys
  | .cons x xs, ys => .cons x (xs.appendP ys)

mutual
/-- `TermR<S>`: a spanned list of tensored terms composed together; spans are
instantiated at `ℕ` (`Range<usize>` positions play no role in checking
beyond being cloned into errors). -/
inductive TermR where
  | mk (span : ℕ) (terms : TensorRList)
inductive TensorRList where
  | nil
  | cons (t : TensorR) (ts : TensorRList)
/-- `TensorR<S>`: a spanned list of atoms tensored together. -/
inductive TensorR where
  | mk (span : ℕ) (terms : AtomRList)
inductive AtomRList where
  | nil
  | cons (a : AtomR) (rest : AtomRList)
/-- `AtomR<S>`. -/
inductive AtomR where
  | mk (span : ℕ) (inner : AtomRInner)
/-- `AtomRInner<S>`. -/
inductive AtomRInner where
  | brackets (term : TermR)
  | id (qubits : ℕ)
  | phase (p : Phase)
  | ifLet (pattern : PatternR) (inner : TensorR)
  | gate (name : String)
  | inverse (inner : AtomR)
  | sqrt (inner : AtomR)
/-- `PatternR<S>`. -/
inductive PatternR where
  | mk (span : ℕ) (patterns : PatTensorRList)
inductive PatTensorRList where
  | nil
  | cons (p : PatTensorR) (ps : PatTensorRList)
/-- `PatTensorR<S>`. -/
inductive PatTensorR where
  | mk (span : ℕ) (patterns : PatAtomRList)
inductive PatAtomRList where
  | nil
  | cons (a : PatAtomR) (rest : PatAtomRList)
/-- `PatAtomR<S>`. -/
inductive PatAtomR where
  | mk (span : ℕ) (inner : PatAtomRInner)
/-- `PatAtomRInner<S>`; a ket literal is a `CompKetState`, i.e. a state
list. -/
inductive PatAtomRInner where
  | brackets (pattern : PatternR)
  | ket (states : List KetState)
  | unitary (inner : TermR)
end

/-- `TypeCheckError<S>` at `S = ℕ`; `panicEmpty` models the `unwrap` on the
first element of an empty composition list, which the parser (`separated
(1.., …)`) makes unreachable. -/
inductive TypeCheckError where
  | typeMismatch (t1 : TensorR) (ty1 : ℕ) (t2 : TensorR) (ty2 : ℕ)
  | ifTypeMismatch (p : PatternR) (pty : ℕ × ℕ) (t : TensorR) (tty : ℕ)
  | patternTypeMismatch (p1 : PatTensorR) (ty1 : ℕ × ℕ) (p2 : PatTensorR)
      (ty2 : ℕ × ℕ)
  | unknownSymbol (name : String) (span : ℕ)
  | termNotRootable (tm : TermR) (span_of_root : ℕ)
  | panicEmpty

/-- `Env`: the gate environment, a name-to-definition map. -/
abbrev Env := String → Option TermT

def TensorRList.length : TensorRList → ℕ
  | .nil => 0
  | .cons _ ts => ts.length + 1

mutual
/-- `TermR::check`: under `check_sqrt = Some span`, a composition of length
`≠ 1` is rejected with `TermNotRootable`; otherwise the elements are checked
left to right, all compared against the FIRST element's type (`ty1` is never
updated), and collected into a `TermT::Comp`. -/
def TermR.check : TermR → Env → Option ℕ → Except TypeCheckError TermT
  | .mk sp terms, env, some span =>
      if terms.length != 1
      then .error (.termNotRootable (.mk sp terms) span)
      else terms.checkComp env (some span)
  | .mk _ terms, env, none => terms.checkComp env none

/-- The body of `TermR::check` after the rootability test: first element. -/
def TensorRList.checkComp : TensorRList → Env → Option ℕ →
    Except TypeCheckError TermT
  | .nil, _, _ => .error .panicEmpty
  | .cons raw rest, env, cs =>
    match raw.check env cs with
    | .error e => .error e
    | .ok t => rest.checkCompRest env cs raw t.get_type (.cons t .nil)

/-- The `for r in term_iter` loop of `TermR::check`: `raw` tracks the
previous element, `ty1` the first element's type, `acc` the checked terms. -/
def TensorRList.checkCompRest : TensorRList → Env → Option ℕ → TensorR → ℕ →
    TermTList → Except TypeCheckError TermT
  | .nil, _, _, _, _, acc => .ok (.comp acc)
  | .cons r rs, env, cs, raw, ty1, acc =>
    match r.check env cs with
    | .error e => .error e
    | .ok term =>
      if ty1 != term.get_type
      then .error (.typeMismatch raw ty1 r term.get_type)
      else rs.checkCompRest env cs r ty1 (acc.append (.cons term .nil))

/-- `TensorR::check`. -/
def TensorR.check : TensorR → Env → Option ℕ → Except TypeCheckError TermT
  | .mk _ atoms, env, cs =>
    match atoms.checkList env cs with
    | .error e => .error e
    | .ok ts => .ok (.tensor ts)

def AtomRList.checkList : AtomRList → Env → Option ℕ →
    Except TypeCheckError TermTList
  | .nil, _, _ => .ok .nil
  | .cons a rest, env, cs =>
    match a.check env cs with
    | .error e => .error e
    | .ok t =>
      match rest.checkList env cs with
      | .error e => .error e
      | .ok ts => .ok (.cons t ts)

/-- `AtomR::check`.  The `Sqrt` case: if already under a sqrt
(`check_sqrt.is_some()`), the inner atom is checked with `None`; otherwise
with `Some(self.span)`. -/
def AtomR.check : AtomR → Env → Option ℕ → Except TypeCheckError TermT
  | .mk _ (.brackets term), env, cs => term.check env cs
  | .mk _ (.id q), _, _ => .ok (.id q)
  | .mk _ (.phase p), _, _ => .ok (.phase p)
  | .mk _ (.ifLet pat inner), env, cs =>
    match pat.check env with
    | .error e => .error e
    | .ok p =>
      match inner.check env cs with
      | .error e => .error e
      | .ok t =>
        if p.tyInT != t.get_type
        then .error (.ifTypeMismatch pat (p.tyOutT, p.tyInT) inner t.get_type)
        else .ok (.ifLet p t)
  | .mk sp (.gate name), env, _ =>
    match env name with
    | some d => .ok (.gate name d)
    | none => .error (.unknownSymbol name sp)
  | .mk _ (.inverse inner), env, cs =>
    match inner.check env cs with
    | .error e => .error e
    | .ok t => .ok (.inverse t)
  | .mk sp (.sqrt inner), env, cs =>
    match cs with
    | some _ =>
      match inner.check env none with
      | .error e => .error e
      | .ok t => .ok (.sqrt t)
    | none =>
      match inner.check env (some sp) with
      | .error e => .error e
      | .ok t => .ok (.sqrt t)

/-- `PatternR::check`: elements checked left to right; here the chained type
`ty1` IS updated each step (`ty1 = ty2`). -/
def PatternR.check : PatternR → Env → Except TypeCheckError PatternT
  | .mk _ pats, env => pats.checkPComp env

def PatTensorRList.checkPComp : PatTensorRList → Env →
    Except TypeCheckError PatternT
  | .nil, _ => .error .panicEmpty
  | .cons raw rest, env =>
    match raw.check env with
    | .error e => .error e
    | .ok p => rest.checkPCompRest env raw (p.tyOutT, p.tyInT) (.cons p .nil)

def PatTensorRList.checkPCompRest : PatTensorRList → Env → PatTensorR →
    ℕ × ℕ → PatternTList → Except TypeCheckError PatternT
  | .nil, _, _, _, acc => .ok (.comp acc)
  | .cons r rs, env, raw, ty1, acc =>
    match r.check env with
    | .error e => .error e
    | .ok pattern =>
      if ty1.2 != pattern.tyOutT
      then .error (.patternTypeMismatch raw ty1 r (pattern.tyOutT, pattern.tyInT))
      else rs.checkPCompRest env r (pattern.tyOutT, pattern.tyInT)
        (acc.appendP (.cons pattern .nil))

/-- `PatTensorR::check`. -/
def PatTensorR.check : PatTensorR → Env → Except TypeCheckError PatternT
  | .mk _ pats, env =>
    match pats.checkPList env with
    | .error e => .error e
    | .ok ps => .ok (.tensor ps)

def PatAtomRList.checkPList : PatAtomRList → Env →
    Except TypeCheckError PatternTList
  | .nil, _ => .ok .nil
  | .cons a rest, env =>
    match a.check env with
    | .error e => .error e
    | .ok p =>
      match rest.checkPList env with
      | .error e => .error e
      | .ok ps => .ok (.cons p ps)

/-- `PatAtomR::check`; a `Unitary` pattern checks its term with
`check_sqrt = None`. -/
def PatAtomR.check : PatAtomR → Env → Except TypeCheckError PatternT
  | .mk _ (.brackets pat), env => pat.check env
  | .mk _ (.ket states), _ => .ok (.ket states)
  | .mk _ (.unitary inner), env =>
    match inner.check env none with
    | .error e => .error e
    | .ok t => .ok (.unitary t)
end

/-- A phase atom `ph(0)` used in checker examples. -/
def c6ph : AtomR := .mk 10 (.phase (.angle 0))

/-- A two-element raw composition list `ph(0) ; ph(0)`. -/
def c6innerList : TensorRList :=
  .cons (.mk 4 (.cons c6ph .nil)) (.cons (.mk 5 (.cons c6ph .nil)) .nil)

/-- The raw program `sqrt(sqrt((ph(0) ; ph(0))))`. -/
def c6term : TermR :=
  .mk 6 (.cons (.mk 7 (.cons
    (.mk 0 (.sqrt (.mk 1 (.sqrt (.mk 2 (.brackets (.mk 3 c6innerList)))))))
    .nil)) .nil)

/-- The empty gate environment. -/
def emptyEnv : Env := fun _ => none

/-- C6, original reading refuted: a `Sqrt` nested directly inside another
`Sqrt` checks its inner term with `check_sqrt = None` (the
`check_sqrt.is_some()` branch), so the composition-freeness test is dropped
and `sqrt(sqrt((a ; b)))` typechecks even though it contains `Sqrt` applied
(through brackets) to a multi-element composition. -/
theorem c6_sqrt_rejection_counterexample :
    c6term.check emptyEnv none
      = .ok (.comp (.cons (.tensor (.cons
          (.sqrt (.sqrt (.comp (.cons (.tensor (.cons (.phase (.angle 0)) .nil))
            (.cons (.tensor (.cons (.phase (.angle 0)) .nil)) .nil)))))
          .nil)) .nil)) := rfl

/-- C6 (amended): the rootability test fires exactly at the first `Sqrt`
level.  Checking any composition of length `≠ 1` under `check_sqrt = Some
span` returns `TermNotRootable` carrying that term and `span`; and checking
`sqrt((t₁ ; t₂ ; …))` (a `Sqrt` atom over a bracketed multi-element
composition) outside any enclosing sqrt returns `TermNotRootable` whose
`span_of_root` is the `Sqrt` node's span. -/
theorem c6_sqrt_rejection :
    (∀ (sp span : ℕ) (terms : TensorRList) (env : Env),
      (terms.length != 1) = true →
      (TermR.mk sp terms).check env (some span)
        = .error (.termNotRootable (TermR.mk sp terms) span)) ∧
    (∀ (sp sp2 sp3 : ℕ) (ts : TensorRList) (env : Env),
      (ts.length != 1) = true →
      (AtomR.mk sp (.sqrt (.mk sp2 (.brackets (TermR.mk sp3 ts))))).check env none
        = .error (.termNotRootable (TermR.mk sp3 ts) sp)) := by
  constructor
  · intro sp span terms env h
    simp [TermR.check, h]
  · intro sp sp2 sp3 ts env h
    simp [AtomR.check, TermR.check, h]

/-- The amended C6 statement at concrete inputs. -/
theorem c6_sqrt_rejection_witness :
    (c6innerList.length != 1) = true ∧
    (TermR.mk 3 c6innerList).check emptyEnv (some 9)
      = .error (.termNotRootable (TermR.mk 3 c6innerList) 9) ∧
    (AtomR.mk 0 (.sqrt (.mk 1 (.brackets (TermR.mk 3 c6innerList))))).check
        emptyEnv none
      = .error (.termNotRootable (TermR.mk 3 c6innerList) 0) :=
  ⟨by decide, c6_sqrt_rejection.1 3 9 c6innerList emptyEnv (by decide),
   c6_sqrt_rejection.2 0 1 3 c6innerList emptyEnv (by decide)⟩

def TensorRList.nonEmptyR : TensorRList → Bool
  | .nil => false
  | .cons _ _ => true

def AtomRList.nonEmptyA : AtomRList → Bool
  | .nil => false
  | .cons _ _ => true

def PatTensorRList.nonEmptyPR : PatTensorRList → Bool
  | .nil => false
  | .cons _ _ => true

def PatAtomRList.nonEmptyPA : PatAtomRList → Bool
  | .nil => false
  | .cons _ _ => true

mutual
/-- The invariant the parser guarantees on raw syntax: every separated list
(`separated(1.., …)`) and every ket literal is non-empty. -/
def TermR.rawWf : TermR → Bool
  | .mk _ terms => terms.nonEmptyR && terms.rawWfAllT

def TensorRList.rawWfAllT : TensorRList → Bool
  | .nil => true
  | .cons t ts => t.rawWf && ts.rawWfAllT

def TensorR.rawWf : TensorR → Bool
  | .mk _ atoms => atoms.nonEmptyA && atoms.rawWfAllA

def AtomRList.rawWfAllA : AtomRList → Bool
  | .nil => true
  | .cons a rest => a.rawWf && rest.rawWfAllA

def AtomR.rawWf : AtomR → Bool
  | .mk _ inner => inner.rawWfI

def AtomRInner.rawWfI : AtomRInner → Bool
  | .brackets term => term.rawWf
  | .id _ => true
  | .phase _ => true
  | .ifLet pat inner => pat.rawWfP && inner.rawWf
  | .gate _ => true
  | .inverse inner => inner.rawWf
  | .sqrt inner => inner.rawWf

def PatternR.rawWfP : PatternR → Bool
  | .mk _ pats => pats.nonEmptyPR && pats.rawWfAllPT

def PatTensorRList.rawWfAllPT : PatTensorRList → Bool
  | .nil => true
  | .cons p ps => p.rawWfP && ps.rawWfAllPT

def PatTensorR.rawWfP : PatTensorR → Bool
  | .mk _ pats => pats.nonEmptyPA && pats.rawWfAllPA

def PatAtomRList.rawWfAllPA : PatAtomRList → Bool
  | .nil => true
  | .cons a rest => a.rawWfP && rest.rawWfAllPA

def PatAtomR.rawWfP : PatAtomR → Bool
  | .mk _ inner => inner.rawWfPI

def PatAtomRInner.rawWfPI : PatAtomRInner → Bool
  | .brackets pat => pat.rawWfP
  | .ket states => !states.isEmpty
  | .unitary inner => inner.rawWf
end

/-- Well-formedness of a gate environment: every stored definition is a
well-formed typed term. -/
def EnvWf (env : Env) : Prop := ∀ n d, env n = some d → d.wf = true

theorem TermTList.nonEmpty_append : ∀ xs ys : TermTList, xs.nonEmpty = true →
    (xs.append ys).nonEmpty = true
  | .cons _ _, _, _ => rfl

theorem TermTList.firstType_append : ∀ xs ys : TermTList, xs.nonEmpty = true →
    (xs.append ys).firstType = xs.firstType
  | .cons _ _, _, _ => rfl

theorem TermTList.wfCompT_append : ∀ (xs ys : TermTList) (n : ℕ),
    (xs.append ys).wfComp n = (xs.wfComp n && ys.wfComp n)
  | .nil, ys, n => rfl
  | .cons x xs, ys, n => by
    simp only [TermTList.append, TermTList.wfComp,
      TermTList.wfCompT_append xs ys n, Bool.and_assoc]

theorem PatternTList.nonEmpty_appendP : ∀ xs ys : PatternTList,
    xs.nonEmpty = true → (xs.appendP ys).nonEmpty = true
  | .cons _ _, _, _ => rfl

theorem PatternTList.wfChainT_appendP_single :
    ∀ (xs : PatternTList) (p : PatternT), xs.wfChainT = true →
      xs.lastTyIn = p.tyOutT → p.wfP = true →
      (xs.appendP (.cons p .nil)).wfChainT = true
  | .nil, p, _, _, hp => by
    simpa [PatternTList.appendP, PatternTList.wfChainT] using hp
  | .cons q .nil, p, hc, hl, hp => by
    simp only [PatternTList.wfChainT] at hc
    simp only [PatternTList.lastTyIn] at hl
    simp only [PatternTList.appendP, PatternTList.wfChainT, Bool.and_eq_true,
      beq_iff_eq]
    exact ⟨⟨hc, hl⟩, hp⟩
  | .cons q (.cons r rs), p, hc, hl, hp => by
    simp only [PatternTList.wfChainT, Bool.and_eq_true] at hc
    simp only [PatternTList.lastTyIn] at hl
    simp only [PatternTList.appendP, PatternTList.wfChainT, Bool.and_eq_true]
    refine ⟨hc.1, ?_⟩
    have := PatternTList.wfChainT_appendP_single (PatternTList.cons r rs) p
      hc.2 hl hp
    simpa [PatternTList.appendP] using this

theorem PatternTList.lastTyIn_appendP_single :
    ∀ (xs : PatternTList) (p : PatternT),
      (xs.appendP (.cons p .nil)).lastTyIn = p.tyInT
  | .nil, p => rfl
  | .cons q .nil, p => rfl
  | .cons q (.cons r rs), p => by
    have := PatternTList.lastTyIn_appendP_single (PatternTList.cons r rs) p
    simpa [PatternTList.appendP, PatternTList.lastTyIn] using this

mutual
/-- Every term accepted by the checker (on parser-shaped raw syntax, with a
well-formed gate environment) is well-formed. -/
theorem TermR.check_wf : ∀ (tm : TermR) (env : Env) (cs : Option ℕ) (t : TermT),
    EnvWf env → tm.rawWf = true → tm.check env cs = .ok t → t.wf = true
  | .mk sp terms, env, some span, t, he, hr, hok => by
    simp only [TermR.rawWf, Bool.and_eq_true] at hr
    cases hb : terms.length != 1 with
    | true => simp [TermR.check, hb] at hok
    | false =>
      simp only [TermR.check, hb, Bool.false_eq_true, if_false] at hok
      exact TensorRList.checkComp_wf terms env (some span) t he hr.2 hok
  | .mk sp terms, env, none, t, he, hr, hok => by
    simp only [TermR.rawWf, Bool.and_eq_true] at hr
    simp only [TermR.check] at hok
    exact TensorRList.checkComp_wf terms env none t he hr.2 hok

theorem TensorRList.checkComp_wf : ∀ (ts : TensorRList) (env : Env)
    (cs : Option ℕ) (t : TermT), EnvWf env → ts.rawWfAllT = true →
    ts.checkComp env cs = .ok t → t.wf = true
  | .nil, env, cs, t, _, _, hok => by simp [TensorRList.checkComp] at hok
  | .cons raw rest, env, cs, t, he, hr, hok => by
    simp only [TensorRList.rawWfAllT, Bool.and_eq_true] at hr
    cases hrc : raw.check env cs with
    | error e => simp [TensorRList.checkComp, hrc] at hok
    | ok t0 =>
      simp only [TensorRList.checkComp, hrc] at hok
      have hw0 := TensorR.tensorCheck_wf raw env cs t0 he hr.1 hrc
      exact TensorRList.checkCompRest_wf rest env cs raw t0.get_type
        (.cons t0 .nil) t he hr.2 rfl
        (by simp [TermTList.wfComp, hw0]) rfl hok

theorem TensorRList.checkCompRest_wf : ∀ (rs : TensorRList) (env : Env)
    (cs : Option ℕ) (raw : TensorR) (ty1 : ℕ) (acc : TermTList) (t : TermT),
    EnvWf env → rs.rawWfAllT = true → acc.nonEmpty = true →
    acc.wfComp ty1 = true → acc.firstType = ty1 →
    rs.checkCompRest env cs raw ty1 acc = .ok t → t.wf = true
  | .nil, env, cs, raw, ty1, acc, t, _, _, hne, hwc, hft, hok => by
    simp only [TensorRList.checkCompRest, Except.ok.injEq] at hok
    subst hok
    simp only [TermT.wf, Bool.and_eq_true]
    exact ⟨hne, by rw [hft]; exact hwc⟩
  | .cons r rs, env, cs, raw, ty1, acc, t, he, hr, hne, hwc, hft, hok => by
    simp only [TensorRList.rawWfAllT, Bool.and_eq_true] at hr
    cases hrc : r.check env cs with
    | error e => simp [TensorRList.checkCompRest, hrc] at hok
    | ok term =>
      have hwt := TensorR.tensorCheck_wf r env cs term he hr.1 hrc
      cases hb : ty1 != term.get_type with
      | true => simp [TensorRList.checkCompRest, hrc, hb] at hok
      | false =>
        simp only [TensorRList.checkCompRest, hrc, hb, Bool.false_eq_true,
          if_false] at hok
        have heq : ty1 = term.get_type := by simpa using hb
        have hsw : (TermTList.cons term TermTList.nil).wfComp ty1 = true := by
          simp [TermTList.wfComp, hwt, heq]
        exact TensorRList.checkCompRest_wf rs env cs r ty1
          (acc.append (.cons term .nil)) t he hr.2
          (TermTList.nonEmpty_append _ _ hne)
          (by rw [TermTList.wfCompT_append]; simp [hwc, hsw])
          (by rw [TermTList.firstType_append _ _ hne]; exact hft) hok

theorem TensorR.tensorCheck_wf : ∀ (tr : TensorR) (env : Env) (cs : Option ℕ)
    (t : TermT), EnvWf env → tr.rawWf = true → tr.check env cs = .ok t →
    t.wf = true
  | .mk sp atoms, env, cs, t, he, hr, hok => by
    simp only [TensorR.rawWf, Bool.and_eq_true] at hr
    cases hcl : atoms.checkList env cs with
    | error e => simp [TensorR.check, hcl] at hok
    | ok ts =>
      simp only [TensorR.check, hcl, Except.ok.injEq] at hok
      subst hok
      obtain ⟨hall, hne⟩ := AtomRList.checkList_wf atoms env cs ts he hr.2 hcl
      simp only [TermT.wf, Bool.and_eq_true]
      exact ⟨by rw [hne]; exact hr.1, hall⟩

theorem AtomRList.checkList_wf : ∀ (al : AtomRList) (env : Env) (cs : Option ℕ)
    (ts : TermTList), EnvWf env → al.rawWfAllA = true →
    al.checkList env cs = .ok ts →
    ts.wfAll = true ∧ ts.nonEmpty = al.nonEmptyA
  | .nil, env, cs, ts, _, _, hok => by
    simp only [AtomRList.checkList, Except.ok.injEq] at hok
    subst hok
    exact ⟨rfl, rfl⟩
  | .cons a rest, env, cs, ts, he, hr, hok => by
    simp only [AtomRList.rawWfAllA, Bool.and_eq_true] at hr
    cases ha : a.check env cs with
    | error e => simp [AtomRList.checkList, ha] at hok
    | ok t0 =>
      cases hrest : rest.checkList env cs with
      | error e => simp [AtomRList.checkList, ha, hrest] at hok
      | ok ts0 =>
        simp only [AtomRList.checkList, ha, hrest, Except.ok.injEq] at hok
        subst hok
        have hw0 := AtomR.atomCheck_wf a env cs t0 he hr.1 ha
        have hrec := AtomRList.checkList_wf rest env cs ts0 he hr.2 hrest
        exact ⟨by simp [TermTList.wfAll, hw0, hrec.1], rfl⟩

theorem AtomR.atomCheck_wf : ∀ (a : AtomR) (env : Env) (cs : Option ℕ) (t : TermT),
    EnvWf env → a.rawWf = true → a.check env cs = .ok t → t.wf = true
  | .mk sp (.brackets term), env, cs, t, he, hr, hok => by
    simp only [AtomR.rawWf, AtomRInner.rawWfI] at hr
    simp only [AtomR.check] at hok
    exact TermR.check_wf term env cs t he hr hok
  | .mk sp (.id q), env, cs, t, _, _, hok => by
    simp only [AtomR.check, Except.ok.injEq] at hok
    subst hok
    rfl
  | .mk sp (.phase p), env, cs, t, _, _, hok => by
    simp only [AtomR.check, Except.ok.injEq] at hok
    subst hok
    rfl
  | .mk sp (.ifLet pat inner), env, cs, t, he, hr, hok => by
    simp only [AtomR.rawWf, AtomRInner.rawWfI, Bool.and_eq_true] at hr
    cases hp : pat.check env with
    | error e => simp [AtomR.check, hp] at hok
    | ok p =>
      cases hi : inner.check env cs with
      | error e => simp [AtomR.check, hp, hi] at hok
      | ok t0 =>
        cases hb : p.tyInT != t0.get_type with
        | true => simp [AtomR.check, hp, hi, hb] at hok
        | false =>
          simp only [AtomR.check, hp, hi, hb, Bool.false_eq_true, if_false,
            Except.ok.injEq] at hok
          subst hok
          have heq : p.tyInT = t0.get_type := by simpa using hb
          simp only [TermT.wf, Bool.and_eq_true, beq_iff_eq]
          exact ⟨⟨PatternR.check_wfP pat env p he hr.1 hp,
            TensorR.tensorCheck_wf inner env cs t0 he hr.2 hi⟩, heq⟩
  | .mk sp (.gate name), env, cs, t, he, _, hok => by
    cases hg : env name with
    | none => simp [AtomR.check, hg] at hok
    | some d =>
      simp only [AtomR.check, hg, Except.ok.injEq] at hok
      subst hok
      exact he name d hg
  | .mk sp (.inverse inner), env, cs, t, he, hr, hok => by
    simp only [AtomR.rawWf, AtomRInner.rawWfI] at hr
    cases hi : inner.check env cs with
    | error e => simp [AtomR.check, hi] at hok
    | ok t0 =>
      simp only [AtomR.check, hi, Except.ok.injEq] at hok
      subst hok
      exact AtomR.atomCheck_wf inner env cs t0 he hr hi
  | .mk sp (.sqrt inner), env, some sp2, t, he, hr, hok => by
    simp only [AtomR.rawWf, AtomRInner.rawWfI] at hr
    cases hi : inner.check env none with
    | error e => simp [AtomR.check, hi] at hok
    | ok t0 =>
      simp only [AtomR.check, hi, Except.ok.injEq] at hok
      subst hok
      exact AtomR.atomCheck_wf inner env none t0 he hr hi
  | .mk sp (.sqrt inner), env, none, t, he, hr, hok => by
    simp only [AtomR.rawWf, AtomRInner.rawWfI] at hr
    cases hi : inner.check env (some sp) with
    | error e => simp [AtomR.check, hi] at hok
    | ok t0 =>
      simp only [AtomR.check, hi, Except.ok.injEq] at hok
      subst hok
      exact AtomR.atomCheck_wf inner env (some sp) t0 he hr hi

theorem PatternR.check_wfP : ∀ (pr : PatternR) (env : Env) (p : PatternT),
    EnvWf env → pr.rawWfP = true → pr.check env = .ok p → p.wfP = true
  | .mk sp pats, env, p, he, hr, hok => by
    simp only [PatternR.rawWfP, Bool.and_eq_true] at hr
    simp only [PatternR.check] at hok
    exact PatTensorRList.checkPComp_wf pats env p he hr.2 hok

theorem PatTensorRList.checkPComp_wf : ∀ (ps : PatTensorRList) (env : Env)
    (p : PatternT), EnvWf env → ps.rawWfAllPT = true →
    ps.checkPComp env = .ok p → p.wfP = true
  | .nil, env, p, _, _, hok => by simp [PatTensorRList.checkPComp] at hok
  | .cons raw rest, env, p, he, hr, hok => by
    simp only [PatTensorRList.rawWfAllPT, Bool.and_eq_true] at hr
    cases hrc : raw.check env with
    | error e => simp [PatTensorRList.checkPComp, hrc] at hok
    | ok p0 =>
      simp only [PatTensorRList.checkPComp, hrc] at hok
      have hw0 := PatTensorR.tensorCheck_wfP raw env p0 he hr.1 hrc
      exact PatTensorRList.checkPCompRest_wf rest env raw (p0.tyOutT, p0.tyInT)
        (.cons p0 .nil) p he hr.2 rfl
        (by simp [PatternTList.wfChainT, hw0]) rfl hok

theorem PatTensorRList.checkPCompRest_wf : ∀ (rs : PatTensorRList) (env : Env)
    (raw : PatTensorR) (ty1 : ℕ × ℕ) (acc : PatternTList) (p : PatternT),
    EnvWf env → rs.rawWfAllPT = true → acc.nonEmpty = true →
    acc.wfChainT = true → acc.lastTyIn = ty1.2 →
    rs.checkPCompRest env raw ty1 acc = .ok p → p.wfP = true
  | .nil, env, raw, ty1, acc, p, _, _, hne, hwc, _, hok => by
    simp only [PatTensorRList.checkPCompRest, Except.ok.injEq] at hok
    subst hok
    simp only [PatternT.wfP, Bool.and_eq_true]
    exact ⟨hne, hwc⟩
  | .cons r rs, env, raw, ty1, acc, p, he, hr, hne, hwc, hlast, hok => by
    simp only [PatTensorRList.rawWfAllPT, Bool.and_eq_true] at hr
    cases hrc : r.check env with
    | error e => simp [PatTensorRList.checkPCompRest, hrc] at hok
    | ok pat =>
      have hwp := PatTensorR.tensorCheck_wfP r env pat he hr.1 hrc
      cases hb : ty1.2 != pat.tyOutT with
      | true => simp [PatTensorRList.checkPCompRest, hrc, hb] at hok
      | false =>
        simp only [PatTensorRList.checkPCompRest, hrc, hb, Bool.false_eq_true,
          if_false] at hok
        have heq : ty1.2 = pat.tyOutT := by simpa using hb
        exact PatTensorRList.checkPCompRest_wf rs env r (pat.tyOutT, pat.tyInT)
          (acc.appendP (.cons pat .nil)) p he hr.2
          (PatternTList.nonEmpty_appendP _ _ hne)
          (PatternTList.wfChainT_appendP_single acc pat hwc
            (by rw [hlast, heq]) hwp)
          (PatternTList.lastTyIn_appendP_single acc pat) hok

theorem PatTensorR.tensorCheck_wfP : ∀ (pt : PatTensorR) (env : Env) (p : PatternT),
    EnvWf env → pt.rawWfP = true → pt.check env = .ok p → p.wfP = true
  | .mk sp pats, env, p, he, hr, hok => by
    simp only [PatTensorR.rawWfP, Bool.and_eq_true] at hr
    cases hcl : pats.checkPList env with
    | error e => simp [PatTensorR.check, hcl] at hok
    | ok ps =>
      simp only [PatTensorR.check, hcl, Except.ok.injEq] at hok
      subst hok
      obtain ⟨hall, hne⟩ := PatAtomRList.checkPList_wf pats env ps he hr.2 hcl
      simp only [PatternT.wfP, Bool.and_eq_true]
      exact ⟨by rw [hne]; exact hr.1, hall⟩

theorem PatAtomRList.checkPList_wf : ∀ (al : PatAtomRList) (env : Env)
    (ps : PatternTList), EnvWf env → al.rawWfAllPA = true →
    al.checkPList env = .ok ps →
    ps.wfAllT = true ∧ ps.nonEmpty = al.nonEmptyPA
  | .nil, env, ps, _, _, hok => by
    simp only [PatAtomRList.checkPList, Except.ok.injEq] at hok
    subst hok
    exact ⟨rfl, rfl⟩
  | .cons a rest, env, ps, he, hr, hok => by
    simp only [PatAtomRList.rawWfAllPA, Bool.and_eq_true] at hr
    cases ha : a.check env with
    | error e => simp [PatAtomRList.checkPList, ha] at hok
    | ok p0 =>
      cases hrest : rest.checkPList env with
      | error e => simp [PatAtomRList.checkPList, ha, hrest] at hok
      | ok ps0 =>
        simp only [PatAtomRList.checkPList, ha, hrest, Except.ok.injEq] at hok
        subst hok
        have hw0 := PatAtomR.atomCheck_wfP a env p0 he hr.1 ha
        have hrec := PatAtomRList.checkPList_wf rest env ps0 he hr.2 hrest
        exact ⟨by simp [PatternTList.wfAllT, hw0, hrec.1], rfl⟩

theorem PatAtomR.atomCheck_wfP : ∀ (a : PatAtomR) (env : Env) (p : PatternT),
    EnvWf env → a.rawWfP = true → a.check env = .ok p → p.wfP = true
  | .mk sp (.brackets pat), env, p, he, hr, hok => by
    simp only [PatAtomR.rawWfP, PatAtomRInner.rawWfPI] at hr
    simp only [PatAtomR.check] at hok
    exact PatternR.check_wfP pat env p he hr hok
  | .mk sp (.ket states), env, p, _, hr, hok => by
    simp only [PatAtomR.rawWfP, PatAtomRInner.rawWfPI] at hr
    simp only [PatAtomR.check, Except.ok.injEq] at hok
    subst hok
    exact hr
  | .mk sp (.unitary inner), env, p, he, hr, hok => by
    simp only [PatAtomR.rawWfP, PatAtomRInner.rawWfPI] at hr
    cases hi : inner.check env none with
    | error e => simp [PatAtomR.check, hi] at hok
    | ok t0 =>
      simp only [PatAtomR.check, hi, Except.ok.injEq] at hok
      subst hok
      exact TermR.check_wf inner env none t0 he hr hi
end

/-- `PatternC`: a circuit-normal pattern, one optional ket constraint per
qubit wire (`None` = unconstrained). -/
abbrev PatternC := List (Option KetState)

/-- `PatternC::id(l)`: `l` unconstrained wires. -/
def PatternC.idC (l : ℕ) : PatternC := List.replicate l none

/-- `ClauseC`: a controlled-phase clause of the circuit-normal form. -/
structure ClauseC where
  pattern : PatternC
  phase : ℚ

/-- `ClauseC::invert`: negate the phase. -/
def ClauseC.invert (c : ClauseC) : ClauseC := ⟨c.pattern, -c.phase⟩

/-- `TermC`: a clause list with its type. -/
structure TermC where
  clauses : List ClauseC
  ty : ℕ

/-- The `Ket` case of `PatternT::eval_circ`: `pattern.parts[i] = Some(state)`
for each state, paired with the drained leading indices of `inj`. -/
def PatternC.setParts : PatternC → List KetState → List ℕ → PatternC
  | parts, [], _ => parts
  | parts, _ :: _, [] => parts
  | parts, s :: ss, i :: rest => PatternC.setParts (parts.set i (some s)) ss rest

mutual
/-- `TermT::eval_circ_clause`, functionally: returns the clauses this term
appends, given the ambient pattern, the injection (wire indices), and the
phase multiplier.  `pattern` and `inj` are read-only here, as in the
source. -/
def TermT.eval_circ_clause : TermT → PatternC → List ℕ → ℚ → List ClauseC
  | .comp ts, pattern, inj, pm =>
      if pm < 0 then ts.evalCircListRev pattern inj pm
      else ts.evalCircList pattern inj pm
  | .tensor ts, pattern, inj, pm => ts.evalCircTensorT pattern inj pm
  | .id _, _, _, _ => []
  | .phase p, pattern, _, pm => [⟨pattern, pm * p.eval⟩]
  | .ifLet pat inner, pattern, inj, pm =>
      let r := pat.eval_circP pattern inj
      r.2.2 ++ inner.eval_circ_clause r.1 r.2.1 pm
        ++ (r.2.2.reverse.map ClauseC.invert)
  | .gate _ d, pattern, inj, pm => d.eval_circ_clause pattern inj pm
  | .inverse t, pattern, inj, pm => t.eval_circ_clause pattern inj (-pm)
  | .sqrt t, pattern, inj, pm => t.eval_circ_clause pattern inj (pm / 2)

def TermTList.evalCircList : TermTList → PatternC → List ℕ → ℚ → List ClauseC
  | .nil, _, _, _ => []
  | .cons t ts, pattern, inj, pm =>
      t.eval_circ_clause pattern inj pm ++ ts.evalCircList pattern inj pm

/-- The `phase_mul < 0` branch of the `Comp` case iterates in reverse. -/
def TermTList.evalCircListRev : TermTList → PatternC → List ℕ → ℚ → List ClauseC
  | .nil, _, _, _ => []
  | .cons t ts, pattern, inj, pm =>
      ts.evalCircListRev pattern inj pm ++ t.eval_circ_clause pattern inj pm

/-- The `Tensor` case: each factor receives the slice
`inj[start..start+size]`. -/
def TermTList.evalCircTensorT : TermTList → PatternC → List ℕ → ℚ → List ClauseC
  | .nil, _, _, _ => []
  | .cons t ts, pattern, inj, pm =>
      t.eval_circ_clause pattern (inj.take t.get_type) pm
        ++ ts.evalCircTensorT pattern (inj.drop t.get_type) pm

/-- `PatternT::eval_circ`: threads and returns the mutated
`(pattern, inj)` state along with the emitted unitary clauses. -/
def PatternT.eval_circP : PatternT → PatternC → List ℕ →
    PatternC × List ℕ × List ClauseC
  | .comp ps, pattern, inj => ps.evalCircChain pattern inj
  | .tensor ps, pattern, inj =>
      let r := ps.evalCircTensorP pattern inj
      (r.1, r.2.1 ++ r.2.2.1, r.2.2.2)
  | .ket states, pattern, inj =>
      (PatternC.setParts pattern states inj, inj.drop states.length, [])
  | .unitary t, pattern, inj =>
      (pattern, inj, t.eval_circ_clause pattern inj (-1))

def PatternTList.evalCircChain : PatternTList → PatternC → List ℕ →
    PatternC × List ℕ × List ClauseC
  | .nil, pattern, inj => (pattern, inj, [])
  | .cons p ps, pattern, inj =>
      let r := p.eval_circP pattern inj
      let r2 := ps.evalCircChain r.1 r.2.1
      (r2.1, r2.2.1, r.2.2 ++ r2.2.2)

/-- The `Tensor` case of `PatternT::eval_circ`: factors are processed right
to left, each splitting its wires off the tail of `inj` (`split_off`), and
the processed segments are pushed back in original order afterwards.
Returns `(pattern, remaining inj, reassembled segments, clauses)`. -/
def PatternTList.evalCircTensorP : PatternTList → PatternC → List ℕ →
    PatternC × List ℕ × List ℕ × List ClauseC
  | .nil, pattern, inj => (pattern, inj, [], [])
  | .cons p ps, pattern, inj =>
      let r := ps.evalCircTensorP pattern inj
      let i := r.2.1.drop (r.2.1.length - p.tyOutT)
      let rem := r.2.1.take (r.2.1.length - p.tyOutT)
      let rp := p.eval_circP r.1 i
      (rp.1, rem, rp.2.1 ++ r.2.2.1, r.2.2.2 ++ rp.2.2)
end

/-- `TermT::eval_circ`. -/
def TermT.eval_circ (t : TermT) : TermC :=
  ⟨t.eval_circ_clause (PatternC.idC t.get_type) (List.range t.get_type) 1,
   t.get_type⟩

/-- `state_to_pattern`. -/
def stateToPattern : Option KetState → PatternT
  | none => .unitary (.id 1)
  | some s => .ket [s]

def PatternC.toPatternTList : PatternC → PatternTList
  | [] => .nil
  | s :: ss => .cons (stateToPattern s) (PatternC.toPatternTList ss)

/-- `PatternC::quote`. -/
def PatternC.quoteC : PatternC → PatternT
  | [s] => stateToPattern s
  | pc => .tensor pc.toPatternTList

/-- `PatternC::id_qubits`: the number of unconstrained wires. -/
def PatternC.id_qubits (pc : PatternC) : ℕ :=
  pc.countP (fun x => x.isNone)

/-- `ClauseC::quote`: `if let pattern.quote() then ph(phase) [x id(k)]`,
the raw phase angle kept as `Phase::Angle` (no canonicalisation here). -/
def ClauseC.quoteCl (c : ClauseC) : TermT :=
  let inner := TermT.phase (Phase.angle c.phase)
  .ifLet c.pattern.quoteC
    (if c.pattern.id_qubits != 0
     then .tensor (.cons inner (.cons (.id c.pattern.id_qubits) .nil))
     else inner)

def TermC.clausesToList : List ClauseC → TermTList
  | [] => .nil
  | c :: cs => .cons c.quoteCl (TermC.clausesToList cs)

/-- `TermC::quote`: no clauses quote to the identity, one clause to itself,
several to a composition. -/
def TermC.quoteT (tc : TermC) : TermT :=
  match tc.clauses with
  | [] => .id tc.ty
  | [c] => c.quoteCl
  | cs => .comp (TermC.clausesToList cs)

theorem PatternC.setParts_length : ∀ (parts : PatternC) (ss : List KetState)
    (is : List ℕ), (PatternC.setParts parts ss is).length = parts.length
  | parts, [], _ => rfl
  | parts, _ :: _, [] => rfl
  | parts, s :: ss, i :: rest => by
    rw [PatternC.setParts, PatternC.setParts_length _ ss rest, List.length_set]

mutual
/-- Pattern circuit extraction preserves the wire-pattern length, consumes
exactly `tyOut - tyIn` injection wires, and only permutes/drops injection
indices (never invents one). -/
theorem PatternT.evalCircP_inv : ∀ (p : PatternT) (pattern : PatternC)
    (inj : List ℕ), p.wfP = true → inj.length = p.tyOutT →
    ((p.eval_circP pattern inj).1.length = pattern.length) ∧
    ((p.eval_circP pattern inj).2.1.length = p.tyInT) ∧
    (∀ i, i ∈ (p.eval_circP pattern inj).2.1 → i ∈ inj)
  | .comp ps, pattern, inj, hw, hlen => by
    simp only [PatternT.wfP, Bool.and_eq_true] at hw
    simp only [PatternT.tyOutT] at hlen
    simp only [PatternT.eval_circP, PatternT.tyInT]
    exact PatternTList.evalCircChain_inv ps pattern inj hw.2 hlen
  | .tensor ps, pattern, inj, hw, hlen => by
    simp only [PatternT.wfP, Bool.and_eq_true] at hw
    simp only [PatternT.tyOutT] at hlen
    obtain ⟨h1, h2, h3, h4, h5⟩ := PatternTList.evalCircTensorP_inv ps pattern inj
      hw.2 (le_of_eq hlen.symm)
    simp only [PatternT.eval_circP, PatternT.tyInT]
    refine ⟨h1, ?_, ?_⟩
    · rw [List.length_append, h2, h3, hlen]
      omega
    · intro i hi
      rcases List.mem_append.mp hi with h | h
      · exact h4 i h
      · exact h5 i h
  | .ket states, pattern, inj, _, hlen => by
    simp only [PatternT.tyOutT] at hlen
    simp only [PatternT.eval_circP, PatternT.tyInT]
    refine ⟨PatternC.setParts_length pattern states inj, ?_, ?_⟩
    · rw [List.length_drop, hlen]
      omega
    · intro i hi
      exact List.mem_of_mem_drop hi
  | .unitary t, pattern, inj, _, hlen => by
    simp only [PatternT.tyOutT] at hlen
    exact ⟨rfl, hlen, fun _ h => h⟩

theorem PatternTList.evalCircChain_inv : ∀ (ps : PatternTList)
    (pattern : PatternC) (inj : List ℕ), ps.wfChainT = true →
    inj.length = ps.firstTyOut →
    ((ps.evalCircChain pattern inj).1.length = pattern.length) ∧
    ((ps.evalCircChain pattern inj).2.1.length = ps.lastTyIn) ∧
    (∀ i, i ∈ (ps.evalCircChain pattern inj).2.1 → i ∈ inj)
  | .nil, pattern, inj, _, hlen => by
    simp only [PatternTList.firstTyOut] at hlen
    exact ⟨rfl, hlen, fun _ h => h⟩
  | .cons p .nil, pattern, inj, hw, hlen => by
    simp only [PatternTList.wfChainT] at hw
    simp only [PatternTList.firstTyOut] at hlen
    obtain ⟨h1, h2, h3⟩ := PatternT.evalCircP_inv p pattern inj hw hlen
    exact ⟨h1, h2, h3⟩
  | .cons p (.cons q qs), pattern, inj, hw, hlen => by
    simp only [PatternTList.wfChainT, Bool.and_eq_true, beq_iff_eq] at hw
    simp only [PatternTList.firstTyOut] at hlen
    obtain ⟨h1, h2, h3⟩ := PatternT.evalCircP_inv p pattern inj hw.1.1 hlen
    obtain ⟨g1, g2, g3⟩ := PatternTList.evalCircChain_inv
      (PatternTList.cons q qs) (p.eval_circP pattern inj).1
      (p.eval_circP pattern inj).2.1 hw.2
      (by rw [h2, hw.1.2]; rfl)
    exact ⟨g1.trans h1, g2, fun i hi => h3 i (g3 i hi)⟩

theorem PatternTList.evalCircTensorP_inv : ∀ (ps : PatternTList)
    (pattern : PatternC) (inj : List ℕ), ps.wfAllT = true →
    ps.tyOutSumT ≤ inj.length →
    ((ps.evalCircTensorP pattern inj).1.length = pattern.length) ∧
    ((ps.evalCircTensorP pattern inj).2.1.length
      = inj.length - ps.tyOutSumT) ∧
    ((ps.evalCircTensorP pattern inj).2.2.1.length = ps.tyInSumT) ∧
    (∀ i, i ∈ (ps.evalCircTensorP pattern inj).2.1 → i ∈ inj) ∧
    (∀ i, i ∈ (ps.evalCircTensorP pattern inj).2.2.1 → i ∈ inj)
  | .nil, pattern, inj, _, _ =>
    ⟨rfl, rfl, rfl, fun _ h => h, fun _ h => by cases h⟩
  | .cons p ps, pattern, inj, hw, hlen => by
    simp only [PatternTList.wfAllT, Bool.and_eq_true] at hw
    simp only [PatternTList.tyOutSumT] at hlen
    obtain ⟨r1, r2, r3, r4, r5⟩ := PatternTList.evalCircTensorP_inv ps pattern
      inj hw.2 (by omega)
    have hsub : p.tyOutT ≤ (ps.evalCircTensorP pattern inj).2.1.length := by
      rw [r2]; omega
    have hilen : ((ps.evalCircTensorP pattern inj).2.1.drop
        ((ps.evalCircTensorP pattern inj).2.1.length - p.tyOutT)).length
        = p.tyOutT := by
      rw [List.length_drop]
      omega
    obtain ⟨q1, q2, q3⟩ := PatternT.evalCircP_inv p
      (ps.evalCircTensorP pattern inj).1
      ((ps.evalCircTensorP pattern inj).2.1.drop
        ((ps.evalCircTensorP pattern inj).2.1.length - p.tyOutT))
      hw.1 hilen
    simp only [PatternTList.evalCircTensorP, PatternTList.tyOutSumT,
      PatternTList.tyInSumT]
    refine ⟨by rw [q1, r1], ?_, ?_, ?_, ?_⟩
    · rw [List.length_take, r2]
      omega
    · rw [List.length_append, q2, r3]
    · intro i hi
      exact r4 i (List.mem_of_mem_take hi)
    · intro i hi
      rcases List.mem_append.mp hi with h | h
      · exact r4 i (List.mem_of_mem_drop (q3 i h))
      · exact r5 i h
end

/-- A phase atom used in the totality witness. -/
def c9ph : AtomR := .mk 20 (.phase (.angle 0))

/-- The raw program `ph(0) ; ph(0)`. -/
def c9raw : TermR :=
  .mk 23 (.cons (.mk 21 (.cons c9ph .nil)) (.cons (.mk 22 (.cons c9ph .nil)) .nil))

/-- The typed elaboration of `c9raw`. -/
def c9t : TermT :=
  .comp (.cons (.tensor (.cons (.phase (.angle 0)) .nil))
    (.cons (.tensor (.cons (.phase (.angle 0)) .nil)) .nil))

/-- C9: totality of the pipeline below the typechecker.  Every term accepted
by the checker (from parser-shaped raw syntax, in a well-formed environment)
is well-formed, and well-formedness is preserved by evaluation at every
phase multiplier — so the `unwrap`s in `TermT::get_type` (first element of a
composition) and `PatternN::to_inj_and_proj` (non-empty tensor) are never
reached, since well-formedness forbids the empty lists.  Moreover pattern
circuit extraction is exact on its injection list: given `tyOut` wires it
consumes down to exactly `tyIn` wires, preserves the wire-pattern length,
and emits only indices it was given — so the `split_off`/`drain` calls and
the `pattern.parts[i]` assignments of `PatternT::eval_circ` stay in
bounds. -/
theorem c9_totality :
    (∀ (tm : TermR) (env : Env) (cs : Option ℕ) (t : TermT),
      EnvWf env → tm.rawWf = true → tm.check env cs = .ok t →
      t.wf = true ∧ ∀ pm : ℚ, (t.evalN pm).wf = true ∧ (t.evalPB pm).wf = true) ∧
    (∀ (p : PatternT) (pattern : PatternC) (inj : List ℕ),
      p.wfP = true → inj.length = p.tyOutT →
      (p.eval_circP pattern inj).1.length = pattern.length ∧
      (p.eval_circP pattern inj).2.1.length = p.tyInT ∧
      ∀ i, i ∈ (p.eval_circP pattern inj).2.1 → i ∈ inj) := by
  constructor
  · intro tm env cs t he hr hok
    have hw := TermR.check_wf tm env cs t he hr hok
    exact ⟨hw, fun pm => ⟨evalN_wf t pm hw, evalPB_wf t pm hw⟩⟩
  · intro p pattern inj hw hlen
    exact PatternT.evalCircP_inv p pattern inj hw hlen

/-- The C9 statement at concrete inputs. -/
theorem c9_totality_witness :
    (c9t.wf = true ∧
      ∀ pm : ℚ, (c9t.evalN pm).wf = true ∧ (c9t.evalPB pm).wf = true) ∧
    ((PatternT.ket [KetState.one]).eval_circP (PatternC.idC 1) [0]).2.1.length
      = (PatternT.ket [KetState.one]).tyInT :=
  ⟨c9_totality.1 c9raw emptyEnv none c9t (fun _ _ h => Option.noConfusion h)
      (by decide) rfl,
   (c9_totality.2 (PatternT.ket [KetState.one]) (PatternC.idC 1) [0]
      (by decide) (by decide)).2.1⟩

theorem mmul_smulM_left (k : ℕ) (c : ℂ) (A B : CMat) :
    mmul k (smulM c A) B = smulM c (mmul k A B) :=
  CMat.ext fun i j => by simp [mmul, smulM, Finset.mul_sum, mul_assoc]

theorem mmul_smulM_right (k : ℕ) (c : ℂ) (A B : CMat) :
    mmul k A (smulM c B) = smulM c (mmul k A B) :=
  CMat.ext fun i j => by simp [mmul, smulM, Finset.mul_sum, mul_left_comm]

theorem smulM_smulM (a b : ℂ) (A : CMat) :
    smulM a (smulM b A) = smulM (a * b) A :=
  CMat.ext fun i j => by simp [smulM, mul_assoc]

theorem kron_smulM_left (r2 c2 : ℕ) (c : ℂ) (A B : CMat) :
    kron r2 c2 (smulM c A) B = smulM c (kron r2 c2 A B) :=
  CMat.ext fun i j => by simp [kron, smulM, mul_assoc]

theorem kron_smulM_right (r2 c2 : ℕ) (c : ℂ) (A B : CMat) :
    kron r2 c2 A (smulM c B) = smulM c (kron r2 c2 A B) :=
  CMat.ext fun i j => by simp [kron, smulM]; ring

theorem kron_zeroM_left (r2 c2 : ℕ) (B : CMat) : kron r2 c2 zeroM B = zeroM :=
  CMat.ext fun i j => by simp [kron, zeroM]

theorem kron_zeroM_right (r2 c2 : ℕ) (A : CMat) : kron r2 c2 A zeroM = zeroM :=
  CMat.ext fun i j => by simp [kron, zeroM]

theorem phaseMat_eq_smul (a : ℚ) : phaseMat a = smulM (cis a) (idM 1) := by
  refine CMat.ext fun i j => ?_
  simp only [phaseMat, smulM, idM]
  by_cases h : i = 0 ∧ j = 0
  · obtain ⟨h1, h2⟩ := h
    subst h1
    subst h2
    simp
  · rw [if_neg h, if_neg fun hc => h ⟨by omega, by omega⟩, mul_zero]

mutual
/-- Terms with no `IfLet` anywhere: their circuit extraction emits only
phase clauses on the ambient pattern. -/
def TermT.ifLetFree : TermT → Bool
  | .comp ts => ts.ifLetFreeAll
  | .tensor ts => ts.ifLetFreeAll
  | .id _ => true
  | .phase _ => true
  | .ifLet _ _ => false
  | .gate _ d => d.ifLetFree
  | .inverse t => t.ifLetFree
  | .sqrt t => t.ifLetFree

def TermTList.ifLetFreeAll : TermTList → Bool
  | .nil => true
  | .cons t ts => t.ifLetFree && ts.ifLetFreeAll
end

mutual
/-- The phases of the clauses an `IfLet`-free term emits during circuit
extraction, in emission order. -/
def TermT.circPhases : TermT → ℚ → List ℚ
  | .comp ts, pm => if pm < 0 then ts.circPhasesRev pm else ts.circPhasesList pm
  | .tensor ts, pm => ts.circPhasesList pm
  | .id _, _ => []
  | .phase p, pm => [pm * p.eval]
  | .ifLet _ _, _ => []
  | .gate _ d, pm => d.circPhases pm
  | .inverse t, pm => t.circPhases (-pm)
  | .sqrt t, pm => t.circPhases (pm / 2)

def TermTList.circPhasesList : TermTList → ℚ → List ℚ
  | .nil, _ => []
  | .cons t ts, pm => t.circPhases pm ++ ts.circPhasesList pm

def TermTList.circPhasesRev : TermTList → ℚ → List ℚ
  | .nil, _ => []
  | .cons t ts, pm => ts.circPhasesRev pm ++ t.circPhases pm
end

theorem TermTList.sum_circPhasesRev : ∀ (ts : TermTList) (pm : ℚ),
    (ts.circPhasesRev pm).sum = (ts.circPhasesList pm).sum
  | .nil, _ => rfl
  | .cons t ts, pm => by
    rw [TermTList.circPhasesRev, TermTList.circPhasesList, List.sum_append,
      List.sum_append, TermTList.sum_circPhasesRev ts pm, add_comm]

mutual
/-- For an `IfLet`-free term, circuit extraction emits exactly one clause per
collected phase, all on the ambient pattern. -/
theorem TermT.evalCirc_emits : ∀ (t : TermT) (pattern : PatternC)
    (inj : List ℕ) (pm : ℚ), t.ifLetFree = true →
    t.eval_circ_clause pattern inj pm
      = (t.circPhases pm).map (fun a => ClauseC.mk pattern a)
  | .comp ts, pattern, inj, pm, h => by
    simp only [TermT.ifLetFree] at h
    simp only [TermT.eval_circ_clause, TermT.circPhases]
    by_cases hpm : pm < 0
    · rw [if_pos hpm, if_pos hpm, TermTList.evalCircListRev_emits ts pattern inj pm h]
    · rw [if_neg hpm, if_neg hpm, TermTList.evalCircList_emits ts pattern inj pm h]
  | .tensor ts, pattern, inj, pm, h => by
    simp only [TermT.ifLetFree] at h
    simp only [TermT.eval_circ_clause, TermT.circPhases]
    exact TermTList.evalCircTensorT_emits ts pattern inj pm h
  | .id ty, pattern, inj, pm, _ => rfl
  | .phase p, pattern, inj, pm, _ => rfl
  | .ifLet pat inner, pattern, inj, pm, h => by simp [TermT.ifLetFree] at h
  | .gate _ d, pattern, inj, pm, h => TermT.evalCirc_emits d pattern inj pm h
  | .inverse t, pattern, inj, pm, h => TermT.evalCirc_emits t pattern inj (-pm) h
  | .sqrt t, pattern, inj, pm, h => TermT.evalCirc_emits t pattern inj (pm / 2) h

theorem TermTList.evalCircList_emits : ∀ (ts : TermTList) (pattern : PatternC)
    (inj : List ℕ) (pm : ℚ), ts.ifLetFreeAll = true →
    ts.evalCircList pattern inj pm
      = (ts.circPhasesList pm).map (fun a => ClauseC.mk pattern a)
  | .nil, _, _, _, _ => rfl
  | .cons t ts, pattern, inj, pm, h => by
    simp only [TermTList.ifLetFreeAll, Bool.and_eq_true] at h
    rw [TermTList.evalCircList, TermTList.circPhasesList, List.map_append,
      TermT.evalCirc_emits t pattern inj pm h.1,
      TermTList.evalCircList_emits ts pattern inj pm h.2]

theorem TermTList.evalCircListRev_emits : ∀ (ts : TermTList)
    (pattern : PatternC) (inj : List ℕ) (pm : ℚ), ts.ifLetFreeAll = true →
    ts.evalCircListRev pattern inj pm
      = (ts.circPhasesRev pm).map (fun a => ClauseC.mk pattern a)
  | .nil, _, _, _, _ => rfl
  | .cons t ts, pattern, inj, pm, h => by
    simp only [TermTList.ifLetFreeAll, Bool.and_eq_true] at h
    rw [TermTList.evalCircListRev, TermTList.circPhasesRev, List.map_append,
      TermT.evalCirc_emits t pattern inj pm h.1,
      TermTList.evalCircListRev_emits ts pattern inj pm h.2]

theorem TermTList.evalCircTensorT_emits : ∀ (ts : TermTList)
    (pattern : PatternC) (inj : List ℕ) (pm : ℚ), ts.ifLetFreeAll = true →
    ts.evalCircTensorT pattern inj pm
      = (ts.circPhasesList pm).map (fun a => ClauseC.mk pattern a)
  | .nil, _, _, _, _ => rfl
  | .cons t ts, pattern, inj, pm, h => by
    simp only [TermTList.ifLetFreeAll, Bool.and_eq_true] at h
    rw [TermTList.evalCircTensorT, TermTList.circPhasesList, List.map_append,
      TermT.evalCirc_emits t pattern _ pm h.1,
      TermTList.evalCircTensorT_emits ts pattern _ pm h.2]
end

theorem smul_idM_mmul (n : ℕ) (a b : ℂ) :
    mmul n (smulM a (idM n)) (smulM b (idM n)) = smulM (a * b) (idM n) := by
  rw [mmul_smulM_left, mmul_smulM_right, smulM_smulM, mmul_idM (isDim_idM n)]

theorem kron_smul_idM (x y : ℕ) (a b : ℂ) :
    kron (2 ^ y) (2 ^ y) (smulM a (idM (2 ^ x))) (smulM b (idM (2 ^ y)))
      = smulM (a * b) (idM (2 ^ (x + y))) := by
  rw [kron_smulM_left, kron_smulM_right, smulM_smulM, kron_idM, ← pow_add]

mutual
/-- An `IfLet`-free well-formed term evaluates to a global phase: its unitary
is `cis(π·Σθ)` times the identity, where `Σθ` is the sum of the phases its
circuit extraction emits. -/
theorem evalN_scalar : ∀ (t : TermT) (pm : ℚ), t.wf = true →
    t.ifLetFree = true →
    (t.evalN pm).to_unitary
      = smulM (cis ((t.circPhases pm).sum)) (idM (2 ^ t.get_type))
  | .comp .nil, pm, hw, _ => by
    simp [TermT.wf, TermTList.nonEmpty] at hw
  | .comp (.cons t .nil), pm, hw, hf => by
    simp only [TermT.wf, TermTList.nonEmpty, TermTList.wfComp,
      TermTList.firstType, Bool.true_and, Bool.and_true, Bool.and_eq_true,
      beq_iff_eq] at hw
    simp only [TermT.ifLetFree, TermTList.ifLetFreeAll, Bool.and_true] at hf
    have hph : ((TermT.comp (TermTList.cons t TermTList.nil)).circPhases pm)
        = t.circPhases pm := by
      simp only [TermT.circPhases]
      by_cases hpm : pm < 0
      · rw [if_pos hpm]
        simp [TermTList.circPhasesRev]
      · rw [if_neg hpm]
        simp [TermTList.circPhasesList]
    rw [hph]
    simp only [TermT.evalN]
    exact evalN_scalar t pm hw.1 hf
  | .comp (.cons t (.cons u us)), pm, hw, hf => by
    simp only [TermT.wf, TermTList.nonEmpty, Bool.true_and] at hw
    simp only [TermT.ifLetFree] at hf
    simp only [TermT.evalN, TermT.circPhases, TermT.get_type]
    by_cases hpm : 0 < pm
    · rw [if_pos hpm,
        termN_comp_to_unitary _ _
          (evalListN_wfComp (TermTList.cons t (TermTList.cons u us)) pm _ hw),
        ← one_smulM (idM (2 ^ (TermTList.cons t (TermTList.cons u us)).firstType)),
        evalListN_compFold_scalar (TermTList.cons t (TermTList.cons u us)) pm _ 1
          hw hf,
        if_neg (by intro h; exact absurd hpm (by linarith)), one_mul, one_smulM]
    · rw [if_neg hpm,
        termN_comp_to_unitary _ _
          (by rw [TermNList.wfComp_reverse]
              exact evalListN_wfComp (TermTList.cons t (TermTList.cons u us)) pm
                _ hw),
        ← one_smulM (idM (2 ^ (TermTList.cons t (TermTList.cons u us)).firstType)),
        evalListN_compFold_rev_scalar (TermTList.cons t (TermTList.cons u us)) pm
          _ 1 hw hf, one_mul, one_smulM]
      by_cases hpm2 : pm < 0
      · rw [if_pos hpm2, TermTList.sum_circPhasesRev]
      · rw [if_neg hpm2]
  | .tensor .nil, pm, hw, _ => by
    simp [TermT.wf, TermTList.nonEmpty] at hw
  | .tensor (.cons t .nil), pm, hw, hf => by
    simp only [TermT.wf, TermTList.nonEmpty, TermTList.wfAll, Bool.true_and,
      Bool.and_true, Bool.and_eq_true] at hw
    simp only [TermT.ifLetFree, TermTList.ifLetFreeAll, Bool.and_true] at hf
    have hph : ((TermT.tensor (TermTList.cons t TermTList.nil)).circPhases pm)
        = t.circPhases pm := by
      simp [TermT.circPhases, TermTList.circPhasesList]
    rw [hph]
    simp only [TermT.evalN]
    exact evalN_scalar t pm hw hf
  | .tensor (.cons t (.cons u us)), pm, hw, hf => by
    simp only [TermT.wf, TermTList.nonEmpty, TermTList.wfAll, Bool.true_and,
      Bool.and_eq_true] at hw
    simp only [TermT.ifLetFree, TermTList.ifLetFreeAll, Bool.and_eq_true] at hf
    have h2 : ((TermT.tensor (TermTList.cons t (TermTList.cons u us))).evalN
          pm).to_unitary
        = TermNList.tensorFold ((TermTList.cons u us).evalListN pm)
            ((t.evalN pm).to_unitary) := rfl
    rw [h2, evalN_scalar t pm hw.1 hf.1,
      evalListN_tensorFold_scalar (TermTList.cons u us) pm t.get_type _
        (by simp only [TermTList.wfAll, Bool.and_eq_true]; exact hw.2)
        (by simp only [TermTList.ifLetFreeAll, Bool.and_eq_true]; exact hf.2)]
    simp only [TermT.circPhases, TermT.get_type, TermTList.circPhasesList,
      TermTList.typeSum, List.sum_append, cis_add]
  | .id ty, pm, _, _ => by
    simp only [TermT.evalN, TermN.to_unitary, TermT.circPhases, List.sum_nil,
      cis_zero, TermT.get_type, one_smulM]
  | .phase p, pm, _, _ => by
    simp only [TermT.evalN, TermN.to_unitary, AtomN.to_unitary,
      TermT.circPhases, List.sum_cons, List.sum_nil, add_zero, TermT.get_type,
      pow_zero]
    exact phaseMat_eq_smul _
  | .ifLet pat inner, pm, _, hf => by simp [TermT.ifLetFree] at hf
  | .gate _ d, pm, hw, hf => evalN_scalar d pm hw hf
  | .inverse t, pm, hw, hf => evalN_scalar t (-pm) hw hf
  | .sqrt t, pm, hw, hf => evalN_scalar t (pm / 2) hw hf

theorem evalListN_compFold_scalar : ∀ (ts : TermTList) (pm : ℚ) (n : ℕ)
    (c : ℂ), ts.wfComp n = true → ts.ifLetFreeAll = true →
    TermNList.compFold (ts.evalListN pm) (2 ^ n) (smulM c (idM (2 ^ n)))
      = smulM (c * cis ((ts.circPhasesList pm).sum)) (idM (2 ^ n))
  | .nil, pm, n, c, _, _ => by
    simp only [TermTList.evalListN, TermNList.compFold,
      TermTList.circPhasesList, List.sum_nil, cis_zero, mul_one]
  | .cons t ts, pm, n, c, hw, hf => by
    simp only [TermTList.wfComp, Bool.and_eq_true, beq_iff_eq] at hw
    simp only [TermTList.ifLetFreeAll, Bool.and_eq_true] at hf
    simp only [TermTList.evalListN, TermNList.compFold,
      TermTList.circPhasesList]
    rw [evalN_scalar t pm hw.1.1 hf.1, hw.1.2, smul_idM_mmul,
      evalListN_compFold_scalar ts pm n _ hw.2 hf.2, List.sum_append, cis_add]
    congr 1
    ring

theorem evalListN_compFold_rev_scalar : ∀ (ts : TermTList) (pm : ℚ) (n : ℕ)
    (c : ℂ), ts.wfComp n = true → ts.ifLetFreeAll = true →
    TermNList.compFold ((ts.evalListN pm).reverse) (2 ^ n)
        (smulM c (idM (2 ^ n)))
      = smulM (c * cis ((ts.circPhasesList pm).sum)) (idM (2 ^ n))
  | .nil, pm, n, c, _, _ => by
    simp only [TermTList.evalListN, TermNList.reverse, TermNList.compFold,
      TermTList.circPhasesList, List.sum_nil, cis_zero, mul_one]
  | .cons t ts, pm, n, c, hw, hf => by
    simp only [TermTList.wfComp, Bool.and_eq_true, beq_iff_eq] at hw
    simp only [TermTList.ifLetFreeAll, Bool.and_eq_true] at hf
    simp only [TermTList.evalListN, TermNList.reverse,
      TermTList.circPhasesList]
    rw [TermNList.compFold_append,
      evalListN_compFold_rev_scalar ts pm n c hw.2 hf.2]
    simp only [TermNList.compFold]
    rw [evalN_scalar t pm hw.1.1 hf.1, hw.1.2, smul_idM_mmul,
      List.sum_append, cis_add]
    congr 1
    ring

theorem evalListN_tensorFold_scalar : ∀ (ts : TermTList) (pm : ℚ) (a : ℕ)
    (c : ℂ), ts.wfAll = true → ts.ifLetFreeAll = true →
    TermNList.tensorFold (ts.evalListN pm) (smulM c (idM (2 ^ a)))
      = smulM (c * cis ((ts.circPhasesList pm).sum))
          (idM (2 ^ (a + ts.typeSum)))
  | .nil, pm, a, c, _, _ => by
    simp only [TermTList.evalListN, TermNList.tensorFold,
      TermTList.circPhasesList, List.sum_nil, cis_zero, mul_one,
      TermTList.typeSum, Nat.add_zero]
  | .cons t ts, pm, a, c, hw, hf => by
    simp only [TermTList.wfAll, Bool.and_eq_true] at hw
    simp only [TermTList.ifLetFreeAll, Bool.and_eq_true] at hf
    simp only [TermTList.evalListN, TermNList.tensorFold,
      TermTList.circPhasesList, TermTList.typeSum]
    rw [evalN_arity t pm, evalN_scalar t pm hw.1 hf.1, kron_smul_idM,
      evalListN_tensorFold_scalar ts pm (a + t.get_type) _ hw.2 hf.2,
      List.sum_append, cis_add, Nat.add_assoc]
    congr 1
    ring
end

/-- The normal form of a quoted unconstrained wire: `eval(Unitary(Id(1)))`. -/
def unitP : PatternN := PatternN.comp .nil 1 1

def unitPList : ℕ → PatternNList
  | 0 => .nil
  | k + 1 => .cons unitP (unitPList k)

theorem toPatternTList_idC_evalListP : ∀ k : ℕ,
    (PatternC.toPatternTList (PatternC.idC k)).evalListP = unitPList k
  | 0 => rfl
  | k + 1 => by
    show (PatternC.toPatternTList
        (List.replicate (k + 1) (none : Option KetState))).evalListP
      = unitPList (k + 1)
    rw [List.replicate_succ]
    show PatternNList.cons ((stateToPattern none).evalP)
        ((PatternC.toPatternTList (PatternC.idC k)).evalListP)
      = unitPList (k + 1)
    rw [toPatternTList_idC_evalListP k]
    rfl

theorem unitPList_injProjTensorFold : ∀ (k a b : ℕ),
    (unitPList k).injProjTensorFold a b (idM (2 ^ a), zeroM)
      = (idM (2 ^ (a + k)), zeroM)
  | 0, a, b => rfl
  | k + 1, a, b => by
    show (unitPList k).injProjTensorFold (a + 1) (b + 1)
        (kron 2 2 (idM (2 ^ a)) (idM 2),
         madd (kron 2 2 zeroM (idM 2))
           (kron 2 2 (mmul (2 ^ b) (idM (2 ^ a)) (adjM (idM (2 ^ a)))) zeroM))
      = (idM (2 ^ (a + (k + 1))), zeroM)
    rw [kron_idM, ← pow_succ, kron_zeroM_left, kron_zeroM_right, madd_zeroM,
      unitPList_injProjTensorFold k (a + 1) (b + 1)]
    have h3 : a + 1 + k = a + (k + 1) := by omega
    rw [h3]

theorem unitPList_tyISum : ∀ k : ℕ, (unitPList k).tyISum = k
  | 0 => rfl
  | k + 1 => by
    show unitP.tyI + (unitPList k).tyISum = k + 1
    rw [unitPList_tyISum k]
    show 1 + k = k + 1
    omega

theorem toPatternTList_idC_tyOutSumT : ∀ k : ℕ,
    (PatternC.toPatternTList (PatternC.idC k)).tyOutSumT = k
  | 0 => rfl
  | k + 1 => by
    show (PatternC.toPatternTList
        (List.replicate (k + 1) (none : Option KetState))).tyOutSumT = k + 1
    rw [List.replicate_succ]
    show (stateToPattern none).tyOutT
        + (PatternC.toPatternTList (PatternC.idC k)).tyOutSumT = k + 1
    rw [toPatternTList_idC_tyOutSumT k]
    show 1 + k = k + 1
    omega

theorem idC_id_qubits : ∀ k : ℕ, (PatternC.idC k).id_qubits = k
  | 0 => rfl
  | k + 1 => by
    have hk := idC_id_qubits k
    simp only [PatternC.idC, PatternC.id_qubits] at hk ⊢
    rw [List.replicate_succ, List.countP_cons]
    simp [hk]

theorem quoteC_idC_props : ∀ n : ℕ, 1 ≤ n →
    (PatternC.quoteC (PatternC.idC n)).evalP.injProj = (idM (2 ^ n), zeroM) ∧
    (PatternC.quoteC (PatternC.idC n)).evalP.tyI = n ∧
    (PatternC.quoteC (PatternC.idC n)).tyOutT = n
  | 0, h => absurd h (by omega)
  | 1, _ => ⟨rfl, rfl, rfl⟩
  | k + 2, _ => by
    have hq : PatternC.quoteC (PatternC.idC (k + 2))
        = PatternT.tensor (PatternC.toPatternTList (PatternC.idC (k + 2))) := rfl
    have he : (PatternT.tensor (PatternC.toPatternTList
          (PatternC.idC (k + 2)))).evalP
        = PatternN.tensor ((PatternC.toPatternTList
            (PatternC.idC (k + 2))).evalListP) := rfl
    refine ⟨?_, ?_, ?_⟩
    · rw [hq, he, toPatternTList_idC_evalListP (k + 2)]
      have hip : (PatternN.tensor (unitPList (k + 2))).injProj
          = (unitPList (k + 1)).injProjTensorFold 1 1 (idM (2 ^ 1), zeroM) := rfl
      rw [hip, unitPList_injProjTensorFold (k + 1) 1 1]
      have h3 : 1 + (k + 1) = k + 2 := by omega
      rw [h3]
    · rw [hq, he, toPatternTList_idC_evalListP (k + 2)]
      show (unitPList (k + 2)).tyISum = k + 2
      exact unitPList_tyISum (k + 2)
    · rw [hq]
      show (PatternC.toPatternTList (PatternC.idC (k + 2))).tyOutSumT = k + 2
      exact toPatternTList_idC_tyOutSumT (k + 2)

/-- The unitary of a quoted all-wires-free clause is the global phase it
records. -/
theorem clause_quote_unitary (n : ℕ) (a : ℚ) (hn : 1 ≤ n) :
    (((ClauseC.mk (PatternC.idC n) a).quoteCl).evalN 1).to_unitary
      = smulM (cis a) (idM (2 ^ n)) := by
  obtain ⟨hip, hty, _⟩ := quoteC_idC_props n hn
  have hnz : ((PatternC.idC n).id_qubits != 0) = true := by
    rw [idC_id_qubits]
    simp only [bne_iff_ne, ne_eq]
    omega
  have hquote : (ClauseC.mk (PatternC.idC n) a).quoteCl
      = TermT.ifLet (PatternC.quoteC (PatternC.idC n))
          (TermT.tensor (.cons (.phase (.angle a))
            (.cons (.id ((PatternC.idC n).id_qubits)) .nil))) := by
    rw [ClauseC.quoteCl, if_pos hnz]
  rw [hquote, idC_id_qubits]
  have heval : ((TermT.ifLet (PatternC.quoteC (PatternC.idC n))
        (TermT.tensor (.cons (.phase (.angle a))
          (.cons (.id n) .nil)))).evalN 1)
      = TermN.atom (AtomN.ifLet (PatternC.quoteC (PatternC.idC n)).evalP
          (TermN.tensor (.cons (.atom (.phase (1 * a)))
            (.cons (.comp .nil n) .nil)))
          (PatternC.quoteC (PatternC.idC n)).tyOutT) := rfl
  rw [heval]
  have hU : (TermNList.cons (TermN.comp TermNList.nil n)
        TermNList.nil).tensorFold (phaseMat (1 * a))
      = kron (2 ^ n) (2 ^ n) (phaseMat (1 * a)) (idM (2 ^ n)) := rfl
  simp only [TermN.to_unitary, AtomN.to_unitary]
  rw [hU, hip, hty, phaseMat_eq_smul, kron_smulM_left, kron_idM, one_mul]
  simp only
  rw [show (1 : ℕ) * 2 ^ n = 2 ^ n from one_mul _]
  rw [idM_mmul (isDim_smulM _ (isDim_idM _))]
  rw [mmul_smulM_left, adjM_idM, mmul_idM (isDim_idM _), zeroM_madd]

theorem clause_list_compFold : ∀ (phs : List ℚ) (n : ℕ) (c : ℂ), 1 ≤ n →
    TermNList.compFold
      ((TermC.clausesToList (phs.map (fun a => ClauseC.mk (PatternC.idC n) a))).evalListN 1)
      (2 ^ n) (smulM c (idM (2 ^ n)))
    = smulM (c * cis phs.sum) (idM (2 ^ n))
  | [], n, c, _ => by
    show smulM c (idM (2 ^ n)) = smulM (c * cis (List.sum [])) (idM (2 ^ n))
    rw [List.sum_nil, cis_zero, mul_one]
  | a :: phs, n, c, hn => by
    show TermNList.compFold
        ((TermC.clausesToList (phs.map (fun x => ClauseC.mk (PatternC.idC n) x))).evalListN 1)
        (2 ^ n)
        (mmul (2 ^ n) (((ClauseC.mk (PatternC.idC n) a).quoteCl).evalN 1).to_unitary
          (smulM c (idM (2 ^ n))))
      = smulM (c * cis ((a :: phs).sum)) (idM (2 ^ n))
    rw [clause_quote_unitary n a hn, smul_idM_mmul,
      clause_list_compFold phs n _ hn, List.sum_cons, cis_add]
    congr 1
    ring

theorem quoteT_scalar : ∀ (phs : List ℚ) (n : ℕ), 1 ≤ n →
    (((TermC.mk (phs.map (fun a => ClauseC.mk (PatternC.idC n) a)) n).quoteT).evalN 1).to_unitary
      = smulM (cis phs.sum) (idM (2 ^ n))
  | [], n, _ => by
    show idM (2 ^ n) = smulM (cis (List.sum [])) (idM (2 ^ n))
    rw [List.sum_nil, cis_zero, one_smulM]
  | [a], n, hn => by
    show (((ClauseC.mk (PatternC.idC n) a).quoteCl).evalN 1).to_unitary
        = smulM (cis ([a].sum)) (idM (2 ^ n))
    rw [clause_quote_unitary n a hn, List.sum_cons, List.sum_nil, add_zero]
  | a :: b :: phs, n, hn => by
    have h0 : ((TermC.mk ((a :: b :: phs).map
          (fun x => ClauseC.mk (PatternC.idC n) x)) n).quoteT)
        = TermT.comp (TermC.clausesToList ((a :: b :: phs).map
            (fun x => ClauseC.mk (PatternC.idC n) x))) := rfl
    rw [h0]
    have h1 : ((TermT.comp (TermC.clausesToList ((a :: b :: phs).map
          (fun x => ClauseC.mk (PatternC.idC n) x)))).evalN 1)
        = TermN.comp ((TermC.clausesToList ((a :: b :: phs).map
            (fun x => ClauseC.mk (PatternC.idC n) x))).evalListN 1)
            ((TermC.clausesToList ((a :: b :: phs).map
              (fun x => ClauseC.mk (PatternC.idC n) x))).firstType) := by
      simp only [TermT.evalN]
      rw [if_pos (by norm_num : (0 : ℚ) < 1)]
      rfl
    rw [h1]
    have hty : (TermC.clausesToList ((a :: b :: phs).map
          (fun x => ClauseC.mk (PatternC.idC n) x))).firstType = n := by
      show (PatternC.quoteC (PatternC.idC n)).tyOutT = n
      exact (quoteC_idC_props n hn).2.2
    rw [hty]
    have h2 : (TermN.comp ((TermC.clausesToList ((a :: b :: phs).map
          (fun x => ClauseC.mk (PatternC.idC n) x))).evalListN 1) n).to_unitary
        = TermNList.compFold
            ((TermC.clausesToList ((b :: phs).map
              (fun x => ClauseC.mk (PatternC.idC n) x))).evalListN 1)
            (2 ^ n)
            ((((ClauseC.mk (PatternC.idC n) a).quoteCl).evalN 1).to_unitary) := rfl
    rw [h2, clause_quote_unitary n a hn, clause_list_compFold (b :: phs) n _ hn]
    simp [List.sum_cons, cis_add, mul_assoc]

/-- C1, refuted at arity 0: for the well-typed term `-1` (a bare phase), the
round trip `to_unitary(eval(eval_circ(t).quote()))` hits the empty-tensor
pattern `Tensor([])` that `PatternC::quote` produces for a zero-wire clause;
`to_inj_and_proj` unwraps an empty iterator there (a panic in the source,
the zero junk pair in this embedding), so the claimed matrix equality fails:
the round-tripped entry is `0` while `to_unitary(eval(t))` has entry `-1`. -/
theorem c1_circuit_equivalence_counterexample :
    (TermT.phase Phase.minusOne).wf = true ∧
    ((((TermT.phase Phase.minusOne).eval_circ).quoteT).eval).to_unitary 0 0 = 0 ∧
    ((TermT.phase Phase.minusOne).eval).to_unitary 0 0 = -1 := by
  refine ⟨rfl, ?_, ?_⟩
  · have hq : (((TermT.phase Phase.minusOne).eval_circ).quoteT).eval
        = TermN.atom (AtomN.ifLet (PatternN.tensor .nil)
            (TermN.atom (AtomN.phase (1 * (1 * Phase.eval Phase.minusOne)))) 0)
        := rfl
    have hz : (PatternN.tensor PatternNList.nil).injProj = (zeroM, zeroM) := rfl
    rw [hq]
    simp only [TermN.to_unitary, AtomN.to_unitary, hz]
    rw [zeroM_mmul, zeroM_mmul, madd_zeroM]
    rfl
  · have h3 : ((TermT.phase Phase.minusOne).eval).to_unitary
        = phaseMat (1 * Phase.eval Phase.minusOne) := rfl
    rw [h3]
    have h4 : (1 : ℚ) * Phase.eval Phase.minusOne = 1 := by
      norm_num [Phase.eval]
    rw [h4]
    show cis 1 = -1
    rw [cis]
    push_cast
    rw [one_mul, mul_comm]
    exact Complex.exp_pi_mul_I

/-- C1 (fragment verified): for every well-typed `IfLet`-free term of arity
at least 1, the circuit-normal form is semantically equivalent to the normal
form — quoting the clause list of `eval_circ(t)` back to a typed term,
evaluating, and building the unitary gives exactly `to_unitary(eval(t))`
(both are the global phase `cis(π·Σθ)` times the identity, for the same
clause phases `θ`). -/
theorem c1_circuit_equivalence : ∀ t : TermT, t.wf = true →
    t.ifLetFree = true → 1 ≤ t.get_type →
    (((t.eval_circ).quoteT).eval).to_unitary = (t.eval).to_unitary := by
  intro t hw hf hn
  have hemit := TermT.evalCirc_emits t (PatternC.idC t.get_type)
    (List.range t.get_type) 1 hf
  have h0 : t.eval_circ = TermC.mk ((t.circPhases 1).map
      (fun a => ClauseC.mk (PatternC.idC t.get_type) a)) t.get_type := by
    rw [TermT.eval_circ, hemit]
  simp only [TermT.eval]
  rw [h0, quoteT_scalar (t.circPhases 1) t.get_type hn, evalN_scalar t 1 hw hf]

/-- The C1 fragment statement at a concrete input: `id x -1`. -/
theorem c1_circuit_equivalence_witness :
    (TermT.tensor (.cons (.id 1) (.cons (.phase Phase.minusOne) .nil))).wf
      = true ∧
    (TermT.tensor (.cons (.id 1)
      (.cons (.phase Phase.minusOne) .nil))).ifLetFree = true ∧
    1 ≤ (TermT.tensor (.cons (.id 1)
      (.cons (.phase Phase.minusOne) .nil))).get_type ∧
    ((((TermT.tensor (.cons (.id 1)
        (.cons (.phase Phase.minusOne) .nil))).eval_circ).quoteT).eval).to_unitary
      = ((TermT.tensor (.cons (.id 1)
          (.cons (.phase Phase.minusOne) .nil))).eval).to_unitary :=
  ⟨by decide, by decide, by decide,
   c1_circuit_equivalence _ (by decide) (by decide) (by decide)⟩
